import Mathlib

/-!
# ComputoLua: the Lua <-> JSON marshalling layer of `src/lua_bindings.cpp`

A shallow embedding of the three functions of the binding:

* `lua_value_to_json`  (Lua value on the stack  ->  `nlohmann::json`),
* `json_to_lua_value`  (`nlohmann::json`  ->  Lua value pushed on the stack),
* `lua_computo_execute` (the `computo.execute` entry point).

The Lua stack is abstracted: a value on the stack is a term of `LuaValue`, and
a table is the list of its entries in `lua_next` order together with the length
that `lua_len` reports for it.  Tables are plain (no metatables) and finite
(a cyclic table is not a term of `LuaValue`).
-/

namespace ComputoLua

/-! ## Data model -/

/-- A `lua_Number` (C `double`), identified by its IEEE-754 binary64 bit
pattern.  The binding never computes with it: it is copied between the two
value models and, for a table key, handed to `std::to_string`. -/
structure LuaNumber where
  bits : Nat
deriving DecidableEq, Repr

/-- The Lua types for which `lua_value_to_json` has no `case`. -/
inductive LuaOtherType where
  | lightuserdata
  | function
  | userdata
  | thread
deriving DecidableEq, Repr

/-- A Lua value as seen through `lua_type` / `lua_isinteger`.

`table len entries`: `entries` are the key/value pairs in the order `lua_next`
yields them; `len` is the value the code holds in `int len` after
`lua_len` + `lua_tointeger` (the length the host reports for this table).
Strings are Lua byte strings; the NUL byte is the character of code 0. -/
inductive LuaValue where
  | nil
  | boolean (b : Bool)
  | integer (n : Int)
  | number (x : LuaNumber)
  | string (s : String)
  | table (len : Int) (entries : List (LuaValue × LuaValue))
  | other (t : LuaOtherType)

/-- The value model `nlohmann::json`.  `object` holds the members of the
underlying `std::map<std::string, json>` in its iteration order, that is,
sorted by key, each key once. -/
inductive Json where
  | null
  | boolean (b : Bool)
  | number_integer (n : Int)
  | number_unsigned (n : Nat)
  | number_float (x : LuaNumber)
  | string (s : String)
  | array (elems : List Json)
  | object (members : List (String × Json))

/-! ## Library functions used by the binding -/

/-- What a `std::string` built from a `const char*` holds: the bytes before the
first NUL.  Both `json(lua_tostring(..))` and `lua_pushstring(.., s.c_str())`
go through a C string. -/
def c_str (s : String) : String :=
  ⟨s.data.takeWhile (fun c => c != Char.ofNat 0)⟩

/-- Decimal rendering `std::to_string(long long)`. -/
def std_to_string : Int → String
  | Int.ofNat m => Nat.repr m
  | Int.negSucc m => "-" ++ Nat.repr (m + 1)

/-- Lexicographic comparison of two byte sequences. -/
def bytes_less : List Char → List Char → Bool
  | [], [] => false
  | [], _ :: _ => true
  | _ :: _, [] => false
  | a :: as, b :: bs =>
    if a.toNat < b.toNat then true
    else if b.toNat < a.toNat then false
    else bytes_less as bs

/-- The key order of the object map, `std::less<std::string>`. -/
def string_less (a b : String) : Bool :=
  bytes_less a.data b.data

/-- Member assignment `result[key] = value` on a `std::map`: the value of an
existing key is replaced, a new key is inserted at its sorted position. -/
def json_object_set : List (String × Json) → String → Json → List (String × Json)
  | [], key, value => [(key, value)]
  | (k, v) :: rest, key, value =>
    if string_less key k then (key, value) :: (k, v) :: rest
    else if key = k then (key, value) :: rest
    else (k, v) :: json_object_set rest key value

/-- Whether a table key is the integer `i` (the key `lua_pushinteger(i)` +
`lua_gettable` looks up). -/
def is_integer_key (i : Int) : LuaValue → Bool
  | .integer n => n == i
  | _ => false

/-- Plain `lua_gettable` with the integer key `i`: the value stored under `i`,
`nil` when the table has no such key. -/
def lua_gettable : List (LuaValue × LuaValue) → Int → LuaValue
  | [], _ => .nil
  | (k, v) :: rest, i => if is_integer_key i k then v else lua_gettable rest i

/-- The test `lua_type(L, -1) == LUA_TNIL`. -/
def is_nil : LuaValue → Bool
  | .nil => true
  | _ => false

/-- The indices `1, 2, ..., len` visited by `for (int i = 1; i <= len; ++i)`. -/
def indices (len : Int) : List Int :=
  (List.range len.toNat).map (fun (k : Nat) => (k : Int) + 1)

/-- Lines 40-55: `is_array` after the verification loop. -/
def verify_array (len : Int) (entries : List (LuaValue × LuaValue)) : Bool :=
  decide (0 < len) && (indices len).all (fun i => !is_nil (lua_gettable entries i))

/-- Lines 73-85: the JSON key of a table key during object conversion.
`fmt` is `std::to_string(double)`. -/
def table_key (fmt : LuaNumber → String) : LuaValue → Except String String
  | .string s => .ok (c_str s)
  | .integer n => .ok (std_to_string n)
  | .number x => .ok (fmt x)
  | _ => .error "Invalid table key type"

/-- The loop `for (i = 1; i <= array_size; ++i) result.push_back(f i)`, where
`f i` may throw: the first exception leaves the loop. -/
def push_back_all (f : Int → Except String Json) : List Int → Except String (List Json)
  | [] => .ok []
  | i :: rest =>
    match f i with
    | .error e => .error e
    | .ok j =>
      match push_back_all f rest with
      | .error e => .error e
      | .ok js => .ok (j :: js)

/-! ## `lua_value_to_json` -/

mutual
/-- Lines 13-97.  `fmt` is `std::to_string(double)`; an exception
`std::runtime_error(msg)` is `Except.error msg`. -/
def lua_value_to_json (fmt : LuaNumber → String) : LuaValue → Except String Json
  | .nil => .ok .null
  | .boolean b => .ok (.boolean b)
  | .integer n => .ok (.number_integer n)
  | .number x => .ok (.number_float x)
  | .string s => .ok (.string (c_str s))
  | .table len entries =>
    if verify_array len entries then
      match push_back_all (fun i => element_to_json fmt entries i) (indices len) with
      | .error e => .error e
      | .ok js => .ok (.array js)
    else
      match object_loop fmt entries [] with
      | .error e => .error e
      | .ok members => .ok (.object members)
  | .other _ => .error "Unsupported Lua type for JSON conversion"
/-- Lines 61-63: `lua_gettable` with key `i`, then `lua_value_to_json` on the
value found (`nil` when the key is absent). -/
def element_to_json (fmt : LuaNumber → String) : List (LuaValue × LuaValue) → Int →
    Except String Json
  | [], _ => .ok .null
  | (k, v) :: rest, i =>
    if is_integer_key i k then lua_value_to_json fmt v else element_to_json fmt rest i
/-- Lines 69-90: the `lua_next` loop, `result` being the object built so far. -/
def object_loop (fmt : LuaNumber → String) : List (LuaValue × LuaValue) →
    List (String × Json) → Except String (List (String × Json))
  | [], result => .ok result
  | (k, v) :: rest, result =>
    match table_key fmt k with
    | .error e => .error e
    | .ok key =>
      match lua_value_to_json fmt v with
      | .error e => .error e
      | .ok j => object_loop fmt rest (json_object_set result key j)
end

/-! ## `json_to_lua_value` -/

/-- The conversion `static_cast<lua_Integer>(uint64_t)`: the 64-bit pattern
read as a signed integer. -/
def to_lua_Integer (u : Nat) : Int :=
  if u % 2 ^ 64 < 2 ^ 63 then ((u % 2 ^ 64 : Nat) : Int) else ((u % 2 ^ 64 : Nat) : Int) - 2 ^ 64

/-- Raw equality of two table keys, for the keys `json_to_lua_value` writes
(integers and strings). -/
def same_key : LuaValue → LuaValue → Bool
  | .integer a, .integer b => a == b
  | .string a, .string b => a == b
  | _, _ => false

/-- Plain `lua_settable(t, key, value)` on the entries of a table: storing `nil`
removes the key, storing under an existing key replaces its value, a new key is
added.  The model lists a new key last; the order in which the host later
iterates the table is its own. -/
def lua_settable : List (LuaValue × LuaValue) → LuaValue → LuaValue →
    List (LuaValue × LuaValue)
  | [], key, value => if is_nil value then [] else [(key, value)]
  | (k, v) :: rest, key, value =>
    if same_key k key then (if is_nil value then rest else (k, value) :: rest)
    else (k, v) :: lua_settable rest key value

mutual
/-- Lines 100-147.  The value pushed on the stack.  `host_len t` is the length
the host reports for a table that was just built with the entries `t`. -/
def json_to_lua_value (host_len : List (LuaValue × LuaValue) → Int) : Json → LuaValue
  | .null => .nil
  | .boolean b => .boolean b
  | .number_integer n => .integer n
  | .number_unsigned u => .integer (to_lua_Integer u)
  | .number_float x => .number x
  | .string s => .string (c_str s)
  | .array elems =>
    let t := array_loop host_len elems 1 []
    .table (host_len t) t
  | .object members =>
    let t := items_loop host_len members []
    .table (host_len t) t
/-- Lines 128-132: the loop over `json_val[i]`, writing key `i + 1`; `key` is the
next key and `t` the table so far. -/
def array_loop (host_len : List (LuaValue × LuaValue) → Int) : List Json → Int →
    List (LuaValue × LuaValue) → List (LuaValue × LuaValue)
  | [], _, t => t
  | x :: rest, key, t =>
    array_loop host_len rest (key + 1)
      (lua_settable t (.integer key) (json_to_lua_value host_len x))
/-- Lines 137-141: the loop over `json_val.items()`. -/
def items_loop (host_len : List (LuaValue × LuaValue) → Int) : List (String × Json) →
    List (LuaValue × LuaValue) → List (LuaValue × LuaValue)
  | [], t => t
  | (k, x) :: rest, t =>
    items_loop host_len rest
      (lua_settable t (.string (c_str k)) (json_to_lua_value host_len x))
end

/-- The entries the loop of lines 128-132 adds for the elements `elems`, the
first of them written under `key`: one entry per element whose emission is not
`nil`. -/
def array_entries (host_len : List (LuaValue × LuaValue) → Int) : List Json → Int →
    List (LuaValue × LuaValue)
  | [], _ => []
  | x :: rest, key =>
    (if is_nil (json_to_lua_value host_len x) then []
      else [(LuaValue.integer key, json_to_lua_value host_len x)]) ++
      array_entries host_len rest (key + 1)

/-- The entries the loop of lines 137-141 adds for members with distinct keys:
one entry per member whose emission is not `nil`, under the key of the member
read as a C string. -/
def items_entries (host_len : List (LuaValue × LuaValue) → Int) : List (String × Json) →
    List (LuaValue × LuaValue)
  | [] => []
  | (k, x) :: rest =>
    (if is_nil (json_to_lua_value host_len x) then []
      else [(LuaValue.string (c_str k), json_to_lua_value host_len x)]) ++
      items_entries host_len rest

/-- A `nlohmann::json` of any `value_t`: the eight kinds of `Json`, and the two
further alternatives of the enumeration, `binary` and `discarded`. -/
inductive AnyJson where
  | null
  | object (members : List (String × AnyJson))
  | array (elems : List AnyJson)
  | string (s : String)
  | boolean (b : Bool)
  | number_integer (n : Int)
  | number_unsigned (n : Nat)
  | number_float (x : LuaNumber)
  | binary (bytes : List Nat)
  | discarded

mutual
/-- Lines 100-147 on every `value_t`, with the `default` branch of line 144: the
value pushed, or the message of the exception thrown. -/
def json_to_lua_value_any (host_len : List (LuaValue × LuaValue) → Int) :
    AnyJson → Except String LuaValue
  | .null => .ok .nil
  | .boolean b => .ok (.boolean b)
  | .number_integer n => .ok (.integer n)
  | .number_unsigned u => .ok (.integer (to_lua_Integer u))
  | .number_float x => .ok (.number x)
  | .string s => .ok (.string (c_str s))
  | .array elems =>
    match array_loop_any host_len elems 1 [] with
    | .error e => .error e
    | .ok t => .ok (.table (host_len t) t)
  | .object members =>
    match items_loop_any host_len members [] with
    | .error e => .error e
    | .ok t => .ok (.table (host_len t) t)
  | .binary _ => .error "Unsupported JSON type for Lua conversion"
  | .discarded => .error "Unsupported JSON type for Lua conversion"
/-- Lines 128-132 on every `value_t`: an exception of a nested call leaves the
loop. -/
def array_loop_any (host_len : List (LuaValue × LuaValue) → Int) : List AnyJson → Int →
    List (LuaValue × LuaValue) → Except String (List (LuaValue × LuaValue))
  | [], _, t => .ok t
  | x :: rest, key, t =>
    match json_to_lua_value_any host_len x with
    | .error e => .error e
    | .ok v => array_loop_any host_len rest (key + 1) (lua_settable t (.integer key) v)
/-- Lines 137-141 on every `value_t`. -/
def items_loop_any (host_len : List (LuaValue × LuaValue) → Int) :
    List (String × AnyJson) → List (LuaValue × LuaValue) →
    Except String (List (LuaValue × LuaValue))
  | [], t => .ok t
  | (k, x) :: rest, t =>
    match json_to_lua_value_any host_len x with
    | .error e => .error e
    | .ok v => items_loop_any host_len rest (lua_settable t (.string (c_str k)) v)
end

mutual
/-- A value of the closed set, as a `nlohmann::json`. -/
def to_any : Json → AnyJson
  | .null => .null
  | .boolean b => .boolean b
  | .number_integer n => .number_integer n
  | .number_unsigned u => .number_unsigned u
  | .number_float x => .number_float x
  | .string s => .string s
  | .array elems => .array (elems_to_any elems)
  | .object members => .object (members_to_any members)
/-- The elements of an array, each as a `nlohmann::json`. -/
def elems_to_any : List Json → List AnyJson
  | [] => []
  | x :: rest => to_any x :: elems_to_any rest
/-- The members of an object, each value as a `nlohmann::json`. -/
def members_to_any : List (String × Json) → List (String × AnyJson)
  | [] => []
  | (k, x) :: rest => (k, to_any x) :: members_to_any rest
end

mutual
/-- The JSON values of claim C17: no `null` inside an Array or an Object, no
empty Array, no unsigned integer, no String (or key) with a NUL byte. -/
def host_clean : Json → Prop
  | .null => True
  | .boolean _ => True
  | .number_integer _ => True
  | .number_unsigned _ => False
  | .number_float _ => True
  | .string s => c_str s = s
  | .array elems => elems ≠ [] ∧ host_clean_elems elems
  | .object members => host_clean_members members
/-- Every element is `host_clean` and is not `null`. -/
def host_clean_elems : List Json → Prop
  | [] => True
  | x :: rest => x ≠ .null ∧ host_clean x ∧ host_clean_elems rest
/-- Every member has a key without NUL and a `host_clean` value that is not
`null`. -/
def host_clean_members : List (String × Json) → Prop
  | [] => True
  | (k, x) :: rest => c_str k = k ∧ x ≠ .null ∧ host_clean x ∧ host_clean_members rest
end

mutual
/-- The invariant of the object map, at every depth: the members of an Object
are strictly sorted by key (each key once). -/
def sorted_objects : Json → Prop
  | .array elems => sorted_objects_elems elems
  | .object members =>
    List.Pairwise (fun a b => string_less a.1 b.1 = true) members ∧
      sorted_objects_members members
  | _ => True
/-- Every element satisfies `sorted_objects`. -/
def sorted_objects_elems : List Json → Prop
  | [] => True
  | x :: rest => sorted_objects x ∧ sorted_objects_elems rest
/-- Every member value satisfies `sorted_objects`. -/
def sorted_objects_members : List (String × Json) → Prop
  | [] => True
  | (_, x) :: rest => sorted_objects x ∧ sorted_objects_members rest
end

/-- The test of lines 74 and 76 on a table key: its type is `LUA_TSTRING` or
`LUA_TNUMBER`. -/
def is_string_or_number : LuaValue → Bool
  | .string _ => true
  | .integer _ => true
  | .number _ => true
  | _ => false

/-- Member lookup `find(key)` in the object map: the value stored under `key`. -/
def json_object_get : List (String × Json) → String → Option Json
  | [], _ => none
  | (k, v) :: rest, key => if key = k then some v else json_object_get rest key

/-- A Boolean, an Integer, a Float, or a String without a NUL byte. -/
def is_plain_scalar : LuaValue → Bool
  | .boolean _ => true
  | .integer _ => true
  | .number _ => true
  | .string s => decide (c_str s = s)
  | _ => false

/-! ## `lua_computo_execute` -/

/-- The tests `lua_istable(L, idx)`. -/
def is_table : LuaValue → Bool
  | .table _ _ => true
  | _ => false

/-- The message of `luaL_error(L, "Computo execution error: %s", e.what())`. -/
def execution_error (what : String) : String :=
  "Computo execution error: " ++ what

/-- Lines 188-194: call the engine on `script` and `inputs`, push the converted
result.  An exception of the engine is caught by the handler of line 196. -/
def run_engine (host_len : List (LuaValue × LuaValue) → Int)
    (engine : Json → List Json → Except String Json)
    (script : Json) (inputs : List Json) : Except String LuaValue :=
  match engine script inputs with
  | .error e => .error (execution_error e)
  | .ok result => .ok (json_to_lua_value host_len result)

/-- Lines 152-199.  `args` is the Lua stack at entry (`lua_gettop` arguments),
`engine` is `computo::execute`, throwing `std::exception(msg)` as
`Except.error msg`.  The result is the value returned to Lua, or the message of
the Lua error raised by `luaL_error`. -/
def lua_computo_execute (fmt : LuaNumber → String)
    (host_len : List (LuaValue × LuaValue) → Int)
    (engine : Json → List Json → Except String Json)
    (args : List LuaValue) : Except String LuaValue :=
  let argc := args.length
  if argc < 1 ∨ argc > 2 then
    .error ("execute() expects 1 or 2 arguments, got " ++ Nat.repr argc)
  else if !is_table (args.getD 0 .nil) then
    .error "execute() first argument (script) must be a table"
  else
    match lua_value_to_json fmt (args.getD 0 .nil) with
    | .error e => .error (execution_error e)
    | .ok script =>
      if argc = 2 then
        if is_table (args.getD 1 .nil) then
          match lua_value_to_json fmt (args.getD 1 .nil) with
          | .error e => .error (execution_error e)
          | .ok (.array elems) => run_engine host_len engine script elems
          | .ok inputs_json => run_engine host_len engine script [inputs_json]
        else if !is_nil (args.getD 1 .nil) then
          .error "execute() second argument (inputs) must be a table or nil"
        else run_engine host_len engine script []
      else run_engine host_len engine script []

/-- Lines 174-182: the input documents taken from the converted second argument,
the elements of an Array, or the value itself as the only document. -/
def input_documents : Json → List Json
  | .array elems => elems
  | j => [j]

/-! ## Predicates on host values -/

mutual
/-- A host value built only from `nil`, Booleans, Integers, Floats, Strings and
tables whose keys are Strings or numbers and whose values are again such
values. -/
def supported : LuaValue → Bool
  | .nil => true
  | .boolean _ => true
  | .integer _ => true
  | .number _ => true
  | .string _ => true
  | .table _ entries => supported_entries entries
  | .other _ => false
/-- Every entry has a String or number key and a supported value. -/
def supported_entries : List (LuaValue × LuaValue) → Bool
  | [] => true
  | (k, v) :: rest => is_string_or_number k && supported v && supported_entries rest
end

mutual
/-- Every key of every table inside the value, at any depth among the values, is
a String or a number. -/
def keys_ok : LuaValue → Bool
  | .table _ entries => keys_ok_entries entries
  | _ => true
/-- The keys of these entries, and of the tables inside their values, are
Strings or numbers. -/
def keys_ok_entries : List (LuaValue × LuaValue) → Bool
  | [] => true
  | (k, v) :: rest => is_string_or_number k && keys_ok v && keys_ok_entries rest
end

/-- The conversion of the value visits a value of a kind without a `case`: the
value itself, or, at any depth, an element under a key `1..len` of a table that
takes the array path, or the value of an entry of a table that takes the object
path. -/
inductive ReachesUnsupported : LuaValue → Prop where
  | here (t : LuaOtherType) : ReachesUnsupported (.other t)
  | element (len : Int) (entries : List (LuaValue × LuaValue)) (i : Int) :
      verify_array len entries = true → 1 ≤ i → i ≤ len →
      ReachesUnsupported (lua_gettable entries i) → ReachesUnsupported (.table len entries)
  | member (len : Int) (entries : List (LuaValue × LuaValue)) (k v : LuaValue) :
      verify_array len entries = false → (k, v) ∈ entries →
      ReachesUnsupported v → ReachesUnsupported (.table len entries)

/-- The integer `n` is a border of the table: `n` is 0 or the key `n` is present,
and the key `n + 1` is absent.  The length a host reports for a plain table is one
of its borders. -/
def is_border (t : List (LuaValue × LuaValue)) (n : Int) : Prop :=
  0 ≤ n ∧ (n = 0 ∨ lua_gettable t n ≠ .nil) ∧ lua_gettable t (n + 1) = .nil

mutual
/-- The host values the two conversions carry back and forth: no value of a kind
without a `case`, no String with a NUL byte, and every table, at any depth, is
either a sequence (reported length `len ≥ 1`, keys exactly `1..len`) or a record
(reported length 0, keys distinct Strings without NUL); no entry holds `nil`. -/
def round_trippable : LuaValue → Prop
  | .nil => True
  | .boolean _ => True
  | .integer _ => True
  | .number _ => True
  | .string s => c_str s = s
  | .table len entries =>
    ((1 ≤ len ∧ (entries.map Prod.fst).Perm ((indices len).map LuaValue.integer)) ∨
      (len = 0 ∧ (∀ e ∈ entries, ∃ s, e.1 = LuaValue.string s ∧ c_str s = s) ∧
        (entries.map Prod.fst).Nodup)) ∧
    round_trippable_values entries
  | .other _ => False
/-- Every value of these entries is non-nil and `round_trippable`. -/
def round_trippable_values : List (LuaValue × LuaValue) → Prop
  | [] => True
  | (_, v) :: rest => v ≠ .nil ∧ round_trippable v ∧ round_trippable_values rest
end

mutual
/-- Equality of two host values up to the order in which the tables, at any
depth, list their entries: the same scalar, or two tables of the same reported
length whose entries are, after a reordering, pairwise under the same key with
values equal up to order. -/
inductive SameUpToOrder : LuaValue → LuaValue → Prop where
  | nil : SameUpToOrder .nil .nil
  | boolean (b : Bool) : SameUpToOrder (.boolean b) (.boolean b)
  | integer (n : Int) : SameUpToOrder (.integer n) (.integer n)
  | number (x : LuaNumber) : SameUpToOrder (.number x) (.number x)
  | string (s : String) : SameUpToOrder (.string s) (.string s)
  | other (t : LuaOtherType) : SameUpToOrder (.other t) (.other t)
  | table (len : Int) (entries1 entries2 reordered : List (LuaValue × LuaValue)) :
      reordered.Perm entries2 → SameEntries entries1 reordered →
      SameUpToOrder (.table len entries1) (.table len entries2)
/-- Two entry lists with the same keys in the same positions and values equal
up to order. -/
inductive SameEntries : List (LuaValue × LuaValue) → List (LuaValue × LuaValue) → Prop where
  | nil : SameEntries [] []
  | cons (k v1 v2 : LuaValue) (rest1 rest2 : List (LuaValue × LuaValue)) :
      SameUpToOrder v1 v2 → SameEntries rest1 rest2 →
      SameEntries ((k, v1) :: rest1) ((k, v2) :: rest2)
end

/-- Line 37, `int len = lua_tointeger(..)`: the length the host reports, a
`lua_Integer`, narrowed to the 32-bit `int` the code holds (modulo `2^32`).  The
`len` of `LuaValue.table` is this value. -/
def int_len (reported : Int) : Int :=
  (reported + 2 ^ 31) % 2 ^ 32 - 2 ^ 31

/-! ## A concrete host, for evaluating the definitions -/

/-- A rendering of floats for concrete evaluations: 1.5 (bit pattern
`0x3FF8000000000000`) as `std::to_string` prints it; the other floats are not
used in the evaluations below. -/
def to_string_sample (x : LuaNumber) : String :=
  if x.bits = 0x3FF8000000000000 then "1.500000" else "0.000000"

/-- Count the keys `n + 1, n + 2, ...` that are present, at most `fuel` of them. -/
def first_border_from (entries : List (LuaValue × LuaValue)) : Nat → Int → Int
  | 0, n => n
  | fuel + 1, n =>
    if is_nil (lua_gettable entries (n + 1)) then n
    else first_border_from entries fuel (n + 1)

/-- A length function a host may implement: the least border of the table, the
number of consecutive keys `1, 2, ...` that are present. -/
def first_border (entries : List (LuaValue × LuaValue)) : Int :=
  first_border_from entries entries.length 0

/-! ## Basic facts about the helpers -/

theorem is_nil_eq_false_iff (v : LuaValue) : is_nil v = false ↔ v ≠ .nil := by
  cases v <;> simp [is_nil]

theorem is_nil_eq_true_iff (v : LuaValue) : is_nil v = true ↔ v = .nil := by
  cases v <;> simp [is_nil]

theorem mem_indices (len i : Int) : i ∈ indices len ↔ 1 ≤ i ∧ i ≤ len := by
  unfold indices
  simp only [List.mem_map, List.mem_range]
  constructor
  · rintro ⟨k, hk, rfl⟩
    omega
  · rintro ⟨h1, h2⟩
    exact ⟨(i - 1).toNat, by omega, by omega⟩

theorem length_indices (len : Int) : (indices len).length = len.toNat := by
  simp [indices]

theorem get_indices (len : Int) (k : Nat) (h : k < (indices len).length) :
    (indices len).get ⟨k, h⟩ = (k : Int) + 1 := by
  simp [indices]

theorem verify_array_iff (len : Int) (entries : List (LuaValue × LuaValue)) :
    verify_array len entries = true ↔
      0 < len ∧ ∀ i, 1 ≤ i → i ≤ len → lua_gettable entries i ≠ .nil := by
  unfold verify_array
  simp only [Bool.and_eq_true, decide_eq_true_eq, List.all_eq_true, mem_indices,
    Bool.not_eq_true', is_nil_eq_false_iff]
  constructor
  · rintro ⟨h, hall⟩
    exact ⟨h, fun i h1 h2 => hall i ⟨h1, h2⟩⟩
  · rintro ⟨h, hall⟩
    exact ⟨h, fun i hi => hall i hi.1 hi.2⟩

/-- The fused lookup-and-convert of the array loop is `lua_gettable` followed
by `lua_value_to_json`. -/
theorem element_to_json_eq (fmt : LuaNumber → String) (entries : List (LuaValue × LuaValue))
    (i : Int) :
    element_to_json fmt entries i = lua_value_to_json fmt (lua_gettable entries i) := by
  induction entries with
  | nil => simp [element_to_json, lua_gettable, lua_value_to_json]
  | cons e rest ih =>
    obtain ⟨k, v⟩ := e
    simp only [element_to_json, lua_gettable]
    split
    · rfl
    · exact ih

theorem push_back_all_ok_iff (f : Int → Except String Json) (is : List Int) (js : List Json) :
    push_back_all f is = .ok js ↔ List.Forall₂ (fun i j => f i = .ok j) is js := by
  induction is generalizing js with
  | nil =>
    simp only [push_back_all, Except.ok.injEq, List.forall₂_nil_left_iff]
    exact eq_comm
  | cons i rest ih =>
    simp only [push_back_all, List.forall₂_cons_left_iff]
    constructor
    · intro h
      cases hf : f i with
      | error e => simp [hf] at h
      | ok j =>
        cases hr : push_back_all f rest with
        | error e => simp [hf, hr] at h
        | ok js1 =>
          simp only [hf, hr, Except.ok.injEq] at h
          exact ⟨j, js1, rfl, (ih js1).1 hr, h.symm⟩
    · rintro ⟨j, js1, hj, hrest, rfl⟩
      simp [hj, (ih js1).2 hrest]

theorem push_back_all_congr (f g : Int → Except String Json) (is : List Int)
    (h : ∀ i ∈ is, f i = g i) : push_back_all f is = push_back_all g is := by
  induction is with
  | nil => rfl
  | cons i rest ih =>
    have h1 : f i = g i := h i (List.mem_cons_self _ _)
    have h2 : push_back_all f rest = push_back_all g rest :=
      ih (fun j hj => h j (List.mem_cons_of_mem _ hj))
    simp only [push_back_all, h1, h2]

/-- The table case of `lua_value_to_json`, in the shape of the source: verify,
then either the array loop over `lua_gettable` or the `lua_next` loop. -/
theorem lua_value_to_json_table (fmt : LuaNumber → String) (len : Int)
    (entries : List (LuaValue × LuaValue)) :
    lua_value_to_json fmt (.table len entries) =
      if verify_array len entries then
        (match push_back_all (fun i => lua_value_to_json fmt (lua_gettable entries i))
            (indices len) with
          | .error e => .error e
          | .ok js => .ok (.array js))
      else
        (match object_loop fmt entries [] with
          | .error e => .error e
          | .ok members => .ok (.object members)) := by
  have h : (fun i => element_to_json fmt entries i) =
      (fun i => lua_value_to_json fmt (lua_gettable entries i)) := by
    funext i
    exact element_to_json_eq fmt entries i
  rw [lua_value_to_json, h]

/-! ## The emitter on arrays -/

theorem same_key_integer (k : LuaValue) (n : Int) :
    same_key k (.integer n) = is_integer_key n k := by
  cases k <;> simp [same_key, is_integer_key]

theorem lua_settable_fresh (t : List (LuaValue × LuaValue)) (key value : LuaValue)
    (h : ∀ e ∈ t, same_key e.1 key = false) :
    lua_settable t key value = t ++ (if is_nil value then [] else [(key, value)]) := by
  induction t with
  | nil => simp [lua_settable]
  | cons e rest ih =>
    obtain ⟨k, v⟩ := e
    have hk : same_key k key = false := h (k, v) (List.mem_cons_self _ _)
    have hrest := ih (fun e he => h e (List.mem_cons_of_mem _ he))
    simp [lua_settable, hk, hrest]

theorem array_loop_eq (host_len : List (LuaValue × LuaValue) → Int) (elems : List Json) :
    ∀ (key : Int) (t : List (LuaValue × LuaValue)),
      (∀ e ∈ t, ∀ n, key ≤ n → is_integer_key n e.1 = false) →
      array_loop host_len elems key t = t ++ array_entries host_len elems key := by
  induction elems with
  | nil => intro key t _; simp [array_loop, array_entries]
  | cons x rest ih =>
    intro key t h
    have hfresh : ∀ e ∈ t, same_key e.1 (.integer key) = false := fun e he => by
      rw [same_key_integer]
      exact h e he key (le_refl _)
    rw [array_loop, lua_settable_fresh t _ _ hfresh, ih, array_entries, List.append_assoc]
    intro e he n hn
    rcases List.mem_append.1 he with h1 | h2
    · exact h e h1 n (by omega)
    · by_cases hnil : is_nil (json_to_lua_value host_len x) = true
      · simp [hnil] at h2
      · simp only [hnil, Bool.false_eq_true, if_false, List.mem_singleton] at h2
        subst h2
        simp only [is_integer_key, beq_eq_false_iff_ne, ne_eq]
        omega

theorem json_to_lua_value_array (host_len : List (LuaValue × LuaValue) → Int)
    (elems : List Json) :
    json_to_lua_value host_len (.array elems) =
      .table (host_len (array_entries host_len elems 1)) (array_entries host_len elems 1) := by
  have h := array_loop_eq host_len elems 1 [] (by simp)
  simp only [List.nil_append] at h
  simp only [json_to_lua_value, h]

theorem lua_gettable_array_entries_below (host_len : List (LuaValue × LuaValue) → Int)
    (elems : List Json) :
    ∀ (key n : Int), n < key → lua_gettable (array_entries host_len elems key) n = .nil := by
  induction elems with
  | nil => intro key n _; simp [array_entries, lua_gettable]
  | cons x rest ih =>
    intro key n hn
    have hne : ¬ key = n := by omega
    by_cases hnil : is_nil (json_to_lua_value host_len x) = true
    · simp only [array_entries, hnil, if_true, List.nil_append]
      exact ih (key + 1) n (by omega)
    · simp only [array_entries, hnil, Bool.false_eq_true, if_false, List.singleton_append,
        lua_gettable, is_integer_key, beq_iff_eq, hne]
      exact ih (key + 1) n (by omega)

/-- The value found under key `key + k` is the emission of element `k`
(`nil`, that is no entry, when that element is `null`). -/
theorem lua_gettable_array_entries (host_len : List (LuaValue × LuaValue) → Int)
    (elems : List Json) :
    ∀ (key : Int) (k : Nat) (h : k < elems.length),
      lua_gettable (array_entries host_len elems key) (key + k) =
        json_to_lua_value host_len (elems.get ⟨k, h⟩) := by
  induction elems with
  | nil => intro key k h; simp at h
  | cons x rest ih =>
    intro key k h
    cases k with
    | zero =>
      by_cases hnil : is_nil (json_to_lua_value host_len x) = true
      · simp only [array_entries, hnil, if_true, List.nil_append, Nat.cast_zero, add_zero,
          List.get_eq_getElem, List.getElem_cons_zero]
        rw [lua_gettable_array_entries_below host_len rest (key + 1) key (by omega)]
        exact ((is_nil_eq_true_iff _).1 hnil).symm
      · simp [array_entries, hnil, lua_gettable, is_integer_key]
    | succ k =>
      have hk : k < rest.length := by simpa using h
      have hne : ¬ key = key + ((k + 1 : Nat) : Int) := by omega
      have hidx : key + ((k + 1 : Nat) : Int) = (key + 1) + (k : Int) := by omega
      by_cases hnil : is_nil (json_to_lua_value host_len x) = true
      · simp only [array_entries, hnil, if_true, List.nil_append, List.get_eq_getElem,
          List.getElem_cons_succ]
        rw [hidx]
        exact ih (key + 1) k hk
      · simp only [array_entries, hnil, Bool.false_eq_true, if_false, List.singleton_append,
          lua_gettable, is_integer_key, beq_iff_eq, hne, List.get_eq_getElem,
          List.getElem_cons_succ]
        rw [hidx]
        exact ih (key + 1) k hk

/-- When no element emits `nil`, the keys written are `key, key + 1, ...` in
order, one per element. -/
theorem keys_array_entries (host_len : List (LuaValue × LuaValue) → Int) (elems : List Json) :
    ∀ (key : Int), (∀ x ∈ elems, is_nil (json_to_lua_value host_len x) = false) →
      (array_entries host_len elems key).map Prod.fst =
        (List.range elems.length).map (fun (k : Nat) => LuaValue.integer (key + (k : Int))) := by
  induction elems with
  | nil => intro key _; simp [array_entries]
  | cons x rest ih =>
    intro key h
    have hx : is_nil (json_to_lua_value host_len x) = false := h x (List.mem_cons_self _ _)
    have hrest := ih (key + 1) (fun y hy => h y (List.mem_cons_of_mem _ hy))
    simp only [array_entries, hx, Bool.false_eq_true, if_false, List.singleton_append,
      List.map_cons, hrest, List.length_cons, List.range_succ_eq_map, Nat.cast_zero, add_zero,
      List.map_map, List.cons.injEq, true_and]
    apply List.map_congr_left
    intro k _
    simp only [Function.comp, Nat.cast_succ, LuaValue.integer.injEq]
    omega

theorem lua_value_to_json_eq_null (fmt : LuaNumber → String) (v : LuaValue)
    (h : lua_value_to_json fmt v = .ok .null) : v = .nil := by
  cases v with
  | nil => rfl
  | table len entries =>
    rw [lua_value_to_json_table] at h
    split at h
    · cases hp : push_back_all (fun i => lua_value_to_json fmt (lua_gettable entries i))
          (indices len) with
      | error e => simp [hp] at h
      | ok js => simp [hp] at h
    · cases ho : object_loop fmt entries [] with
      | error e => simp [ho] at h
      | ok m => simp [ho] at h
  | _ => simp [lua_value_to_json] at h

theorem json_to_lua_value_eq_nil (host_len : List (LuaValue × LuaValue) → Int) (j : Json)
    (h : json_to_lua_value host_len j = .nil) : j = .null := by
  cases j <;> simp [json_to_lua_value] at h ⊢

theorem round_trip_plain_scalar (fmt : LuaNumber → String)
    (host_len : List (LuaValue × LuaValue) → Int) (v : LuaValue) (j : Json)
    (hv : is_plain_scalar v = true) (hj : lua_value_to_json fmt v = .ok j) :
    json_to_lua_value host_len j = v := by
  cases v with
  | string s =>
    simp only [is_plain_scalar, decide_eq_true_eq] at hv
    simp only [lua_value_to_json, Except.ok.injEq] at hj
    subst hj
    simp only [json_to_lua_value, hv]
  | boolean b => simp only [lua_value_to_json, Except.ok.injEq] at hj; subst hj; rfl
  | integer n => simp only [lua_value_to_json, Except.ok.injEq] at hj; subst hj; rfl
  | number x => simp only [lua_value_to_json, Except.ok.injEq] at hj; subst hj; rfl
  | nil => simp [is_plain_scalar] at hv
  | table _ _ => simp [is_plain_scalar] at hv
  | other _ => simp [is_plain_scalar] at hv

theorem push_back_all_exists (f : Int → Except String Json) (is : List Int)
    (h : ∀ i ∈ is, ∃ j, f i = .ok j) : ∃ js, push_back_all f is = .ok js := by
  induction is with
  | nil => exact ⟨[], rfl⟩
  | cons i rest ih =>
    obtain ⟨j, hj⟩ := h i (List.mem_cons_self _ _)
    obtain ⟨js, hjs⟩ := ih (fun k hk => h k (List.mem_cons_of_mem _ hk))
    exact ⟨j :: js, by simp [push_back_all, hj, hjs]⟩

/-- The array path: when verification succeeds and every element converts, the
result is the Array of the converted elements. -/
theorem lua_value_to_json_array_path (fmt : LuaNumber → String) (len : Int)
    (entries : List (LuaValue × LuaValue)) (js : List Json)
    (hv : verify_array len entries = true)
    (hp : push_back_all (fun i => lua_value_to_json fmt (lua_gettable entries i))
      (indices len) = .ok js) :
    lua_value_to_json fmt (.table len entries) = .ok (.array js) := by
  rw [lua_value_to_json_table, if_pos hv, hp]

theorem push_back_all_get (f : Int → Except String Json) (len : Int) (js : List Json)
    (hp : push_back_all f (indices len) = .ok js) :
    js.length = len.toNat ∧ ∀ (k : Nat) (h : k < js.length), f ((k : Int) + 1) = .ok (js.get ⟨k, h⟩) := by
  have hf := (push_back_all_ok_iff _ _ _).1 hp
  rw [List.forall₂_iff_get] at hf
  obtain ⟨hlen, hget⟩ := hf
  rw [length_indices] at hlen
  refine ⟨hlen.symm, fun k hk => ?_⟩
  have := hget k (by rw [length_indices]; omega) hk
  rwa [get_indices] at this

theorem mem_keys_of_lua_gettable (entries : List (LuaValue × LuaValue)) (i : Int)
    (h : lua_gettable entries i ≠ .nil) : LuaValue.integer i ∈ entries.map Prod.fst := by
  induction entries with
  | nil => simp [lua_gettable] at h
  | cons e rest ih =>
    obtain ⟨k, v⟩ := e
    simp only [lua_gettable] at h
    by_cases hk : is_integer_key i k = true
    · cases k <;> simp [is_integer_key] at hk
      subst hk
      simp
    · simp only [hk, Bool.false_eq_true, if_false] at h
      simp only [List.map_cons, List.mem_cons]
      exact Or.inr (ih h)

/-! ## C2: the array round trip -/

/-- C2 (as amended). A table whose keys are exactly `1..N`, `N ≥ 1`, all values
non-nil and each value convertible, converts to an Array of length `N` whose
element `i` is the conversion of `t[i]`; emitting that Array gives a table with
the same key set, the keys `1..N` in order, whose value at `i` is the emission of
element `i`, and that value is `t[i]` itself whenever `t[i]` is a Boolean, an
Integer, a Float or a String without NUL. -/
theorem array_round_trip (fmt : LuaNumber → String)
    (host_len : List (LuaValue × LuaValue) → Int) (N : Int)
    (entries : List (LuaValue × LuaValue))
    (hN : 1 ≤ N)
    (hkeys : ∀ e ∈ entries, ∃ i, e.1 = .integer i ∧ 1 ≤ i ∧ i ≤ N)
    (hvals : ∀ i, 1 ≤ i → i ≤ N → lua_gettable entries i ≠ .nil)
    (hconv : ∀ i, 1 ≤ i → i ≤ N → ∃ j, lua_value_to_json fmt (lua_gettable entries i) = .ok j) :
    ∃ (js : List Json) (back : List (LuaValue × LuaValue)),
      lua_value_to_json fmt (.table N entries) = .ok (.array js) ∧
      (js.length : Int) = N ∧
      (∀ (k : Nat) (h : k < js.length),
        lua_value_to_json fmt (lua_gettable entries ((k : Int) + 1)) = .ok (js.get ⟨k, h⟩)) ∧
      json_to_lua_value host_len (.array js) = .table (host_len back) back ∧
      back.map Prod.fst = (indices N).map LuaValue.integer ∧
      (∀ key, key ∈ back.map Prod.fst ↔ key ∈ entries.map Prod.fst) ∧
      (∀ (k : Nat) (h : k < js.length),
        lua_gettable back ((k : Int) + 1) = json_to_lua_value host_len (js.get ⟨k, h⟩)) ∧
      (∀ i, 1 ≤ i → i ≤ N → is_plain_scalar (lua_gettable entries i) = true →
        lua_gettable back i = lua_gettable entries i) := by
  have hv : verify_array N entries = true := (verify_array_iff N entries).2 ⟨by omega, hvals⟩
  obtain ⟨js, hp⟩ := push_back_all_exists
    (fun i => lua_value_to_json fmt (lua_gettable entries i)) (indices N)
    (fun i hi => hconv i ((mem_indices N i).1 hi).1 ((mem_indices N i).1 hi).2)
  obtain ⟨hlen, hget⟩ := push_back_all_get _ N js hp
  have hback : ∀ (k : Nat) (h : k < js.length),
      lua_gettable (array_entries host_len js 1) ((k : Int) + 1) =
        json_to_lua_value host_len (js.get ⟨k, h⟩) := fun k h => by
    rw [add_comm]
    exact lua_gettable_array_entries host_len js 1 k h
  have hnonnil : ∀ x ∈ js, is_nil (json_to_lua_value host_len x) = false := by
    intro x hx
    obtain ⟨⟨k, hk⟩, rfl⟩ := List.mem_iff_get.1 hx
    rw [is_nil_eq_false_iff]
    intro hnil
    have hnull := json_to_lua_value_eq_nil host_len _ hnil
    have hc := hget k hk
    rw [hnull] at hc
    exact hvals ((k : Int) + 1) (by omega) (by omega) (lua_value_to_json_eq_null fmt _ hc)
  have hkeys2 : (array_entries host_len js 1).map Prod.fst = (indices N).map LuaValue.integer := by
    rw [keys_array_entries host_len js 1 hnonnil, indices, hlen, List.map_map]
    apply List.map_congr_left
    intro k _
    simp only [Function.comp, LuaValue.integer.injEq]
    omega
  refine ⟨js, array_entries host_len js 1, lua_value_to_json_array_path fmt N entries js hv hp,
    by omega, hget, json_to_lua_value_array host_len js, hkeys2, fun key => ?_, hback, ?_⟩
  · rw [hkeys2]
    simp only [List.mem_map, mem_indices]
    constructor
    · rintro ⟨i, ⟨h1, h2⟩, rfl⟩
      have := mem_keys_of_lua_gettable entries i (hvals i h1 h2)
      simpa using this
    · rintro ⟨e, he, rfl⟩
      obtain ⟨i, hi, h1, h2⟩ := hkeys e he
      exact ⟨i, ⟨h1, h2⟩, hi.symm⟩
  · intro i h1 h2 hs
    have hk : (i - 1).toNat < js.length := by omega
    have hi : ((i - 1).toNat : Int) + 1 = i := by omega
    have hb := hback (i - 1).toNat hk
    have hg := hget (i - 1).toNat hk
    rw [hi] at hb hg
    rw [hb]
    exact round_trip_plain_scalar fmt host_len _ _ hs hg

/-- The array round trip at the table `{[2] = true, [1] = "ab"}` of length 2. -/
theorem array_round_trip_witness :
    ∃ (js : List Json) (back : List (LuaValue × LuaValue)),
      lua_value_to_json to_string_sample
        (.table 2 [(.integer 2, .boolean true), (.integer 1, .string "ab")]) = .ok (.array js) ∧
      (js.length : Int) = 2 ∧
      json_to_lua_value first_border (.array js) = .table (first_border back) back ∧
      back.map Prod.fst = [.integer 1, .integer 2] ∧
      lua_gettable back 1 = .string "ab" ∧ lua_gettable back 2 = .boolean true := by
  obtain ⟨js, back, h1, h2, _, h4, h5, _, _, h8⟩ :=
    array_round_trip to_string_sample first_border 2
      [(.integer 2, .boolean true), (.integer 1, .string "ab")]
      (by decide)
      (by simp)
      (by
        intro i h1 h2
        have hi : i = 1 ∨ i = 2 := by omega
        rcases hi with rfl | rfl <;> simp [lua_gettable, is_integer_key])
      (by
        intro i h1 h2
        have hi : i = 1 ∨ i = 2 := by omega
        rcases hi with rfl | rfl <;> simp [lua_gettable, is_integer_key, lua_value_to_json])
  refine ⟨js, back, h1, h2, h4, by rw [h5]; rfl, ?_, ?_⟩
  · exact h8 1 (by decide) (by decide) (by decide)
  · exact h8 2 (by decide) (by decide) (by decide)

/-- C2 fails as stated: the table `{[1] = {[5] = true}}` has keys exactly `{1}`
and a non-nil value; it converts to the Array `[{"5": true}]`, and the table
emitted from that Array holds under key 1 a table with the string key `"5"`,
which is not the original value (a table with the integer key `5`). -/
theorem array_round_trip_counterexample :
    lua_value_to_json to_string_sample
        (.table 1 [(.integer 1, .table 0 [(.integer 5, .boolean true)])]) =
        .ok (.array [.object [("5", .boolean true)]]) ∧
      json_to_lua_value first_border (.array [.object [("5", .boolean true)]]) =
        .table 1 [(.integer 1, .table 0 [(.string "5", .boolean true)])] ∧
      lua_gettable [(.integer 1, .table 0 [(.string "5", .boolean true)])] 1 ≠
        lua_gettable [(.integer 1, .table 0 [(.integer 5, .boolean true)])] 1 := by
  refine ⟨by rfl, by rfl, ?_⟩
  simp [lua_gettable, is_integer_key]

/-! ## C9: scalars -/

theorem c_str_eq_self (s : String) (h : ∀ c ∈ s.data, c ≠ Char.ofNat 0) : c_str s = s := by
  have : s.data.takeWhile (fun c => c != Char.ofNat 0) = s.data := by
    rw [List.takeWhile_eq_self_iff]
    intro c hc
    simpa using h c hc
  unfold c_str
  rw [this]

theorem c_str_no_nul (s : String) : ∀ c ∈ (c_str s).data, c ≠ Char.ofNat 0 := by
  intro c hc
  have := List.mem_takeWhile_imp hc
  simpa using this

theorem c_str_idem (s : String) : c_str (c_str s) = c_str s :=
  c_str_eq_self _ (c_str_no_nul s)

/-- C9 (as amended). `nil` maps to `null`, a Boolean to the same Bool, an
Integer `n` to the signed integer `n`, a Float to the float with the same value
(never to an integer tag), and a String to the JSON string of its bytes before
the first NUL: the string itself when it holds no NUL byte. -/
theorem scalar_conversion (fmt : LuaNumber → String) :
    lua_value_to_json fmt .nil = .ok .null ∧
    (∀ b, lua_value_to_json fmt (.boolean b) = .ok (.boolean b)) ∧
    (∀ n, lua_value_to_json fmt (.integer n) = .ok (.number_integer n)) ∧
    (∀ x, lua_value_to_json fmt (.number x) = .ok (.number_float x)) ∧
    (∀ s, lua_value_to_json fmt (.string s) = .ok (.string (c_str s))) ∧
    (∀ s : String, (∀ c ∈ s.data, c ≠ Char.ofNat 0) →
      lua_value_to_json fmt (.string s) = .ok (.string s)) := by
  refine ⟨by rfl, fun _ => by rfl, fun _ => by rfl, fun _ => by rfl, fun _ => by rfl, ?_⟩
  intro s h
  simp only [lua_value_to_json, c_str_eq_self s h]

/-- C9 fails as stated: the String `"a\0b"` maps to the JSON string `"a"`. -/
theorem scalar_conversion_counterexample :
    lua_value_to_json to_string_sample (.string "a\x00b") = .ok (.string "a") ∧
      Json.string "a" ≠ Json.string "a\x00b" := by
  refine ⟨by rfl, ?_⟩
  simp only [ne_eq, Json.string.injEq]
  decide

/-! ## The key order of the object map -/

theorem char_eq_of_toNat_eq (a b : Char) (h : a.toNat = b.toNat) : a = b := by
  apply Char.ext
  apply UInt32.ext
  exact h

theorem bytes_less_irrefl (a : List Char) : bytes_less a a = false := by
  induction a with
  | nil => rfl
  | cons c rest ih => simp [bytes_less, ih]

theorem bytes_less_trans (a : List Char) :
    ∀ b c : List Char, bytes_less a b = true → bytes_less b c = true → bytes_less a c = true := by
  induction a with
  | nil =>
    intro b c hab hbc
    cases b with
    | nil => simp [bytes_less] at hab
    | cons y ys =>
      cases c with
      | nil => simp [bytes_less] at hbc
      | cons z zs => rfl
  | cons x xs ih =>
    intro b c hab hbc
    cases b with
    | nil => simp [bytes_less] at hab
    | cons y ys =>
      cases c with
      | nil => simp [bytes_less] at hbc
      | cons z zs =>
        simp only [bytes_less] at hab hbc ⊢
        by_cases hxy : x.toNat < y.toNat
        · by_cases hyz : y.toNat < z.toNat
          · have : x.toNat < z.toNat := by omega
            simp [this]
          · by_cases hzy : z.toNat < y.toNat
            · simp [hyz, hzy] at hbc
            · have : x.toNat < z.toNat := by omega
              simp [this]
        · by_cases hyx : y.toNat < x.toNat
          · simp [hxy, hyx] at hab
          · simp only [hxy, hyx, if_false] at hab
            by_cases hyz : y.toNat < z.toNat
            · have : x.toNat < z.toNat := by omega
              simp [this]
            · by_cases hzy : z.toNat < y.toNat
              · simp [hyz, hzy] at hbc
              · simp only [hyz, hzy, if_false] at hbc
                have h1 : ¬ x.toNat < z.toNat := by omega
                have h2 : ¬ z.toNat < x.toNat := by omega
                simp only [h1, h2, if_false]
                exact ih ys zs hab hbc

theorem bytes_less_total (a : List Char) :
    ∀ b : List Char, bytes_less a b = false → a ≠ b → bytes_less b a = true := by
  induction a with
  | nil =>
    intro b hab hne
    cases b with
    | nil => exact absurd rfl hne
    | cons y ys => simp [bytes_less] at hab
  | cons x xs ih =>
    intro b hab hne
    cases b with
    | nil => rfl
    | cons y ys =>
      simp only [bytes_less] at hab ⊢
      by_cases hxy : x.toNat < y.toNat
      · simp [hxy] at hab
      · by_cases hyx : y.toNat < x.toNat
        · simp [hyx]
        · simp only [hxy, hyx, if_false] at hab ⊢
          have hc : x = y := char_eq_of_toNat_eq x y (by omega)
          subst hc
          exact ih ys hab (fun h => hne (by rw [h]))

theorem string_less_irrefl (a : String) : string_less a a = false :=
  bytes_less_irrefl a.data

theorem string_less_trans (a b c : String) (hab : string_less a b = true)
    (hbc : string_less b c = true) : string_less a c = true :=
  bytes_less_trans a.data b.data c.data hab hbc

theorem string_less_total (a b : String) (hab : string_less a b = false) (hne : a ≠ b) :
    string_less b a = true :=
  bytes_less_total a.data b.data hab (fun h => hne (String.ext h))

/-! ## The object loop -/

theorem table_key_of_not_string_or_number (fmt : LuaNumber → String) (k : LuaValue)
    (h : is_string_or_number k = false) :
    table_key fmt k = .error "Invalid table key type" := by
  cases k <;> simp [is_string_or_number] at h <;> rfl

theorem table_key_of_string_or_number (fmt : LuaNumber → String) (k : LuaValue)
    (h : is_string_or_number k = true) : ∃ key, table_key fmt k = .ok key := by
  cases k <;> simp [is_string_or_number] at h
  · exact ⟨_, rfl⟩
  · exact ⟨_, rfl⟩
  · exact ⟨_, rfl⟩

theorem json_object_get_set_self (m : List (String × Json)) (key : String) (value : Json) :
    json_object_get (json_object_set m key value) key = some value := by
  induction m with
  | nil => simp [json_object_set, json_object_get]
  | cons e rest ih =>
    obtain ⟨k, v⟩ := e
    simp only [json_object_set]
    split
    · simp [json_object_get]
    · split
      · simp [json_object_get]
      · rename_i hne
        simp [json_object_get, hne, ih]

theorem json_object_get_set_ne (m : List (String × Json)) (key other : String) (value : Json)
    (h : other ≠ key) :
    json_object_get (json_object_set m key value) other = json_object_get m other := by
  induction m with
  | nil => simp [json_object_set, json_object_get, h]
  | cons e rest ih =>
    obtain ⟨k, v⟩ := e
    simp only [json_object_set]
    split
    · simp [json_object_get, h]
    · split
      · rename_i heq
        subst heq
        simp [json_object_get, h]
      · simp [json_object_get, ih]

theorem mem_keys_json_object_set (m : List (String × Json)) (key other : String) (value : Json) :
    other ∈ (json_object_set m key value).map Prod.fst ↔ other = key ∨ other ∈ m.map Prod.fst := by
  induction m with
  | nil => simp [json_object_set]
  | cons e rest ih =>
    obtain ⟨k, v⟩ := e
    simp only [json_object_set]
    split
    · simp
    · split
      · rename_i heq
        subst heq
        simp
      · simp only [List.map_cons, List.mem_cons, ih]
        tauto

theorem mem_keys_iff_json_object_get (m : List (String × Json)) (key : String) :
    key ∈ m.map Prod.fst ↔ ∃ v, json_object_get m key = some v := by
  induction m with
  | nil => simp [json_object_get]
  | cons e rest ih =>
    obtain ⟨k, v⟩ := e
    by_cases hk : key = k
    · simp [json_object_get, hk]
    · simp [json_object_get, hk, ih]

/-- Member assignment keeps the members sorted by key, each key once. -/
theorem json_object_set_sorted (m : List (String × Json)) (key : String) (value : Json)
    (h : List.Pairwise (fun a b => string_less a.1 b.1 = true) m) :
    List.Pairwise (fun a b => string_less a.1 b.1 = true) (json_object_set m key value) := by
  induction m with
  | nil => simp [json_object_set]
  | cons e rest ih =>
    obtain ⟨k, v⟩ := e
    rw [List.pairwise_cons] at h
    simp only [json_object_set]
    by_cases hlt : string_less key k = true
    · rw [if_pos hlt]
      refine List.pairwise_cons.2 ⟨?_, List.pairwise_cons.2 h⟩
      intro a ha
      rcases List.mem_cons.1 ha with rfl | ha
      · exact hlt
      · exact string_less_trans _ _ _ hlt (h.1 a ha)
    · rw [if_neg hlt]
      by_cases heq : key = k
      · rw [if_pos heq]
        subst heq
        exact List.pairwise_cons.2 ⟨h.1, h.2⟩
      · rw [if_neg heq]
        have hgt : string_less k key = true :=
          string_less_total key k (by simpa using hlt) heq
        refine List.pairwise_cons.2 ⟨?_, ih h.2⟩
        intro a ha
        have hkeys : a.1 ∈ (json_object_set rest key value).map Prod.fst :=
          List.mem_map_of_mem _ ha
        rcases (mem_keys_json_object_set rest key a.1 value).1 hkeys with h1 | h2
        · rw [h1]
          exact hgt
        · obtain ⟨b, hb, hba⟩ := List.mem_map.1 h2
          rw [← hba]
          exact h.1 b hb

theorem object_loop_cons_ok (fmt : LuaNumber → String) (k v : LuaValue)
    (rest : List (LuaValue × LuaValue)) (result m : List (String × Json))
    (h : object_loop fmt ((k, v) :: rest) result = .ok m) :
    ∃ key j, table_key fmt k = .ok key ∧ lua_value_to_json fmt v = .ok j ∧
      object_loop fmt rest (json_object_set result key j) = .ok m := by
  rw [object_loop] at h
  cases hk : table_key fmt k with
  | error e => simp [hk] at h
  | ok key =>
    cases hv : lua_value_to_json fmt v with
    | error e => simp [hk, hv] at h
    | ok j =>
      simp only [hk, hv] at h
      exact ⟨key, j, rfl, rfl, h⟩

theorem object_loop_append (fmt : LuaNumber → String) (a b : List (LuaValue × LuaValue)) :
    ∀ result : List (String × Json),
      object_loop fmt (a ++ b) result =
        (match object_loop fmt a result with
          | .error e => .error e
          | .ok m => object_loop fmt b m) := by
  induction a with
  | nil => intro result; simp [object_loop]
  | cons e rest ih =>
    intro result
    obtain ⟨k, v⟩ := e
    simp only [List.cons_append, object_loop]
    cases hk : table_key fmt k with
    | error e => rfl
    | ok key =>
      cases hv : lua_value_to_json fmt v with
      | error e => rfl
      | ok j => exact ih _

theorem object_loop_sorted (fmt : LuaNumber → String) (entries : List (LuaValue × LuaValue)) :
    ∀ (result m : List (String × Json)), object_loop fmt entries result = .ok m →
      List.Pairwise (fun a b => string_less a.1 b.1 = true) result →
      List.Pairwise (fun a b => string_less a.1 b.1 = true) m := by
  induction entries with
  | nil =>
    intro result m h hs
    simp only [object_loop, Except.ok.injEq] at h
    subst h
    exact hs
  | cons e rest ih =>
    intro result m h hs
    obtain ⟨k, v⟩ := e
    obtain ⟨key1, j, _, _, hrest⟩ := object_loop_cons_ok fmt k v rest result m h
    exact ih _ m hrest (json_object_set_sorted result key1 j hs)

/-- The keys of the object after the loop: those it started with and the
coerced keys of the entries visited. -/
theorem object_loop_keys (fmt : LuaNumber → String) (entries : List (LuaValue × LuaValue)) :
    ∀ (result m : List (String × Json)), object_loop fmt entries result = .ok m →
      ∀ key, key ∈ m.map Prod.fst ↔
        (key ∈ result.map Prod.fst ∨ ∃ e ∈ entries, table_key fmt e.1 = .ok key) := by
  induction entries with
  | nil =>
    intro result m h key
    simp only [object_loop, Except.ok.injEq] at h
    subst h
    simp
  | cons e rest ih =>
    intro result m h key
    obtain ⟨k, v⟩ := e
    obtain ⟨key1, j, hk, _, hrest⟩ := object_loop_cons_ok fmt k v rest result m h
    rw [ih _ m hrest key, mem_keys_json_object_set]
    simp only [List.mem_cons, exists_eq_or_imp, hk, Except.ok.injEq]
    constructor
    · rintro ((h1 | h2) | h3)
      · exact Or.inr (Or.inl h1.symm)
      · exact Or.inl h2
      · exact Or.inr (Or.inr h3)
    · rintro (h2 | h1 | h3)
      · exact Or.inl (Or.inr h2)
      · exact Or.inl (Or.inl h1.symm)
      · exact Or.inr h3

/-- Entries whose key does not coerce to `key` leave the member `key` alone. -/
theorem object_loop_get_of_no_key (fmt : LuaNumber → String)
    (entries : List (LuaValue × LuaValue)) (key : String) :
    ∀ (result m : List (String × Json)), object_loop fmt entries result = .ok m →
      (∀ e ∈ entries, table_key fmt e.1 ≠ .ok key) →
      json_object_get m key = json_object_get result key := by
  induction entries with
  | nil =>
    intro result m h _
    simp only [object_loop, Except.ok.injEq] at h
    subst h
    rfl
  | cons e rest ih =>
    intro result m h hno
    obtain ⟨k, v⟩ := e
    obtain ⟨key1, j, hk, _, hrest⟩ := object_loop_cons_ok fmt k v rest result m h
    have hne : key ≠ key1 := by
      intro heq
      subst heq
      exact hno (k, v) (List.mem_cons_self _ _) hk
    rw [ih _ m hrest (fun e he => hno e (List.mem_cons_of_mem _ he)),
      json_object_get_set_ne _ _ _ _ hne]

theorem verify_array_eq_false_iff (len : Int) (entries : List (LuaValue × LuaValue)) :
    verify_array len entries = false ↔
      (len ≤ 0 ∨ ∃ i, 1 ≤ i ∧ i ≤ len ∧ lua_gettable entries i = .nil) := by
  rw [← Bool.not_eq_true, verify_array_iff]
  constructor
  · intro h
    by_cases h0 : 0 < len
    · right
      by_contra hc
      apply h
      refine ⟨h0, fun i h1 h2 hnil => hc ⟨i, h1, h2, hnil⟩⟩
    · left
      omega
  · rintro (h | ⟨i, h1, h2, hnil⟩) ⟨h0, hall⟩
    · omega
    · exact hall i h1 h2 hnil

/-- The object path: when verification fails the result is that of the
`lua_next` loop started on the empty object. -/
theorem lua_value_to_json_object_path (fmt : LuaNumber → String) (len : Int)
    (entries : List (LuaValue × LuaValue)) (hv : verify_array len entries = false) :
    lua_value_to_json fmt (.table len entries) =
      (match object_loop fmt entries [] with
        | .error e => .error e
        | .ok members => .ok (.object members)) := by
  rw [lua_value_to_json_table, hv]
  rfl

/-! ## C5: object conversion -/

/-- C5. A table converted as an Object (reported length `≤ 0`, or a nil at some
key in `1..L`): the keys of the Object are exactly the coerced keys of the
entries of the table, each key occurs once (the members are strictly sorted by
key), and the value stored under a key string is the conversion of the value of
the last entry, in iteration order, whose key coerces to that string. -/
theorem object_conversion (fmt : LuaNumber → String) (L : Int)
    (entries : List (LuaValue × LuaValue)) (j : Json)
    (hobj : L ≤ 0 ∨ ∃ i, 1 ≤ i ∧ i ≤ L ∧ lua_gettable entries i = .nil)
    (hj : lua_value_to_json fmt (.table L entries) = .ok j) :
    ∃ members : List (String × Json), j = .object members ∧
      (∀ key, key ∈ members.map Prod.fst ↔ ∃ e ∈ entries, table_key fmt e.1 = .ok key) ∧
      List.Pairwise (fun a b => string_less a.1 b.1 = true) members ∧
      (∀ key, key ∈ members.map Prod.fst ↔ ∃ v, json_object_get members key = some v) ∧
      (∀ (key : String) (pre post : List (LuaValue × LuaValue)) (e : LuaValue × LuaValue),
        entries = pre ++ e :: post → table_key fmt e.1 = .ok key →
        (∀ later ∈ post, table_key fmt later.1 ≠ .ok key) →
        ∃ v, lua_value_to_json fmt e.2 = .ok v ∧ json_object_get members key = some v) := by
  have hv := (verify_array_eq_false_iff L entries).2 hobj
  rw [lua_value_to_json_object_path fmt L entries hv] at hj
  cases ho : object_loop fmt entries [] with
  | error e => simp [ho] at hj
  | ok members =>
    simp only [ho, Except.ok.injEq] at hj
    refine ⟨members, hj.symm, fun key => ?_,
      object_loop_sorted fmt entries [] members ho List.Pairwise.nil,
      fun key => mem_keys_iff_json_object_get members key, ?_⟩
    · have := object_loop_keys fmt entries [] members ho key
      simpa using this
    · intro key pre post e hes hkey hlater
      subst hes
      rw [object_loop_append] at ho
      cases hpre : object_loop fmt pre [] with
      | error e => simp [hpre] at ho
      | ok m1 =>
        simp only [hpre] at ho
        obtain ⟨k, v⟩ := e
        obtain ⟨key1, j1, hk, hv1, hrest⟩ := object_loop_cons_ok fmt k v post m1 members ho
        have hkk : key1 = key := by
          simp only at hkey
          rw [hk] at hkey
          exact Except.ok.inj hkey
        subst hkk
        refine ⟨j1, hv1, ?_⟩
        rw [object_loop_get_of_no_key fmt post key1 _ members hrest hlater,
          json_object_get_set_self]

/-- The object conversion at the table `{[1] = "x", ["1"] = "y", k = true}` with
reported length 0: the integer key 1 and the string key `"1"` collide and the
entry iterated last wins. -/
theorem object_conversion_witness :
    ∃ v, lua_value_to_json to_string_sample (.string "y") = .ok v ∧
      json_object_get [("1", .string "y"), ("k", .boolean true)] "1" = some v := by
  obtain ⟨members, hm, _, _, _, hlast⟩ :=
    object_conversion to_string_sample 0
      [(.integer 1, .string "x"), (.string "1", .string "y"), (.string "k", .boolean true)]
      (.object [("1", .string "y"), ("k", .boolean true)])
      (Or.inl (by decide)) (by rfl)
  have hmem : members = [("1", .string "y"), ("k", .boolean true)] := (Json.object.inj hm).symm
  subst hmem
  exact hlast "1" [(.integer 1, .string "x")] [(.string "k", .boolean true)]
    (.string "1", .string "y") rfl (by rfl)
    (by
      intro later h
      simp only [List.mem_singleton] at h
      subst h
      intro hc
      have h1 : c_str "k" = "1" := Except.ok.inj hc
      revert h1
      decide)

/-! ## C6: key coercion -/

theorem object_loop_invalid_key (fmt : LuaNumber → String)
    (entries : List (LuaValue × LuaValue)) :
    ∀ (result : List (String × Json)),
      (∃ e ∈ entries, is_string_or_number e.1 = false) →
      (∃ msg, object_loop fmt entries result = .error msg) ∧
      ((∀ e ∈ entries, ∃ j, lua_value_to_json fmt e.2 = .ok j) →
        object_loop fmt entries result = .error "Invalid table key type") := by
  induction entries with
  | nil => intro result h; simp at h
  | cons e rest ih =>
    intro result h
    obtain ⟨k, v⟩ := e
    by_cases hk : is_string_or_number k = true
    · have hrest : ∃ e ∈ rest, is_string_or_number e.1 = false := by
        obtain ⟨e, he, hbad⟩ := h
        rcases List.mem_cons.1 he with rfl | he
        · simp [hk] at hbad
        · exact ⟨e, he, hbad⟩
      obtain ⟨key, hkey⟩ := table_key_of_string_or_number fmt k hk
      cases hv : lua_value_to_json fmt v with
      | error msg =>
        refine ⟨⟨msg, by simp [object_loop, hkey, hv]⟩, fun hall => ?_⟩
        obtain ⟨j, hj⟩ := hall (k, v) (List.mem_cons_self _ _)
        simp only at hj
        rw [hv] at hj
        cases hj
      | ok j =>
        have := ih (json_object_set result key j) hrest
        simp only [object_loop, hkey, hv]
        exact ⟨this.1, fun hall => this.2 (fun e he => hall e (List.mem_cons_of_mem _ he))⟩
    · have hk2 : is_string_or_number k = false := by simpa using hk
      have hkey := table_key_of_not_string_or_number fmt k hk2
      have hloop : object_loop fmt ((k, v) :: rest) result =
          .error "Invalid table key type" := by
        simp only [object_loop, hkey]
      exact ⟨⟨_, hloop⟩, fun _ => hloop⟩

/-- C6 (as amended). During object conversion a String key gives the JSON key
holding its bytes before the first NUL (the key itself when it has no NUL), an
Integer key gives its base-10 digit string, a Float key gives the string
`std::to_string` renders for it, and a key of any other kind gives no JSON key:
the conversion of the table fails, with the key-type error when the entries
iterated before that key were converted. -/
theorem table_key_coercion (fmt : LuaNumber → String) :
    (∀ s, table_key fmt (.string s) = .ok (c_str s)) ∧
    (∀ s : String, (∀ c ∈ s.data, c ≠ Char.ofNat 0) → table_key fmt (.string s) = .ok s) ∧
    (∀ n, table_key fmt (.integer n) = .ok (std_to_string n)) ∧
    (∀ n : Nat, std_to_string (n : Int) = Nat.repr n ∧
      std_to_string (-((n : Int) + 1)) = "-" ++ Nat.repr (n + 1)) ∧
    (std_to_string 0 = "0" ∧ std_to_string 42 = "42" ∧ std_to_string (-7) = "-7") ∧
    (∀ x, table_key fmt (.number x) = .ok (fmt x)) ∧
    (∀ k, is_string_or_number k = false → table_key fmt k = .error "Invalid table key type") ∧
    (∀ (L : Int) (pre post : List (LuaValue × LuaValue)) (k v : LuaValue),
      verify_array L (pre ++ (k, v) :: post) = false → is_string_or_number k = false →
      (∃ msg, lua_value_to_json fmt (.table L (pre ++ (k, v) :: post)) = .error msg) ∧
      ((∃ m, object_loop fmt pre [] = .ok m) →
        lua_value_to_json fmt (.table L (pre ++ (k, v) :: post)) =
          .error "Invalid table key type")) := by
  refine ⟨fun _ => rfl, fun s h => ?_, fun _ => rfl, fun n => ⟨rfl, ?_⟩, ⟨by rfl, by rfl, by rfl⟩,
    fun _ => rfl, fun k h => table_key_of_not_string_or_number fmt k h, ?_⟩
  · simp only [table_key, c_str_eq_self s h]
  · rw [← Int.negSucc_eq]
    rfl
  · intro L pre post k v hv hk
    rw [lua_value_to_json_object_path fmt L _ hv]
    constructor
    · obtain ⟨⟨msg, hmsg⟩, _⟩ := object_loop_invalid_key fmt (pre ++ (k, v) :: post) []
        ⟨(k, v), by simp, hk⟩
      exact ⟨msg, by rw [hmsg]⟩
    · rintro ⟨m, hm⟩
      rw [object_loop_append, hm]
      simp only [object_loop, table_key_of_not_string_or_number fmt k hk]

/-- C6 fails as stated: a Float key does not make the conversion fail. The
table `{[1.5] = true}` converts to the Object `{"1.500000": true}`. -/
theorem table_key_coercion_counterexample :
    lua_value_to_json to_string_sample
        (.table 0 [(.number ⟨0x3FF8000000000000⟩, .boolean true)]) =
      .ok (.object [("1.500000", .boolean true)]) := by
  rfl

/-! ## The entry point on one and on two arguments -/

theorem lua_computo_execute_one (fmt : LuaNumber → String)
    (host_len : List (LuaValue × LuaValue) → Int)
    (engine : Json → List Json → Except String Json) (arg1 : LuaValue) :
    lua_computo_execute fmt host_len engine [arg1] =
      if is_table arg1 then
        (match lua_value_to_json fmt arg1 with
          | .error e => .error (execution_error e)
          | .ok script => run_engine host_len engine script [])
      else .error "execute() first argument (script) must be a table" := by
  cases h : is_table arg1 <;> simp [lua_computo_execute, h]

theorem lua_computo_execute_two (fmt : LuaNumber → String)
    (host_len : List (LuaValue × LuaValue) → Int)
    (engine : Json → List Json → Except String Json) (arg1 arg2 : LuaValue) :
    lua_computo_execute fmt host_len engine [arg1, arg2] =
      if is_table arg1 then
        (match lua_value_to_json fmt arg1 with
          | .error e => .error (execution_error e)
          | .ok script =>
            if is_table arg2 then
              (match lua_value_to_json fmt arg2 with
                | .error e => .error (execution_error e)
                | .ok (.array elems) => run_engine host_len engine script elems
                | .ok inputs_json => run_engine host_len engine script [inputs_json])
            else if is_nil arg2 then run_engine host_len engine script []
            else .error "execute() second argument (inputs) must be a table or nil")
      else .error "execute() first argument (script) must be a table" := by
  cases h : is_table arg1 <;> cases h2 : is_table arg2 <;> cases h3 : is_nil arg2 <;>
    simp [lua_computo_execute, h, h2, h3]

/-! ## C7: no partial object -/

/-- C7 (as amended). A table converted as an Object (reported length `≤ 0`, or a
nil at some key in `1..L`) that holds an entry whose key is neither a String nor
a number yields no JSON value: the conversion fails, with the key-type error when
all the values of the table convert; and `execute` called with that table as the
script, or as the inputs, fails with an error, whatever the engine. -/
theorem invalid_key_fails (fmt : LuaNumber → String)
    (host_len : List (LuaValue × LuaValue) → Int) (L : Int)
    (entries : List (LuaValue × LuaValue)) (k v : LuaValue)
    (hmem : (k, v) ∈ entries) (hk : is_string_or_number k = false)
    (hobj : L ≤ 0 ∨ ∃ i, 1 ≤ i ∧ i ≤ L ∧ lua_gettable entries i = .nil) :
    ∃ msg, lua_value_to_json fmt (.table L entries) = .error msg ∧
      ((∀ e ∈ entries, ∃ j, lua_value_to_json fmt e.2 = .ok j) →
        msg = "Invalid table key type") ∧
      (∀ engine : Json → List Json → Except String Json,
        lua_computo_execute fmt host_len engine [.table L entries] =
          .error (execution_error msg) ∧
        (∀ arg2, lua_computo_execute fmt host_len engine [.table L entries, arg2] =
          .error (execution_error msg)) ∧
        (∀ script, ∃ e, lua_computo_execute fmt host_len engine [script, .table L entries] =
          .error e)) := by
  have hv := (verify_array_eq_false_iff L entries).2 hobj
  obtain ⟨⟨msg, hmsg⟩, hall⟩ := object_loop_invalid_key fmt entries [] ⟨(k, v), hmem, hk⟩
  have hconv : lua_value_to_json fmt (.table L entries) = .error msg := by
    rw [lua_value_to_json_object_path fmt L _ hv, hmsg]
  refine ⟨msg, hconv, fun h => ?_, fun engine => ⟨?_, fun arg2 => ?_, fun script => ?_⟩⟩
  · have := hall h
    rw [hmsg] at this
    exact Except.error.inj this
  · simp [lua_computo_execute_one, is_table, hconv]
  · simp [lua_computo_execute_two, is_table, hconv]
  · rw [lua_computo_execute_two]
    by_cases ht : is_table script = true
    · cases hs : lua_value_to_json fmt script with
      | error e => exact ⟨execution_error e, by simp [ht]⟩
      | ok js =>
        refine ⟨execution_error msg, ?_⟩
        rw [if_pos ht]
        simp [is_table, hconv]
    · exact ⟨"execute() first argument (script) must be a table", by simp [ht]⟩

/-- The failure at the table `{a = 1, [true] = 2}` of length 0. -/
theorem invalid_key_fails_witness :
    lua_value_to_json to_string_sample
        (.table 0 [(.string "a", .integer 1), (.boolean true, .integer 2)]) =
        .error "Invalid table key type" ∧
      lua_computo_execute to_string_sample first_border (fun script _ => .ok script)
        [.table 0 [(.string "a", .integer 1), (.boolean true, .integer 2)]] =
        .error "Computo execution error: Invalid table key type" := by
  obtain ⟨msg, h1, h2, h3⟩ :=
    invalid_key_fails to_string_sample first_border 0
      [(.string "a", .integer 1), (.boolean true, .integer 2)] (.boolean true) (.integer 2)
      (by simp) (by rfl) (Or.inl (by decide))
  have hmsg : msg = "Invalid table key type" := h2 (by
    intro e he
    simp only [List.mem_cons, List.mem_singleton, List.not_mem_nil, or_false] at he
    rcases he with rfl | rfl
    · exact ⟨_, rfl⟩
    · exact ⟨_, rfl⟩)
  subst hmsg
  exact ⟨h1, (h3 _).1⟩

/-- C7 fails as stated: the table `{"a", [true] = "b"}` (reported length 1)
holds one entry with a Boolean key among valid entries, yet it converts to the
Array `["a"]`, and `execute` returns a value, not an error. -/
theorem invalid_key_fails_counterexample :
    lua_value_to_json to_string_sample
        (.table 1 [(.integer 1, .string "a"), (.boolean true, .string "b")]) =
        .ok (.array [.string "a"]) ∧
      lua_computo_execute to_string_sample first_border (fun script _ => .ok script)
        [.table 1 [(.integer 1, .string "a"), (.boolean true, .string "b")]] =
        .ok (.table 1 [(.integer 1, .string "a")]) := by
  exact ⟨by rfl, by rfl⟩

/-! ## C4: a table with a hole -/

/-- C4 (as amended). A table with exactly the keys 1 and 3, whose values convert:
for every reported length other than 1 it converts to the Object with exactly
the keys `"1"` and `"3"`, holding the two converted values; when the host
reports length 1 it converts to the one-element Array of the value under 1. -/
theorem hole_table_conversion (fmt : LuaNumber → String) (L : Int)
    (entries : List (LuaValue × LuaValue)) (v1 v3 : LuaValue) (j1 j3 : Json)
    (hentries : entries = [(.integer 1, v1), (.integer 3, v3)] ∨
      entries = [(.integer 3, v3), (.integer 1, v1)])
    (hv1 : v1 ≠ .nil)
    (hj1 : lua_value_to_json fmt v1 = .ok j1) (hj3 : lua_value_to_json fmt v3 = .ok j3) :
    (L ≠ 1 → lua_value_to_json fmt (.table L entries) = .ok (.object [("1", j1), ("3", j3)])) ∧
    (L = 1 → lua_value_to_json fmt (.table L entries) = .ok (.array [j1])) := by
  have e1 : std_to_string 1 = "1" := by rfl
  have e3 : std_to_string 3 = "3" := by rfl
  have l13 : string_less "1" "3" = true := by rfl
  have l31 : string_less "3" "1" = false := by rfl
  have n13 : ¬ ("1" : String) = "3" := by decide
  have g1 : lua_gettable entries 1 = v1 := by
    rcases hentries with h | h <;> subst h <;> simp [lua_gettable, is_integer_key]
  have g2 : lua_gettable entries 2 = .nil := by
    rcases hentries with h | h <;> subst h <;> simp [lua_gettable, is_integer_key]
  constructor
  · intro hL
    have hv : verify_array L entries = false := by
      rw [verify_array_eq_false_iff]
      by_cases h0 : L ≤ 0
      · exact Or.inl h0
      · exact Or.inr ⟨2, by omega, by omega, g2⟩
    rw [lua_value_to_json_object_path fmt L entries hv]
    rcases hentries with h | h <;> subst h <;>
      simp [object_loop, table_key, hj1, hj3, json_object_set, e1, e3, l13, l31, n13]
  · intro hL
    subst hL
    have hv : verify_array 1 entries = true := by
      rw [verify_array_iff]
      refine ⟨by decide, fun i h1 h2 => ?_⟩
      have hi : i = 1 := by omega
      subst hi
      rw [g1]
      exact hv1
    have hp : push_back_all (fun i => lua_value_to_json fmt (lua_gettable entries i))
        (indices 1) = .ok [j1] := by
      have hidx : indices 1 = [1] := by rfl
      rw [hidx]
      simp [push_back_all, g1, hj1]
    exact lua_value_to_json_array_path fmt 1 entries [j1] hv hp

/-- The conversion of `{[3] = "b", [1] = "a"}` when the host reports length 3,
and when it reports length 1. -/
theorem hole_table_conversion_witness :
    lua_value_to_json to_string_sample
        (.table 3 [(.integer 3, .string "b"), (.integer 1, .string "a")]) =
        .ok (.object [("1", .string "a"), ("3", .string "b")]) ∧
      lua_value_to_json to_string_sample
        (.table 1 [(.integer 3, .string "b"), (.integer 1, .string "a")]) =
        .ok (.array [.string "a"]) :=
  ⟨(hole_table_conversion to_string_sample 3 _ (.string "a") (.string "b") _ _
      (Or.inr rfl) (by simp) (by rfl) (by rfl)).1 (by decide),
    (hole_table_conversion to_string_sample 1 _ (.string "a") (.string "b") _ _
      (Or.inr rfl) (by simp) (by rfl) (by rfl)).2 rfl⟩

/-- C4 fails as stated: 1 is a border of the table `{[1] = "a", [3] = "b"}`
(key 1 is present, key 2 is absent), and when the host reports it the table
converts to the Array `["a"]`, not to an Object. -/
theorem hole_table_conversion_counterexample :
    (lua_gettable [(.integer 1, .string "a"), (.integer 3, .string "b")] 1 = .string "a" ∧
      lua_gettable [(.integer 1, .string "a"), (.integer 3, .string "b")] 2 = .nil) ∧
      lua_value_to_json to_string_sample
        (.table 1 [(.integer 1, .string "a"), (.integer 3, .string "b")]) =
        .ok (.array [.string "a"]) := by
  exact ⟨⟨by rfl, by rfl⟩, by rfl⟩

/-! ## C10: the input-document list -/

/-- C10. In a call whose script (a table) converts to `script`, the engine is
called on `script` and on: the empty list when there is no second argument or it
is `nil`; the elements of the converted value, in order, when the second
argument is a table converting to an Array; the one-element list of the converted
value when it is a table converting to anything else. -/
theorem execute_inputs (fmt : LuaNumber → String)
    (host_len : List (LuaValue × LuaValue) → Int)
    (engine : Json → List Json → Except String Json) (arg1 : LuaValue) (script : Json)
    (ht : is_table arg1 = true) (hs : lua_value_to_json fmt arg1 = .ok script) :
    lua_computo_execute fmt host_len engine [arg1] =
        run_engine host_len engine script [] ∧
    lua_computo_execute fmt host_len engine [arg1, .nil] =
        run_engine host_len engine script [] ∧
    (∀ (L : Int) (entries : List (LuaValue × LuaValue)) (elems : List Json),
      lua_value_to_json fmt (.table L entries) = .ok (.array elems) →
      lua_computo_execute fmt host_len engine [arg1, .table L entries] =
        run_engine host_len engine script elems) ∧
    (∀ (L : Int) (entries : List (LuaValue × LuaValue)) (j : Json),
      lua_value_to_json fmt (.table L entries) = .ok j → (∀ elems, j ≠ .array elems) →
      lua_computo_execute fmt host_len engine [arg1, .table L entries] =
        run_engine host_len engine script [j]) ∧
    (∀ inputs, run_engine host_len engine script inputs =
      match engine script inputs with
      | .error e => .error (execution_error e)
      | .ok result => .ok (json_to_lua_value host_len result)) := by
  refine ⟨?_, ?_, ?_, ?_, fun _ => rfl⟩
  · rw [lua_computo_execute_one, if_pos ht, hs]
  · rw [lua_computo_execute_two, if_pos ht, hs]
    simp [is_table, is_nil]
  · intro L entries elems h
    rw [lua_computo_execute_two, if_pos ht, hs]
    simp [is_table, h]
  · intro L entries j h hna
    rw [lua_computo_execute_two, if_pos ht, hs]
    cases j with
    | array elems => exact absurd rfl (hna elems)
    | _ => simp [is_table, h]

/-- The input lists for the script `{}` with an engine that returns the list of
its input documents: no second argument, an array of two documents, and a single
non-array table. -/
theorem execute_inputs_witness :
    lua_computo_execute to_string_sample first_border (fun _ inputs => .ok (.array inputs))
        [.table 0 []] = .ok (.table 0 []) ∧
      lua_computo_execute to_string_sample first_border (fun _ inputs => .ok (.array inputs))
        [.table 0 [], .table 2 [(.integer 1, .table 0 [(.string "x", .integer 1)]),
          (.integer 2, .table 0 [(.string "x", .integer 2)])]] =
        .ok (.table 2 [(.integer 1, .table 0 [(.string "x", .integer 1)]),
          (.integer 2, .table 0 [(.string "x", .integer 2)])]) ∧
      lua_computo_execute to_string_sample first_border (fun _ inputs => .ok (.array inputs))
        [.table 0 [], .table 0 [(.string "x", .integer 1)]] =
        .ok (.table 1 [(.integer 1, .table 0 [(.string "x", .integer 1)])]) := by
  obtain ⟨h1, _, h3, h4, _⟩ :=
    execute_inputs to_string_sample first_border (fun _ inputs => .ok (.array inputs))
      (.table 0 []) (.object []) (by rfl) (by rfl)
  refine ⟨h1.trans (by rfl), (h3 2 _ _ (by rfl)).trans (by rfl), (h4 0 _ _ (by rfl) ?_).trans (by rfl)⟩
  intro elems h
  cases h

/-! ## C8: which values convert -/

theorem push_back_all_error_of_mem (f : Int → Except String Json) (is : List Int)
    (h : ∃ i ∈ is, ∃ e, f i = .error e) : ∃ e, push_back_all f is = .error e := by
  induction is with
  | nil => simp at h
  | cons i rest ih =>
    cases hf : f i with
    | error e => exact ⟨e, by simp [push_back_all, hf]⟩
    | ok j =>
      have hrest : ∃ k ∈ rest, ∃ e, f k = .error e := by
        obtain ⟨k, hk, e, he⟩ := h
        rcases List.mem_cons.1 hk with rfl | hk
        · rw [hf] at he
          cases he
        · exact ⟨k, hk, e, he⟩
      obtain ⟨e, he⟩ := ih hrest
      exact ⟨e, by simp [push_back_all, hf, he]⟩

theorem push_back_all_error_elim (f : Int → Except String Json) (is : List Int) (e : String)
    (h : push_back_all f is = .error e) : ∃ i ∈ is, f i = .error e := by
  induction is with
  | nil => simp [push_back_all] at h
  | cons i rest ih =>
    cases hf : f i with
    | error e1 =>
      simp only [push_back_all, hf, Except.error.injEq] at h
      subst h
      exact ⟨i, List.mem_cons_self _ _, hf⟩
    | ok j =>
      cases hr : push_back_all f rest with
      | error e1 =>
        simp only [push_back_all, hf, hr, Except.error.injEq] at h
        subst h
        obtain ⟨k, hk, hke⟩ := ih hr
        exact ⟨k, List.mem_cons_of_mem _ hk, hke⟩
      | ok js => simp [push_back_all, hf, hr] at h

theorem object_loop_error_of_value (fmt : LuaNumber → String)
    (entries : List (LuaValue × LuaValue)) :
    ∀ (result : List (String × Json)),
      (∃ e ∈ entries, ∃ msg, lua_value_to_json fmt e.2 = .error msg) →
      ∃ msg, object_loop fmt entries result = .error msg := by
  induction entries with
  | nil => intro result h; simp at h
  | cons e rest ih =>
    intro result h
    obtain ⟨k, v⟩ := e
    cases hk : table_key fmt k with
    | error msg => exact ⟨msg, by simp [object_loop, hk]⟩
    | ok key =>
      cases hv : lua_value_to_json fmt v with
      | error msg => exact ⟨msg, by simp [object_loop, hk, hv]⟩
      | ok j =>
        have hrest : ∃ e ∈ rest, ∃ msg, lua_value_to_json fmt e.2 = .error msg := by
          obtain ⟨e, he, msg, hmsg⟩ := h
          rcases List.mem_cons.1 he with rfl | he
          · simp only at hmsg
            rw [hv] at hmsg
            cases hmsg
          · exact ⟨e, he, msg, hmsg⟩
        obtain ⟨msg, hmsg⟩ := ih (json_object_set result key j) hrest
        exact ⟨msg, by simp [object_loop, hk, hv, hmsg]⟩

mutual
/-- A supported value converts. -/
theorem lua_value_to_json_of_supported (fmt : LuaNumber → String) :
    ∀ v : LuaValue, supported v = true → ∃ j, lua_value_to_json fmt v = .ok j
  | .nil, _ => ⟨_, rfl⟩
  | .boolean _, _ => ⟨_, rfl⟩
  | .integer _, _ => ⟨_, rfl⟩
  | .number _, _ => ⟨_, rfl⟩
  | .string _, _ => ⟨_, rfl⟩
  | .other _, h => by simp [supported] at h
  | .table len entries, h => by
    have hs : supported_entries entries = true := by simpa [supported] using h
    have hes := entries_to_json_of_supported fmt entries hs
    by_cases hv : verify_array len entries = true
    · obtain ⟨js, hjs⟩ := push_back_all_exists
        (fun i => lua_value_to_json fmt (lua_gettable entries i)) (indices len)
        (fun i _ => by
          show ∃ j, lua_value_to_json fmt (lua_gettable entries i) = .ok j
          rw [← element_to_json_eq]
          exact hes.1 i)
      exact ⟨_, lua_value_to_json_array_path fmt len entries js hv hjs⟩
    · obtain ⟨m, hm⟩ := hes.2 []
      have hv2 : verify_array len entries = false := by simpa using hv
      exact ⟨.object m, by rw [lua_value_to_json_object_path fmt len entries hv2, hm]⟩
/-- On supported entries every element lookup converts and the `lua_next` loop
completes. -/
theorem entries_to_json_of_supported (fmt : LuaNumber → String) :
    ∀ entries : List (LuaValue × LuaValue), supported_entries entries = true →
      (∀ i, ∃ j, element_to_json fmt entries i = .ok j) ∧
      (∀ result, ∃ m, object_loop fmt entries result = .ok m)
  | [], _ => ⟨fun _ => ⟨_, rfl⟩, fun result => ⟨result, rfl⟩⟩
  | (k, v) :: rest, h => by
    simp only [supported_entries, Bool.and_eq_true] at h
    obtain ⟨⟨hk, hv⟩, hrest⟩ := h
    obtain ⟨j, hj⟩ := lua_value_to_json_of_supported fmt v hv
    have ih := entries_to_json_of_supported fmt rest hrest
    obtain ⟨key, hkey⟩ := table_key_of_string_or_number fmt k hk
    constructor
    · intro i
      simp only [element_to_json]
      split
      · exact ⟨j, hj⟩
      · exact ih.1 i
    · intro result
      simp only [object_loop, hkey, hj]
      exact ih.2 _
end

mutual
/-- When all keys are Strings or numbers, the only error is the unsupported-type
error. -/
theorem error_of_keys_ok (fmt : LuaNumber → String) :
    ∀ (v : LuaValue) (msg : String), keys_ok v = true →
      lua_value_to_json fmt v = .error msg → msg = "Unsupported Lua type for JSON conversion"
  | .nil, _, _, h => by simp [lua_value_to_json] at h
  | .boolean _, _, _, h => by simp [lua_value_to_json] at h
  | .integer _, _, _, h => by simp [lua_value_to_json] at h
  | .number _, _, _, h => by simp [lua_value_to_json] at h
  | .string _, _, _, h => by simp [lua_value_to_json] at h
  | .other _, _, _, h => by
    simp only [lua_value_to_json, Except.error.injEq] at h
    exact h.symm
  | .table len entries, msg, hk, h => by
    have hks : keys_ok_entries entries = true := by simpa [keys_ok] using hk
    have hes := entries_error_of_keys_ok fmt entries hks
    rw [lua_value_to_json_table] at h
    split at h
    · cases hp : push_back_all (fun i => lua_value_to_json fmt (lua_gettable entries i))
          (indices len) with
      | ok js => simp [hp] at h
      | error e =>
        simp only [hp, Except.error.injEq] at h
        subst h
        obtain ⟨i, _, hi⟩ := push_back_all_error_elim _ _ _ hp
        rw [← element_to_json_eq] at hi
        exact hes.1 i e hi
    · cases ho : object_loop fmt entries [] with
      | ok m => simp [ho] at h
      | error e =>
        simp only [ho, Except.error.injEq] at h
        subst h
        exact hes.2 [] e ho
/-- The same for the element lookups and for the `lua_next` loop. -/
theorem entries_error_of_keys_ok (fmt : LuaNumber → String) :
    ∀ entries : List (LuaValue × LuaValue), keys_ok_entries entries = true →
      (∀ i msg, element_to_json fmt entries i = .error msg →
        msg = "Unsupported Lua type for JSON conversion") ∧
      (∀ result msg, object_loop fmt entries result = .error msg →
        msg = "Unsupported Lua type for JSON conversion")
  | [], _ => ⟨fun _ _ h => by simp [element_to_json] at h,
      fun _ _ h => by simp [object_loop] at h⟩
  | (k, v) :: rest, h => by
    simp only [keys_ok_entries, Bool.and_eq_true] at h
    obtain ⟨⟨hk, hv⟩, hrest⟩ := h
    have ihv := error_of_keys_ok fmt v
    have ih := entries_error_of_keys_ok fmt rest hrest
    obtain ⟨key, hkey⟩ := table_key_of_string_or_number fmt k hk
    constructor
    · intro i msg hmsg
      simp only [element_to_json] at hmsg
      split at hmsg
      · exact ihv msg hv hmsg
      · exact ih.1 i msg hmsg
    · intro result msg hmsg
      simp only [object_loop, hkey] at hmsg
      cases hj : lua_value_to_json fmt v with
      | error e =>
        simp only [hj, Except.error.injEq] at hmsg
        subst hmsg
        exact ihv e hv hj
      | ok j =>
        simp only [hj] at hmsg
        exact ih.2 _ msg hmsg
end

theorem lua_value_to_json_of_reaches (fmt : LuaNumber → String) (v : LuaValue)
    (h : ReachesUnsupported v) : ∃ msg, lua_value_to_json fmt v = .error msg := by
  induction h with
  | here t => exact ⟨_, rfl⟩
  | element len entries i hv h1 h2 _ ih =>
    obtain ⟨e, he⟩ := ih
    obtain ⟨msg, hmsg⟩ := push_back_all_error_of_mem
      (fun i => lua_value_to_json fmt (lua_gettable entries i)) (indices len)
      ⟨i, (mem_indices len i).2 ⟨h1, h2⟩, e, he⟩
    exact ⟨msg, by rw [lua_value_to_json_table, if_pos hv, hmsg]⟩
  | member len entries k v hv hmem _ ih =>
    obtain ⟨e, he⟩ := ih
    obtain ⟨msg, hmsg⟩ := object_loop_error_of_value fmt entries [] ⟨(k, v), hmem, e, he⟩
    exact ⟨msg, by rw [lua_value_to_json_object_path fmt len entries hv, hmsg]⟩

/-- C8 (as amended). Every host value built only from `nil`, Booleans, Integers,
Floats, Strings and tables with String or number keys converts to a JSON value.
Every host value in which the conversion visits a value of another kind (the
value itself, an element under a key `1..L` of a table taking the array path, or
the value of an entry of a table taking the object path, at any depth) yields no
JSON value: the conversion fails, and it fails with the unsupported-type error
when all table keys inside the value are Strings or numbers. -/
theorem conversion_domain (fmt : LuaNumber → String) (v : LuaValue) :
    (supported v = true → ∃ j, lua_value_to_json fmt v = .ok j) ∧
    (ReachesUnsupported v →
      ∃ msg, lua_value_to_json fmt v = .error msg ∧
        (keys_ok v = true → msg = "Unsupported Lua type for JSON conversion")) := by
  refine ⟨lua_value_to_json_of_supported fmt v, fun h => ?_⟩
  obtain ⟨msg, hmsg⟩ := lua_value_to_json_of_reaches fmt v h
  exact ⟨msg, hmsg, fun hk => error_of_keys_ok fmt v msg hk hmsg⟩

/-- The two halves at concrete values: `{a = {1.5}}` is supported and converts;
the conversion of `{a = {print}}` visits the function and fails with the
unsupported-type error. -/
theorem conversion_domain_witness :
    (∃ j, lua_value_to_json to_string_sample
      (.table 0 [(.string "a", .table 1 [(.integer 1, .number ⟨0x3FF8000000000000⟩)])]) =
        .ok j) ∧
    (∃ msg, lua_value_to_json to_string_sample
      (.table 0 [(.string "a", .table 1 [(.integer 1, .other .function)])]) = .error msg ∧
        msg = "Unsupported Lua type for JSON conversion") := by
  refine ⟨(conversion_domain to_string_sample _).1 (by rfl), ?_⟩
  obtain ⟨msg, h1, h2⟩ := (conversion_domain to_string_sample
    (.table 0 [(.string "a", .table 1 [(.integer 1, .other .function)])])).2
    (ReachesUnsupported.member 0 _ (.string "a") (.table 1 [(.integer 1, .other .function)])
      (by rfl) (by simp)
      (ReachesUnsupported.element 1 _ 1 (by rfl) (by decide) (by decide)
        (ReachesUnsupported.here .function)))
  exact ⟨msg, h1, h2 (by rfl)⟩

/-- C8 fails as stated: the table `{true, f = print}` (reported length 1) holds
a function among its values, yet it converts to the Array `[true]`: the entry
`f` is not visited. -/
theorem conversion_domain_counterexample :
    lua_value_to_json to_string_sample
        (.table 1 [(.integer 1, .boolean true), (.string "f", .other .function)]) =
      .ok (.array [.boolean true]) := by
  rfl

/-! ## Lookups, permutations and borders -/

theorem is_integer_key_iff (i : Int) (k : LuaValue) :
    is_integer_key i k = true ↔ k = .integer i := by
  cases k <;> simp [is_integer_key]

theorem lua_gettable_of_not_mem (entries : List (LuaValue × LuaValue)) (i : Int)
    (h : LuaValue.integer i ∉ entries.map Prod.fst) : lua_gettable entries i = .nil := by
  induction entries with
  | nil => rfl
  | cons e rest ih =>
    obtain ⟨k, v⟩ := e
    simp only [List.map_cons, List.mem_cons, not_or] at h
    have hk : ¬ is_integer_key i k = true := by
      rw [is_integer_key_iff]
      exact fun hc => h.1 hc.symm
    simp only [lua_gettable, hk, Bool.false_eq_true, if_false]
    exact ih h.2

theorem lua_gettable_of_mem (entries : List (LuaValue × LuaValue)) (i : Int) (v : LuaValue)
    (hnodup : (entries.map Prod.fst).Nodup) (h : (LuaValue.integer i, v) ∈ entries) :
    lua_gettable entries i = v := by
  induction entries with
  | nil => simp at h
  | cons e rest ih =>
    obtain ⟨k, v1⟩ := e
    simp only [List.map_cons, List.nodup_cons] at hnodup
    by_cases hk : is_integer_key i k = true
    · have hki := (is_integer_key_iff i k).1 hk
      subst hki
      simp only [lua_gettable, hk, if_true]
      rcases List.mem_cons.1 h with heq | hrest
      · exact ((Prod.mk.injEq _ _ _ _).mp heq).2.symm
      · exact absurd (List.mem_map_of_mem Prod.fst hrest) hnodup.1
    · simp only [lua_gettable, hk, Bool.false_eq_true, if_false]
      rcases List.mem_cons.1 h with heq | hrest
      · have hki : k = .integer i := ((Prod.mk.injEq _ _ _ _).mp heq).1.symm
        exact absurd ((is_integer_key_iff i k).2 hki) hk
      · exact ih hnodup.2 hrest

theorem lua_gettable_mem (entries : List (LuaValue × LuaValue)) (i : Int)
    (h : LuaValue.integer i ∈ entries.map Prod.fst) :
    (LuaValue.integer i, lua_gettable entries i) ∈ entries := by
  induction entries with
  | nil => simp at h
  | cons e rest ih =>
    obtain ⟨k, v⟩ := e
    by_cases hk : is_integer_key i k = true
    · have hki := (is_integer_key_iff i k).1 hk
      subst hki
      simp [lua_gettable, hk]
    · simp only [lua_gettable, hk, Bool.false_eq_true, if_false]
      simp only [List.map_cons, List.mem_cons] at h
      rcases h with heq | hrest
      · exact absurd ((is_integer_key_iff i k).2 heq.symm) hk
      · exact List.mem_cons_of_mem _ (ih hrest)

/-- With distinct keys, a lookup does not depend on the order of the entries. -/
theorem lua_gettable_perm (entries reordered : List (LuaValue × LuaValue)) (i : Int)
    (hperm : reordered.Perm entries) (hnodup : (entries.map Prod.fst).Nodup) :
    lua_gettable reordered i = lua_gettable entries i := by
  have hnodup2 : (reordered.map Prod.fst).Nodup := ((hperm.map Prod.fst).nodup_iff).2 hnodup
  by_cases h : LuaValue.integer i ∈ entries.map Prod.fst
  · have hmem := lua_gettable_mem entries i h
    exact lua_gettable_of_mem reordered i _ hnodup2 (hperm.mem_iff.2 hmem)
  · rw [lua_gettable_of_not_mem entries i h]
    exact lua_gettable_of_not_mem reordered i
      (fun hc => h ((hperm.map Prod.fst).mem_iff.1 hc))

/-- A reordering of the keys of a table is the key list of a reordering of its
entries. -/
theorem exists_perm_of_keys_perm (entries : List (LuaValue × LuaValue)) (keys : List LuaValue)
    (h : (entries.map Prod.fst).Perm keys) :
    ∃ reordered : List (LuaValue × LuaValue),
      reordered.Perm entries ∧ reordered.map Prod.fst = keys := by
  have h1 : List.Forall₂ (fun (e : LuaValue × LuaValue) (k : LuaValue) => e.1 = k)
      entries (entries.map Prod.fst) := by
    rw [List.forall₂_map_right_iff, List.forall₂_same]
    intro _ _
    rfl
  have h2 : Relation.Comp
      (List.Forall₂ (fun (e : LuaValue × LuaValue) (k : LuaValue) => e.1 = k)) List.Perm
      entries keys := ⟨_, h1, h⟩
  rw [List.forall₂_comp_perm_eq_perm_comp_forall₂] at h2
  obtain ⟨reordered, hp, hf⟩ := h2
  refine ⟨reordered, hp.symm, ?_⟩
  clear hp h1 h
  induction hf with
  | nil => rfl
  | cons hab _ ih => simp [hab, ih]

theorem nodup_indices_keys (len : Int) : ((indices len).map LuaValue.integer).Nodup := by
  unfold indices
  rw [List.map_map]
  refine List.Nodup.map ?_ (List.nodup_range _)
  intro a b hab
  simp only [Function.comp, LuaValue.integer.injEq] at hab
  omega

/-! ## The round trip of a sequence -/

theorem lua_gettable_array_entries_above (host_len : List (LuaValue × LuaValue) → Int)
    (elems : List Json) :
    ∀ (key n : Int), key + elems.length ≤ n →
      lua_gettable (array_entries host_len elems key) n = .nil := by
  induction elems with
  | nil => intro key n _; simp [array_entries, lua_gettable]
  | cons x rest ih =>
    intro key n hn
    simp only [List.length_cons, Nat.cast_succ] at hn
    have hne : ¬ key = n := by omega
    by_cases hnil : is_nil (json_to_lua_value host_len x) = true
    · simp only [array_entries, hnil, if_true, List.nil_append]
      exact ih (key + 1) n (by omega)
    · simp only [array_entries, hnil, Bool.false_eq_true, if_false, List.singleton_append,
        lua_gettable, is_integer_key, beq_iff_eq, hne]
      exact ih (key + 1) n (by omega)

/-- The entries written for an array are, position by position, the entries of
a table that lists the keys `key, key + 1, ...` in order, when each element is
the conversion of the value at its position. -/
theorem same_entries_array_entries (host_len : List (LuaValue × LuaValue) → Int)
    (ordered : List (LuaValue × LuaValue)) (js : List Json)
    (h : List.Forall₂ (fun (e : LuaValue × LuaValue) (j : Json) =>
      SameUpToOrder (json_to_lua_value host_len j) e.2 ∧
        is_nil (json_to_lua_value host_len j) = false) ordered js) :
    ∀ key : Int,
      ordered.map Prod.fst =
        (List.range ordered.length).map (fun (k : Nat) => LuaValue.integer (key + (k : Int))) →
      SameEntries (array_entries host_len js key) ordered := by
  induction h with
  | nil => intro key _; exact SameEntries.nil
  | @cons e j rest js1 hej _ ih =>
    intro key hkeys
    obtain ⟨k, v⟩ := e
    simp only [List.map_cons, List.length_cons, List.range_succ_eq_map, Nat.cast_zero, add_zero,
      List.map_map, List.cons.injEq] at hkeys
    obtain ⟨hk, hrest⟩ := hkeys
    subst hk
    have hrest2 : rest.map Prod.fst =
        (List.range rest.length).map (fun (k : Nat) => LuaValue.integer (key + 1 + (k : Int))) := by
      rw [hrest]
      apply List.map_congr_left
      intro n _
      simp only [Function.comp, Nat.cast_succ, LuaValue.integer.injEq]
      omega
    simp only [array_entries, hej.2, Bool.false_eq_true, if_false, List.singleton_append]
    exact SameEntries.cons _ _ _ _ _ hej.1 (ih (key + 1) hrest2)

theorem indices_map_integer (len : Int) :
    (indices len).map LuaValue.integer =
      (List.range len.toNat).map (fun (k : Nat) => LuaValue.integer (1 + (k : Int))) := by
  unfold indices
  rw [List.map_map]
  apply List.map_congr_left
  intro k _
  simp only [Function.comp, LuaValue.integer.injEq]
  omega

theorem is_nil_emit_of_convert (fmt : LuaNumber → String)
    (host_len : List (LuaValue × LuaValue) → Int) (v : LuaValue) (j : Json)
    (hv : v ≠ .nil) (hj : lua_value_to_json fmt v = .ok j) :
    is_nil (json_to_lua_value host_len j) = false := by
  rw [is_nil_eq_false_iff]
  intro hnil
  have hnull := json_to_lua_value_eq_nil host_len j hnil
  subst hnull
  exact hv (lua_value_to_json_eq_null fmt v hj)

/-- A sequence whose values are carried back and forth is carried back and
forth, up to the order of its entries. -/
theorem sequence_round_trip (fmt : LuaNumber → String)
    (host_len : List (LuaValue × LuaValue) → Int)
    (hlen : ∀ t, is_border t (host_len t))
    (len : Int) (entries : List (LuaValue × LuaValue))
    (h1 : 1 ≤ len)
    (hperm : (entries.map Prod.fst).Perm ((indices len).map LuaValue.integer))
    (hvals : ∀ e ∈ entries, e.2 ≠ .nil ∧
      ∃ j, lua_value_to_json fmt e.2 = .ok j ∧ SameUpToOrder (json_to_lua_value host_len j) e.2) :
    ∃ j, lua_value_to_json fmt (.table len entries) = .ok j ∧
      SameUpToOrder (json_to_lua_value host_len j) (.table len entries) := by
  have hnodup : (entries.map Prod.fst).Nodup := (hperm.nodup_iff).2 (nodup_indices_keys len)
  obtain ⟨ordered, hord, hkeys⟩ := exists_perm_of_keys_perm entries _ hperm
  have hnodup2 : (ordered.map Prod.fst).Nodup := ((hord.map Prod.fst).nodup_iff).2 hnodup
  have hmem : ∀ i, 1 ≤ i → i ≤ len → (LuaValue.integer i, lua_gettable entries i) ∈ entries := by
    intro i hi1 hi2
    apply lua_gettable_mem
    rw [hperm.mem_iff]
    exact List.mem_map_of_mem _ ((mem_indices len i).2 ⟨hi1, hi2⟩)
  have hv : verify_array len entries = true :=
    (verify_array_iff len entries).2 ⟨by omega, fun i hi1 hi2 => (hvals _ (hmem i hi1 hi2)).1⟩
  obtain ⟨js, hp⟩ := push_back_all_exists
    (fun i => lua_value_to_json fmt (lua_gettable entries i)) (indices len)
    (fun i hi => by
      obtain ⟨j, hj, _⟩ := (hvals _ (hmem i ((mem_indices len i).1 hi).1
        ((mem_indices len i).1 hi).2)).2
      exact ⟨j, hj⟩)
  obtain ⟨hjslen, hget⟩ := push_back_all_get _ len js hp
  have hordlen : ordered.length = len.toNat := by
    have := congrArg List.length hkeys
    simpa [length_indices] using this
  -- position by position, `js` holds the conversions of the values of `ordered`
  have hpos : List.Forall₂ (fun (e : LuaValue × LuaValue) (j : Json) =>
      SameUpToOrder (json_to_lua_value host_len j) e.2 ∧
        is_nil (json_to_lua_value host_len j) = false) ordered js := by
    rw [List.forall₂_iff_get]
    refine ⟨by omega, fun k hk1 hk2 => ?_⟩
    have hkey : (ordered.get ⟨k, hk1⟩).1 = LuaValue.integer ((k : Int) + 1) := by
      have h2 := congrArg (fun l => l[k]?) hkeys
      have hk3 : k < len.toNat := by omega
      simp only [indices, List.map_map, List.getElem?_map, List.getElem?_eq_getElem hk1,
        List.getElem?_range hk3, Option.map_some', Function.comp, Option.some.injEq] at h2
      simpa using h2
    have hin : (LuaValue.integer ((k : Int) + 1), (ordered.get ⟨k, hk1⟩).2) ∈ ordered := by
      rw [← hkey]
      exact List.get_mem ordered k hk1
    have hval : lua_gettable entries ((k : Int) + 1) = (ordered.get ⟨k, hk1⟩).2 := by
      rw [← lua_gettable_perm entries ordered _ hord hnodup]
      exact lua_gettable_of_mem ordered _ _ hnodup2 hin
    have hconv := hget k hk2
    rw [hval] at hconv
    have hentry := hvals _ (hord.mem_iff.1 (List.get_mem ordered k hk1))
    obtain ⟨hne, j, hj, hsame⟩ := hentry
    rw [hconv] at hj
    have hjeq : js.get ⟨k, hk2⟩ = j := Except.ok.inj hj
    rw [hjeq]
    exact ⟨hsame, is_nil_emit_of_convert fmt host_len _ j hne (hjeq ▸ hconv)⟩
  have hkeys2 : ordered.map Prod.fst =
      (List.range ordered.length).map (fun (k : Nat) => LuaValue.integer (1 + (k : Int))) := by
    rw [hkeys, indices_map_integer, hordlen]
  have hsame := same_entries_array_entries host_len ordered js hpos 1 hkeys2
  -- the only border of the emitted table is `len`
  have hback : ∀ (k : Nat) (h : k < js.length),
      lua_gettable (array_entries host_len js 1) (1 + (k : Int)) ≠ .nil := by
    intro k hk
    rw [lua_gettable_array_entries host_len js 1 k hk, ← is_nil_eq_false_iff]
    have := (List.forall₂_iff_get.1 hpos).2 k (by omega) hk
    exact this.2
  have hborder := hlen (array_entries host_len js 1)
  have hL : host_len (array_entries host_len js 1) = len := by
    obtain ⟨hb0, hb1, hb2⟩ := hborder
    by_contra hne
    rcases lt_or_gt_of_ne hne with hlt | hgt
    · have := hback (host_len (array_entries host_len js 1)).toNat (by omega)
      apply this
      have hidx : 1 + (((host_len (array_entries host_len js 1)).toNat : Nat) : Int) =
          host_len (array_entries host_len js 1) + 1 := by omega
      rw [hidx]
      exact hb2
    · rcases hb1 with h0 | hnn
      · omega
      · exact hnn (lua_gettable_array_entries_above host_len js 1 _ (by omega))
  refine ⟨.array js, lua_value_to_json_array_path fmt len entries js hv hp, ?_⟩
  rw [json_to_lua_value_array, hL]
  exact SameUpToOrder.table len _ entries ordered hord hsame

/-! ## The round trip of a record -/

theorem json_object_set_perm (m : List (String × Json)) (key : String) (value : Json)
    (h : key ∉ m.map Prod.fst) : (json_object_set m key value).Perm ((key, value) :: m) := by
  induction m with
  | nil => exact List.Perm.refl _
  | cons e rest ih =>
    obtain ⟨k, v⟩ := e
    simp only [List.map_cons, List.mem_cons, not_or] at h
    simp only [json_object_set]
    split
    · exact List.Perm.refl _
    · rw [if_neg h.1]
      exact ((ih h.2).cons (k, v)).trans (List.Perm.swap _ _ _)

/-- With distinct coerced keys, the object built by the `lua_next` loop holds,
up to order, one member per entry: its coerced key and its converted value. -/
theorem object_loop_perm (fmt : LuaNumber → String) (entries : List (LuaValue × LuaValue)) :
    ∀ result : List (String × Json),
      (∀ e ∈ entries, ∃ key j, table_key fmt e.1 = .ok key ∧ lua_value_to_json fmt e.2 = .ok j) →
      (entries.map (fun e => table_key fmt e.1)).Nodup →
      (∀ e ∈ entries, ∀ key, table_key fmt e.1 = .ok key → key ∉ result.map Prod.fst) →
      ∃ (m added : List (String × Json)),
        object_loop fmt entries result = .ok m ∧
        List.Forall₂ (fun (e : LuaValue × LuaValue) (kv : String × Json) =>
          table_key fmt e.1 = .ok kv.1 ∧ lua_value_to_json fmt e.2 = .ok kv.2) entries added ∧
        m.Perm (result ++ added) := by
  induction entries with
  | nil =>
    intro result _ _ _
    exact ⟨result, [], rfl, List.Forall₂.nil, by simp⟩
  | cons e rest ih =>
    intro result hconv hnodup hfresh
    obtain ⟨k, v⟩ := e
    obtain ⟨key, j, hkey, hj⟩ := hconv (k, v) (List.mem_cons_self _ _)
    simp only [List.map_cons, List.nodup_cons] at hnodup
    have hnew : key ∉ result.map Prod.fst := hfresh (k, v) (List.mem_cons_self _ _) key hkey
    have hfresh2 : ∀ e ∈ rest, ∀ key2, table_key fmt e.1 = .ok key2 →
        key2 ∉ (json_object_set result key j).map Prod.fst := by
      intro e he key2 hkey2 hmem
      rcases (mem_keys_json_object_set result key key2 j).1 hmem with heq | hold
      · subst heq
        apply hnodup.1
        rw [List.mem_map]
        exact ⟨e, he, by rw [hkey2, hkey]⟩
      · exact hfresh e (List.mem_cons_of_mem _ he) key2 hkey2 hold
    obtain ⟨m, added, hm, hadded, hp⟩ := ih (json_object_set result key j)
      (fun e he => hconv e (List.mem_cons_of_mem _ he)) hnodup.2 hfresh2
    refine ⟨m, (key, j) :: added, ?_, List.Forall₂.cons ⟨hkey, hj⟩ hadded, ?_⟩
    · simp only [object_loop, hkey, hj]
      exact hm
    · refine hp.trans ?_
      refine ((json_object_set_perm result key j hnew).append_right added).trans ?_
      exact (List.perm_middle).symm

theorem same_key_string (k : LuaValue) (s : String) :
    same_key k (.string s) = true ↔ k = .string s := by
  cases k <;> simp [same_key]

/-- With distinct keys and no `nil` emission, the loop over the members of an
object adds one entry per member, in the order of the members. -/
theorem items_loop_eq (host_len : List (LuaValue × LuaValue) → Int)
    (members : List (String × Json)) :
    ∀ t : List (LuaValue × LuaValue),
      (∀ kv ∈ members, is_nil (json_to_lua_value host_len kv.2) = false) →
      (members.map (fun kv => c_str kv.1)).Nodup →
      (∀ kv ∈ members, LuaValue.string (c_str kv.1) ∉ t.map Prod.fst) →
      items_loop host_len members t =
        t ++ members.map (fun kv => (LuaValue.string (c_str kv.1), json_to_lua_value host_len kv.2)) := by
  induction members with
  | nil => intro t _ _ _; simp [items_loop]
  | cons kv rest ih =>
    intro t hnil hnodup hfresh
    obtain ⟨k, x⟩ := kv
    simp only [List.map_cons, List.nodup_cons] at hnodup
    have hx : is_nil (json_to_lua_value host_len x) = false := hnil (k, x) (List.mem_cons_self _ _)
    have hk : ∀ e ∈ t, same_key e.1 (.string (c_str k)) = false := by
      intro e he
      rw [← Bool.not_eq_true, same_key_string]
      intro hc
      apply hfresh (k, x) (List.mem_cons_self _ _)
      rw [← hc]
      exact List.mem_map_of_mem _ he
    rw [items_loop, lua_settable_fresh t _ _ hk, hx]
    simp only [Bool.false_eq_true, if_false]
    rw [ih _ (fun kv h => hnil kv (List.mem_cons_of_mem _ h)) hnodup.2]
    · simp
    · intro kv hkv hmem
      simp only [List.map_append, List.map_cons, List.map_nil, List.mem_append,
        List.mem_singleton] at hmem
      rcases hmem with h1 | h2
      · exact hfresh kv (List.mem_cons_of_mem _ hkv) h1
      · apply hnodup.1
        rw [List.mem_map]
        exact ⟨kv, hkv, LuaValue.string.inj h2⟩

theorem same_entries_items (host_len : List (LuaValue × LuaValue) → Int)
    (reordered : List (LuaValue × LuaValue)) (members : List (String × Json))
    (h : List.Forall₂ (fun (e : LuaValue × LuaValue) (kv : String × Json) =>
      e.1 = LuaValue.string (c_str kv.1) ∧ SameUpToOrder (json_to_lua_value host_len kv.2) e.2)
      reordered members) :
    SameEntries
      (members.map (fun kv => (LuaValue.string (c_str kv.1), json_to_lua_value host_len kv.2)))
      reordered := by
  induction h with
  | nil => exact SameEntries.nil
  | @cons e kv rest members1 hekv _ ih =>
    obtain ⟨k, v⟩ := e
    obtain ⟨hk, hv⟩ := hekv
    simp only at hk hv
    subst hk
    exact SameEntries.cons _ _ _ _ _ hv ih

theorem keys_of_same_items (host_len : List (LuaValue × LuaValue) → Int)
    (reordered : List (LuaValue × LuaValue)) (members : List (String × Json))
    (h : List.Forall₂ (fun (e : LuaValue × LuaValue) (kv : String × Json) =>
      e.1 = LuaValue.string (c_str kv.1) ∧ SameUpToOrder (json_to_lua_value host_len kv.2) e.2)
      reordered members) :
    reordered.map Prod.fst = members.map (fun kv => LuaValue.string (c_str kv.1)) := by
  induction h with
  | nil => rfl
  | cons hab _ ih => simp [hab.1, ih]

/-- A record whose values are carried back and forth is carried back and forth,
up to the order of its entries. -/
theorem record_round_trip (fmt : LuaNumber → String)
    (host_len : List (LuaValue × LuaValue) → Int)
    (hlen : ∀ t, is_border t (host_len t))
    (entries : List (LuaValue × LuaValue))
    (hkeys : ∀ e ∈ entries, ∃ s, e.1 = LuaValue.string s ∧ c_str s = s)
    (hnodup : (entries.map Prod.fst).Nodup)
    (hvals : ∀ e ∈ entries, e.2 ≠ .nil ∧
      ∃ j, lua_value_to_json fmt e.2 = .ok j ∧ SameUpToOrder (json_to_lua_value host_len j) e.2) :
    ∃ j, lua_value_to_json fmt (.table 0 entries) = .ok j ∧
      SameUpToOrder (json_to_lua_value host_len j) (.table 0 entries) := by
  have hv : verify_array 0 entries = false :=
    (verify_array_eq_false_iff 0 entries).2 (Or.inl (le_refl _))
  have hkey : ∀ e ∈ entries, ∀ s, e.1 = LuaValue.string s → table_key fmt e.1 = .ok (c_str s) := by
    intro e _ s hs
    rw [hs]
    rfl
  -- the coerced keys are distinct
  have hnodup2 : (entries.map (fun e => table_key fmt e.1)).Nodup := by
    have hmap : entries.map (fun e => table_key fmt e.1) =
        (entries.map Prod.fst).map (table_key fmt) := by simp
    rw [hmap]
    refine List.Nodup.map_on ?_ hnodup
    intro a ha b hb hab
    obtain ⟨ea, hea, rfl⟩ := List.mem_map.1 ha
    obtain ⟨eb, heb, rfl⟩ := List.mem_map.1 hb
    obtain ⟨sa, hsa, hca⟩ := hkeys ea hea
    obtain ⟨sb, hsb, hcb⟩ := hkeys eb heb
    rw [hkey ea hea sa hsa, hkey eb heb sb hsb, hca, hcb] at hab
    rw [hsa, hsb, Except.ok.inj hab]
  obtain ⟨m, added, hm, hadded, hp⟩ := object_loop_perm fmt entries []
    (fun e he => by
      obtain ⟨s, hs, _⟩ := hkeys e he
      obtain ⟨_, j, hj, _⟩ := hvals e he
      exact ⟨c_str s, j, hkey e he s hs, hj⟩)
    hnodup2 (fun _ _ _ _ => by simp)
  simp only [List.nil_append] at hp
  -- reorder the entries along the members of the object
  have hcomp : Relation.Comp
      (List.Forall₂ (fun (e : LuaValue × LuaValue) (kv : String × Json) =>
        table_key fmt e.1 = .ok kv.1 ∧ lua_value_to_json fmt e.2 = .ok kv.2)) List.Perm
      entries m := ⟨added, hadded, hp.symm⟩
  rw [List.forall₂_comp_perm_eq_perm_comp_forall₂] at hcomp
  obtain ⟨reordered, hre, hfor⟩ := hcomp
  have hfacts : List.Forall₂ (fun (e : LuaValue × LuaValue) (kv : String × Json) =>
      (e.1 = LuaValue.string (c_str kv.1) ∧
        SameUpToOrder (json_to_lua_value host_len kv.2) e.2) ∧
      is_nil (json_to_lua_value host_len kv.2) = false) reordered m := by
    rw [List.forall₂_iff_get] at hfor ⊢
    refine ⟨hfor.1, fun k hk1 hk2 => ?_⟩
    obtain ⟨hk, hc⟩ := hfor.2 k hk1 hk2
    have hin : reordered.get ⟨k, hk1⟩ ∈ entries := hre.mem_iff.2 (List.get_mem reordered k hk1)
    obtain ⟨s, hs, hcs⟩ := hkeys _ hin
    obtain ⟨hne, j, hj, hsame⟩ := hvals _ hin
    rw [hkey _ hin s hs, hcs] at hk
    have hks : s = (m.get ⟨k, hk2⟩).1 := Except.ok.inj hk
    rw [hc] at hj
    have hjeq : (m.get ⟨k, hk2⟩).2 = j := Except.ok.inj hj
    refine ⟨⟨?_, ?_⟩, ?_⟩
    · rw [hs, ← hks, hcs]
    · rw [hjeq]
      exact hsame
    · exact is_nil_emit_of_convert fmt host_len _ _ hne hc
  have hkeyseq : reordered.map Prod.fst = m.map (fun kv => LuaValue.string (c_str kv.1)) :=
    keys_of_same_items host_len reordered m (hfacts.imp (fun _ _ h => h.1))
  have hnodup3 : (m.map (fun kv => c_str kv.1)).Nodup := by
    have h1 : (reordered.map Prod.fst).Nodup := ((hre.symm.map Prod.fst).nodup_iff).2 hnodup
    rw [hkeyseq] at h1
    have h2 : m.map (fun kv => LuaValue.string (c_str kv.1)) =
        (m.map (fun kv => c_str kv.1)).map LuaValue.string := by simp
    rw [h2] at h1
    exact List.Nodup.of_map _ h1
  have hitems := items_loop_eq host_len m []
    (fun kv hkv => by
      obtain ⟨k, hk⟩ := List.mem_iff_get.1 hkv
      have := (List.forall₂_iff_get.1 hfacts).2 k.1 (by
        have := (List.forall₂_iff_get.1 hfacts).1
        omega) k.2
      rw [← hk]
      exact this.2)
    hnodup3 (fun _ _ => by simp)
  simp only [List.nil_append] at hitems
  have hsame := same_entries_items host_len reordered m
    (hfacts.imp (fun _ _ h => h.1))
  -- a table with string keys only has the border 0 and no other
  have hL : host_len (m.map (fun kv =>
      (LuaValue.string (c_str kv.1), json_to_lua_value host_len kv.2))) = 0 := by
    obtain ⟨_, hb1, _⟩ := hlen (m.map (fun kv =>
      (LuaValue.string (c_str kv.1), json_to_lua_value host_len kv.2)))
    rcases hb1 with h0 | hnn
    · exact h0
    · exfalso
      apply hnn
      apply lua_gettable_of_not_mem
      simp
  refine ⟨.object m, by rw [lua_value_to_json_object_path fmt 0 entries hv, hm], ?_⟩
  simp only [json_to_lua_value, hitems, hL]
  exact SameUpToOrder.table 0 _ entries reordered hre.symm hsame

/-! ## The least border is a border -/

theorem length_le_of_keys_present (t : List (LuaValue × LuaValue)) (n : Int)
    (h : ∀ i, 1 ≤ i → i ≤ n → lua_gettable t i ≠ .nil) : n.toNat ≤ t.length := by
  have hsub : (indices n).map LuaValue.integer ⊆ t.map Prod.fst := by
    intro k hk
    obtain ⟨i, hi, rfl⟩ := List.mem_map.1 hk
    exact mem_keys_of_lua_gettable t i (h i ((mem_indices n i).1 hi).1 ((mem_indices n i).1 hi).2)
  have hlen := (List.subperm_of_subset (nodup_indices_keys n) hsub).length_le
  simpa [length_indices] using hlen

theorem first_border_from_spec (t : List (LuaValue × LuaValue)) :
    ∀ (fuel : Nat) (n : Int), 0 ≤ n → (n = 0 ∨ lua_gettable t n ≠ .nil) →
      0 ≤ first_border_from t fuel n ∧
      (first_border_from t fuel n = 0 ∨ lua_gettable t (first_border_from t fuel n) ≠ .nil) ∧
      (lua_gettable t (first_border_from t fuel n + 1) = .nil ∨
        (first_border_from t fuel n = n + fuel ∧
          ∀ i, n < i → i ≤ first_border_from t fuel n → lua_gettable t i ≠ .nil)) := by
  intro fuel
  induction fuel with
  | zero =>
    intro n h0 hn
    simp only [first_border_from]
    exact ⟨h0, hn, Or.inr ⟨by simp, fun i h1 h2 => by omega⟩⟩
  | succ fuel ih =>
    intro n h0 hn
    simp only [first_border_from]
    by_cases hnil : is_nil (lua_gettable t (n + 1)) = true
    · simp only [hnil, if_true]
      exact ⟨h0, hn, Or.inl ((is_nil_eq_true_iff _).1 hnil)⟩
    · simp only [hnil, Bool.false_eq_true, if_false]
      have hne : lua_gettable t (n + 1) ≠ .nil := by
        rw [← is_nil_eq_false_iff]
        simpa using hnil
      obtain ⟨r0, r1, r2⟩ := ih (n + 1) (by omega) (Or.inr hne)
      refine ⟨r0, r1, ?_⟩
      rcases r2 with hl | ⟨hr, hall⟩
      · exact Or.inl hl
      · refine Or.inr ⟨by rw [hr]; push_cast; omega, fun i h1 h2 => ?_⟩
        by_cases hi : i = n + 1
        · rw [hi]
          exact hne
        · exact hall i (by omega) h2

/-- The length function `first_border` reports a border of every table. -/
theorem first_border_is_border (t : List (LuaValue × LuaValue)) :
    is_border t (first_border t) := by
  obtain ⟨r0, r1, r2⟩ := first_border_from_spec t t.length 0 (le_refl _) (Or.inl rfl)
  refine ⟨r0, r1, ?_⟩
  rcases r2 with hl | ⟨hr, hall⟩
  · exact hl
  · by_contra hne
    have hle := length_le_of_keys_present t (first_border t + 1) (fun i h1 h2 => by
      by_cases hi : i = first_border t + 1
      · rw [hi]
        exact hne
      · exact hall i (by omega) (by
          have : i ≤ first_border t := by omega
          exact this))
    have hr2 : first_border t = (t.length : Int) := by
      have := hr
      simpa [first_border] using this
    omega

/-! ## C3: the round trip of a host value -/

mutual
theorem round_trip_value (fmt : LuaNumber → String)
    (host_len : List (LuaValue × LuaValue) → Int)
    (hlen : ∀ t, is_border t (host_len t)) :
    ∀ d : LuaValue, round_trippable d →
      ∃ j, lua_value_to_json fmt d = .ok j ∧ SameUpToOrder (json_to_lua_value host_len j) d
  | .nil, _ => ⟨.null, rfl, SameUpToOrder.nil⟩
  | .boolean b, _ => ⟨.boolean b, rfl, SameUpToOrder.boolean b⟩
  | .integer n, _ => ⟨.number_integer n, rfl, SameUpToOrder.integer n⟩
  | .number x, _ => ⟨.number_float x, rfl, SameUpToOrder.number x⟩
  | .string s, h => by
    have hs : c_str s = s := h
    refine ⟨.string (c_str s), rfl, ?_⟩
    simp only [json_to_lua_value, hs]
    exact SameUpToOrder.string s
  | .other _, h => by
    simp [round_trippable] at h
  | .table len entries, h => by
    simp only [round_trippable] at h
    obtain ⟨hshape, hvalues⟩ := h
    have hvals := round_trip_values fmt host_len hlen entries hvalues
    rcases hshape with ⟨h1, hperm⟩ | ⟨h0, hkeys, hnodup⟩
    · exact sequence_round_trip fmt host_len hlen len entries h1 hperm hvals
    · subst h0
      exact record_round_trip fmt host_len hlen entries hkeys hnodup hvals
theorem round_trip_values (fmt : LuaNumber → String)
    (host_len : List (LuaValue × LuaValue) → Int)
    (hlen : ∀ t, is_border t (host_len t)) :
    ∀ entries : List (LuaValue × LuaValue), round_trippable_values entries →
      ∀ e ∈ entries, e.2 ≠ .nil ∧
        ∃ j, lua_value_to_json fmt e.2 = .ok j ∧ SameUpToOrder (json_to_lua_value host_len j) e.2
  | [], _ => by simp
  | (k, v) :: rest, h => by
    simp only [round_trippable_values] at h
    obtain ⟨hne, hv, hrest⟩ := h
    intro e he
    rcases List.mem_cons.1 he with rfl | he
    · exact ⟨hne, round_trip_value fmt host_len hlen v hv⟩
    · exact round_trip_values fmt host_len hlen rest hrest e he
end

/-- C3 (as amended). On a host that reports a border as the length of a table: a
host value with no value of an unsupported kind, no String with a NUL byte, and
whose tables, at any depth, are each either a sequence (reported length `N ≥ 1`,
keys exactly `1..N`) or a record (reported length 0, distinct String keys without
NUL), with no `nil` entry, converts to a JSON value, and emitting that JSON value
gives the host value back up to the order of table entries. -/
theorem round_trip (fmt : LuaNumber → String)
    (host_len : List (LuaValue × LuaValue) → Int)
    (hlen : ∀ t, is_border t (host_len t))
    (d : LuaValue) (hd : round_trippable d) :
    ∃ j, lua_value_to_json fmt d = .ok j ∧
      SameUpToOrder (json_to_lua_value host_len j) d :=
  round_trip_value fmt host_len hlen d hd

/-- The round trip of `{b = {[2] = "y", [1] = 1.5}, a = true}`: a record whose
keys are not in sorted order, holding a sequence iterated from key 2. -/
theorem round_trip_witness :
    ∃ j, lua_value_to_json to_string_sample
        (.table 0 [(.string "b", .table 2 [(.integer 2, .string "y"),
          (.integer 1, .number ⟨0x3FF8000000000000⟩)]), (.string "a", .boolean true)]) = .ok j ∧
      SameUpToOrder (json_to_lua_value first_border j)
        (.table 0 [(.string "b", .table 2 [(.integer 2, .string "y"),
          (.integer 1, .number ⟨0x3FF8000000000000⟩)]), (.string "a", .boolean true)]) :=
  round_trip to_string_sample first_border first_border_is_border _ (by
    have hc1 : c_str "b" = "b" := by decide
    have hc2 : c_str "a" = "a" := by decide
    have hc3 : c_str "y" = "y" := by decide
    have hidx : (indices 2).map LuaValue.integer = [.integer 1, .integer 2] := by rfl
    simp only [round_trippable, round_trippable_values, hidx, List.map_cons, List.map_nil,
      and_true, true_and, ne_eq, not_false_eq_true, reduceCtorEq, hc3]
    refine ⟨Or.inr ⟨?_, ?_⟩, Or.inl ⟨by decide, List.Perm.swap _ _ _⟩⟩
    · intro e he
      simp only [List.mem_cons, List.mem_singleton, List.not_mem_nil, or_false] at he
      rcases he with rfl | rfl
      · exact ⟨"b", rfl, hc1⟩
      · exact ⟨"a", rfl, hc2⟩
    · simp only [List.nodup_cons, List.mem_singleton, LuaValue.string.injEq, List.not_mem_nil,
        not_false_eq_true, List.nodup_nil, and_true]
      decide)

/-- C3 fails as stated: the table `{[5] = true}` (reported length 0, no String
at all) converts to the Object `{"5": true}`, and the table emitted from it has
the String key `"5"`: it is not the original table, whatever the order of the
entries. -/
theorem round_trip_counterexample :
    lua_value_to_json to_string_sample (.table 0 [(.integer 5, .boolean true)]) =
        .ok (.object [("5", .boolean true)]) ∧
      json_to_lua_value first_border (.object [("5", .boolean true)]) =
        .table 0 [(.string "5", .boolean true)] ∧
      ¬ SameUpToOrder (.table 0 [(.string "5", .boolean true)])
        (.table 0 [(.integer 5, .boolean true)]) := by
  refine ⟨by rfl, by rfl, ?_⟩
  intro h
  cases h with
  | table _ _ _ reordered hperm hsame =>
    have hre : reordered = [(.integer 5, .boolean true)] := List.perm_singleton.1 hperm
    subst hre
    cases hsame

/-! ## The outcomes of the entry point -/

theorem run_engine_outcome (host_len : List (LuaValue × LuaValue) → Int)
    (engine : Json → List Json → Except String Json) (script : Json) (inputs : List Json) :
    (∃ e, run_engine host_len engine script inputs = .error (execution_error e)) ∨
      (∃ v, run_engine host_len engine script inputs = .ok v) := by
  unfold run_engine
  cases engine script inputs with
  | error e => exact Or.inl ⟨e, rfl⟩
  | ok result => exact Or.inr ⟨_, rfl⟩

/-- The second argument, when it is a table that converts to `j`, gives the input
documents `input_documents j`. -/
theorem lua_computo_execute_two_table (fmt : LuaNumber → String)
    (host_len : List (LuaValue × LuaValue) → Int)
    (engine : Json → List Json → Except String Json) (arg1 arg2 : LuaValue)
    (script j : Json)
    (h1 : is_table arg1 = true) (hs : lua_value_to_json fmt arg1 = .ok script)
    (h2 : is_table arg2 = true) (hj : lua_value_to_json fmt arg2 = .ok j) :
    lua_computo_execute fmt host_len engine [arg1, arg2] =
      run_engine host_len engine script (input_documents j) := by
  rw [lua_computo_execute_two, if_pos h1, hs]
  simp only [h2, if_true, hj]
  cases j <;> rfl

/-- With one or two arguments the outcome is one of the two argument-type
errors, an execution error, or a value. -/
theorem lua_computo_execute_outcome (fmt : LuaNumber → String)
    (host_len : List (LuaValue × LuaValue) → Int)
    (engine : Json → List Json → Except String Json) (args : List LuaValue)
    (h : args.length = 1 ∨ args.length = 2) :
    lua_computo_execute fmt host_len engine args =
        .error "execute() first argument (script) must be a table" ∨
      lua_computo_execute fmt host_len engine args =
        .error "execute() second argument (inputs) must be a table or nil" ∨
      (∃ e, lua_computo_execute fmt host_len engine args = .error (execution_error e)) ∨
      (∃ v, lua_computo_execute fmt host_len engine args = .ok v) := by
  have hrun := run_engine_outcome host_len engine
  rcases h with h | h
  · obtain ⟨arg1, rfl⟩ := List.length_eq_one.1 h
    rw [lua_computo_execute_one]
    by_cases h1 : is_table arg1 = true
    · rw [if_pos h1]
      cases hs : lua_value_to_json fmt arg1 with
      | error e => exact Or.inr (Or.inr (Or.inl ⟨e, rfl⟩))
      | ok script => exact Or.inr (Or.inr (hrun script []))
    · rw [if_neg h1]
      exact Or.inl rfl
  · obtain ⟨arg1, arg2, rfl⟩ := List.length_eq_two.1 h
    by_cases h1 : is_table arg1 = true
    · cases hs : lua_value_to_json fmt arg1 with
      | error e =>
        rw [lua_computo_execute_two, if_pos h1, hs]
        exact Or.inr (Or.inr (Or.inl ⟨e, rfl⟩))
      | ok script =>
        by_cases h2 : is_table arg2 = true
        · cases hj : lua_value_to_json fmt arg2 with
          | error e =>
            rw [lua_computo_execute_two, if_pos h1, hs]
            simp only [h2, if_true, hj]
            exact Or.inr (Or.inr (Or.inl ⟨e, rfl⟩))
          | ok j =>
            rw [lua_computo_execute_two_table fmt host_len engine arg1 arg2 script j h1 hs h2 hj]
            exact Or.inr (Or.inr (hrun script _))
        · rw [lua_computo_execute_two, if_pos h1, hs]
          simp only [h2, Bool.false_eq_true, if_false]
          by_cases h3 : is_nil arg2 = true
          · rw [if_pos h3]
            exact Or.inr (Or.inr (hrun script []))
          · rw [if_neg h3]
            exact Or.inr (Or.inl rfl)
    · rw [lua_computo_execute_two, if_neg h1]
      exact Or.inl rfl

theorem lua_computo_execute_count (fmt : LuaNumber → String)
    (host_len : List (LuaValue × LuaValue) → Int)
    (engine : Json → List Json → Except String Json) (args : List LuaValue)
    (h : args.length = 0 ∨ 3 ≤ args.length) :
    lua_computo_execute fmt host_len engine args =
      .error ("execute() expects 1 or 2 arguments, got " ++ Nat.repr args.length) := by
  unfold lua_computo_execute
  have hc : args.length < 1 ∨ args.length > 2 := by omega
  simp only [hc, if_true]

/-! ## C12: the argument count -/

/-- C12. A call with `n` arguments fails with the argument-count error exactly
when `n` is 0 or at least 3; the message is then
`execute() expects 1 or 2 arguments, got n`, which holds the text `1 or 2` and
the decimal rendering of `n`.  With 1 or 2 arguments the outcome is never an
error with a message of that form. -/
theorem argument_count (fmt : LuaNumber → String)
    (host_len : List (LuaValue × LuaValue) → Int)
    (engine : Json → List Json → Except String Json) (args : List LuaValue) :
    ((args.length = 0 ∨ 3 ≤ args.length) →
      lua_computo_execute fmt host_len engine args =
        .error ("execute() expects " ++ "1 or 2" ++ " arguments, got " ++ Nat.repr args.length)) ∧
    ((args.length = 1 ∨ args.length = 2) →
      ∀ count : String, lua_computo_execute fmt host_len engine args ≠
        .error ("execute() expects " ++ "1 or 2" ++ " arguments, got " ++ count)) := by
  constructor
  · intro h
    exact lua_computo_execute_count fmt host_len engine args h
  · intro h count hc
    have hat : ∀ msg : String,
        msg = "execute() expects " ++ "1 or 2" ++ " arguments, got " ++ count →
        (msg.data.drop 10).head? = some 'e' := by
      intro msg hmsg
      rw [hmsg]
      rfl
    rcases lua_computo_execute_outcome fmt host_len engine args h with h1 | h2 | ⟨e, h3⟩ | ⟨v, h4⟩
    · rw [h1] at hc
      have := hat _ (Except.error.inj hc)
      revert this
      decide
    · rw [h2] at hc
      have := hat _ (Except.error.inj hc)
      revert this
      decide
    · rw [h3] at hc
      have hfirst : (execution_error e).data.head? = some 'C' := by rfl
      have hfirst2 : (execution_error e).data.head? = some 'e' := by
        rw [Except.error.inj hc]
        rfl
      rw [hfirst] at hfirst2
      revert hfirst2
      decide
    · rw [h4] at hc
      cases hc

/-- The argument-count error at 0 and at 3 arguments, and a call with 1 argument
that does not raise it. -/
theorem argument_count_witness :
    lua_computo_execute to_string_sample first_border (fun script _ => .ok script) [] =
        .error "execute() expects 1 or 2 arguments, got 0" ∧
      lua_computo_execute to_string_sample first_border (fun script _ => .ok script)
        [.table 0 [], .nil, .nil] = .error "execute() expects 1 or 2 arguments, got 3" ∧
      lua_computo_execute to_string_sample first_border (fun script _ => .ok script)
        [.table 0 []] ≠ .error "execute() expects 1 or 2 arguments, got 1" :=
  ⟨(argument_count to_string_sample first_border _ []).1 (Or.inl rfl),
    (argument_count to_string_sample first_border _ [.table 0 [], .nil, .nil]).1
      (Or.inr (by decide)),
    (argument_count to_string_sample first_border _ [.table 0 []]).2 (Or.inl rfl) "1"⟩

/-! ## C13: the argument types -/

/-- C13. In a call with 1 or 2 arguments whose first argument is not a table,
the call fails with the error naming the script; when the first argument is a
table that converts and the second is neither a table nor `nil`, the call fails
with the error naming the inputs.  The engine plays no part in either outcome. -/
theorem argument_type (fmt : LuaNumber → String)
    (host_len : List (LuaValue × LuaValue) → Int)
    (engine : Json → List Json → Except String Json) :
    (∀ arg1 : LuaValue, (∀ len entries, arg1 ≠ .table len entries) →
      lua_computo_execute fmt host_len engine [arg1] =
          .error "execute() first argument (script) must be a table" ∧
      ∀ arg2, lua_computo_execute fmt host_len engine [arg1, arg2] =
          .error "execute() first argument (script) must be a table") ∧
    (∀ (len : Int) (entries : List (LuaValue × LuaValue)) (script : Json) (arg2 : LuaValue),
      lua_value_to_json fmt (.table len entries) = .ok script →
      (∀ len2 entries2, arg2 ≠ .table len2 entries2) → arg2 ≠ .nil →
      lua_computo_execute fmt host_len engine [.table len entries, arg2] =
        .error "execute() second argument (inputs) must be a table or nil") := by
  have hnot : ∀ v : LuaValue, (∀ len entries, v ≠ .table len entries) → is_table v = false := by
    intro v hv
    cases v with
    | table len entries => exact absurd rfl (hv len entries)
    | _ => rfl
  constructor
  · intro arg1 h1
    have ht := hnot arg1 h1
    refine ⟨?_, fun arg2 => ?_⟩
    · rw [lua_computo_execute_one, ht]
      rfl
    · rw [lua_computo_execute_two, ht]
      rfl
  · intro len entries script arg2 hs h2 hnil
    have ht2 := hnot arg2 h2
    have hn : is_nil arg2 = false := (is_nil_eq_false_iff arg2).2 hnil
    rw [lua_computo_execute_two, hs]
    simp [is_table, ht2, hn]

/-- The two argument-type errors at `execute(5)` and at `execute({}, "x")`. -/
theorem argument_type_witness :
    lua_computo_execute to_string_sample first_border (fun script _ => .ok script)
        [.integer 5] = .error "execute() first argument (script) must be a table" ∧
      lua_computo_execute to_string_sample first_border (fun script _ => .ok script)
        [.table 0 [], .string "x"] =
        .error "execute() second argument (inputs) must be a table or nil" :=
  ⟨((argument_type to_string_sample first_border _).1 (.integer 5)
      (fun _ _ h => by cases h)).1,
    (argument_type to_string_sample first_border _).2 0 [] (.object []) (.string "x")
      (by rfl) (fun _ _ h => by cases h) (fun h => by cases h)⟩

/-! ## C11: an error of the engine -/

/-- C11. In a call whose script (a table) and inputs convert, when the engine
raises an error with message `m` the call fails with the single error
`Computo execution error: m`: the message of the engine is in it verbatim, and
no value is returned. -/
theorem engine_error_wrapped (fmt : LuaNumber → String)
    (host_len : List (LuaValue × LuaValue) → Int)
    (engine : Json → List Json → Except String Json)
    (arg1 : LuaValue) (script : Json) (m : String)
    (h1 : is_table arg1 = true) (hs : lua_value_to_json fmt arg1 = .ok script) :
    (engine script [] = .error m →
      lua_computo_execute fmt host_len engine [arg1] =
          .error ("Computo execution error: " ++ m) ∧
      lua_computo_execute fmt host_len engine [arg1, .nil] =
          .error ("Computo execution error: " ++ m)) ∧
    (∀ (arg2 : LuaValue) (j : Json), is_table arg2 = true →
      lua_value_to_json fmt arg2 = .ok j → engine script (input_documents j) = .error m →
      lua_computo_execute fmt host_len engine [arg1, arg2] =
        .error ("Computo execution error: " ++ m)) ∧
    (∃ before after : String, "Computo execution error: " ++ m = before ++ m ++ after) := by
  refine ⟨fun he => ⟨?_, ?_⟩, fun arg2 j h2 hj he => ?_, ⟨"Computo execution error: ", "", ?_⟩⟩
  · rw [lua_computo_execute_one, if_pos h1, hs]
    simp only [run_engine, he]
    rfl
  · rw [lua_computo_execute_two, if_pos h1, hs]
    simp only [is_table, is_nil, Bool.false_eq_true, if_false, if_true, run_engine, he]
    rfl
  · rw [lua_computo_execute_two_table fmt host_len engine arg1 arg2 script j h1 hs h2 hj]
    simp only [run_engine, he]
    rfl
  · simp

/-- An engine that raises `division by zero`, called with one argument and with
an array of inputs. -/
theorem engine_error_wrapped_witness :
    lua_computo_execute to_string_sample first_border (fun _ _ => .error "division by zero")
        [.table 0 []] = .error "Computo execution error: division by zero" ∧
      lua_computo_execute to_string_sample first_border (fun _ _ => .error "division by zero")
        [.table 0 [], .table 1 [(.integer 1, .integer 7)]] =
        .error "Computo execution error: division by zero" := by
  obtain ⟨h1, h2, _⟩ :=
    engine_error_wrapped to_string_sample first_border (fun _ _ => .error "division by zero")
      (.table 0 []) (.object []) "division by zero" (by rfl) (by rfl)
  exact ⟨(h1 rfl).1, h2 (.table 1 [(.integer 1, .integer 7)]) (.array [.number_integer 7])
    (by rfl) (by rfl) rfl⟩

/-! ## C20: when the engine is called -/

/-- C20. Whatever the arguments, either the call fails with an error that does
not depend on the engine, or there is one script and one input list, both fully
converted, on which the engine is called, once, the outcome being that of this
one call.  The first case is the one of every call in which the argument count
or an argument type is invalid or a conversion fails: two engines then give the
same error. -/
theorem engine_called_after_validation (fmt : LuaNumber → String)
    (host_len : List (LuaValue × LuaValue) → Int) (args : List LuaValue) :
    ((∃ msg, ∀ engine : Json → List Json → Except String Json,
        lua_computo_execute fmt host_len engine args = .error msg) ∨
      (∃ (script : Json) (inputs : List Json),
        (args.length = 1 ∨ args.length = 2) ∧ is_table (args.getD 0 .nil) = true ∧
        lua_value_to_json fmt (args.getD 0 .nil) = .ok script ∧
        ((inputs = [] ∧ (args.length = 1 ∨ args.getD 1 .nil = .nil)) ∨
          (∃ j, args.length = 2 ∧ is_table (args.getD 1 .nil) = true ∧
            lua_value_to_json fmt (args.getD 1 .nil) = .ok j ∧ inputs = input_documents j)) ∧
        ∀ engine : Json → List Json → Except String Json,
          lua_computo_execute fmt host_len engine args =
            run_engine host_len engine script inputs)) ∧
    ((args.length = 0 ∨ 3 ≤ args.length ∨ is_table (args.getD 0 .nil) = false ∨
        (∃ e, lua_value_to_json fmt (args.getD 0 .nil) = .error e) ∨
        (args.length = 2 ∧ is_table (args.getD 1 .nil) = false ∧
          is_nil (args.getD 1 .nil) = false) ∨
        (args.length = 2 ∧ is_table (args.getD 1 .nil) = true ∧
          ∃ e, lua_value_to_json fmt (args.getD 1 .nil) = .error e)) →
      ∃ msg, ∀ engine1 engine2 : Json → List Json → Except String Json,
        lua_computo_execute fmt host_len engine1 args = .error msg ∧
        lua_computo_execute fmt host_len engine2 args = .error msg) := by
  have hlen : args.length = 0 ∨ 3 ≤ args.length ∨ (∃ a, args = [a]) ∨ (∃ a b, args = [a, b]) := by
    rcases Nat.lt_or_ge args.length 3 with h | h
    · rcases Nat.lt_or_ge args.length 1 with h0 | h1
      · exact Or.inl (by omega)
      · rcases Nat.lt_or_ge args.length 2 with h2 | h2
        · exact Or.inr (Or.inr (Or.inl (List.length_eq_one.1 (by omega))))
        · exact Or.inr (Or.inr (Or.inr (List.length_eq_two.1 (by omega))))
    · exact Or.inr (Or.inl h)
  rcases hlen with h0 | h3 | ⟨a, rfl⟩ | ⟨a, b, rfl⟩
  · have hc := fun engine => lua_computo_execute_count fmt host_len engine args (Or.inl h0)
    exact ⟨Or.inl ⟨_, hc⟩, fun _ => ⟨_, fun e1 e2 => ⟨hc e1, hc e2⟩⟩⟩
  · have hc := fun engine => lua_computo_execute_count fmt host_len engine args (Or.inr h3)
    exact ⟨Or.inl ⟨_, hc⟩, fun _ => ⟨_, fun e1 e2 => ⟨hc e1, hc e2⟩⟩⟩
  · by_cases h1 : is_table a = true
    · cases hs : lua_value_to_json fmt a with
      | error e =>
        have hc : ∀ engine, lua_computo_execute fmt host_len engine [a] =
            .error (execution_error e) := fun engine => by
          rw [lua_computo_execute_one, if_pos h1, hs]
        exact ⟨Or.inl ⟨_, hc⟩, fun _ => ⟨_, fun e1 e2 => ⟨hc e1, hc e2⟩⟩⟩
      | ok script =>
        refine ⟨Or.inr ⟨script, [], Or.inl rfl, h1, hs, Or.inl ⟨rfl, Or.inl rfl⟩,
          fun engine => by rw [lua_computo_execute_one, if_pos h1, hs]⟩, ?_⟩
        rintro (hf | hf | hf | ⟨e, he⟩ | ⟨hf, _⟩ | ⟨hf, _⟩)
        · exact absurd hf (by simp)
        · exact absurd hf (by simp)
        · exact absurd (h1.symm.trans hf) (by decide)
        · exact absurd (hs.symm.trans he) (by simp)
        · exact absurd hf (by simp)
        · exact absurd hf (by simp)
    · have hc : ∀ engine, lua_computo_execute fmt host_len engine [a] =
          .error "execute() first argument (script) must be a table" := fun engine => by
        rw [lua_computo_execute_one, if_neg h1]
      exact ⟨Or.inl ⟨_, hc⟩, fun _ => ⟨_, fun e1 e2 => ⟨hc e1, hc e2⟩⟩⟩
  · by_cases h1 : is_table a = true
    · cases hs : lua_value_to_json fmt a with
      | error e =>
        have hc : ∀ engine, lua_computo_execute fmt host_len engine [a, b] =
            .error (execution_error e) := fun engine => by
          rw [lua_computo_execute_two, if_pos h1, hs]
        exact ⟨Or.inl ⟨_, hc⟩, fun _ => ⟨_, fun e1 e2 => ⟨hc e1, hc e2⟩⟩⟩
      | ok script =>
        by_cases h2 : is_table b = true
        · cases hj : lua_value_to_json fmt b with
          | error e =>
            have hc : ∀ engine, lua_computo_execute fmt host_len engine [a, b] =
                .error (execution_error e) := fun engine => by
              rw [lua_computo_execute_two, if_pos h1, hs]
              simp only [h2, if_true, hj]
            exact ⟨Or.inl ⟨_, hc⟩, fun _ => ⟨_, fun e1 e2 => ⟨hc e1, hc e2⟩⟩⟩
          | ok j =>
            refine ⟨Or.inr ⟨script, input_documents j, Or.inr rfl, h1, hs,
              Or.inr ⟨j, rfl, h2, hj, rfl⟩,
              fun engine =>
                lua_computo_execute_two_table fmt host_len engine a b script j h1 hs h2 hj⟩, ?_⟩
            rintro (hf | hf | hf | ⟨e, he⟩ | ⟨_, hf, _⟩ | ⟨_, _, e, he⟩)
            · exact absurd hf (by simp)
            · exact absurd hf (by simp)
            · exact absurd (h1.symm.trans hf) (by decide)
            · exact absurd (hs.symm.trans he) (by simp)
            · exact absurd (h2.symm.trans hf) (by decide)
            · exact absurd (hj.symm.trans he) (by simp)
        · by_cases h3 : is_nil b = true
          · have hb : b = .nil := (is_nil_eq_true_iff b).1 h3
            refine ⟨Or.inr ⟨script, [], Or.inr rfl, h1, hs, Or.inl ⟨rfl, Or.inr hb⟩,
              fun engine => ?_⟩, ?_⟩
            · rw [lua_computo_execute_two, if_pos h1, hs]
              simp only [h2, Bool.false_eq_true, if_false, h3, if_true]
            · rintro (hf | hf | hf | ⟨e, he⟩ | ⟨_, _, hf⟩ | ⟨_, hf, _⟩)
              · exact absurd hf (by simp)
              · exact absurd hf (by simp)
              · exact absurd (h1.symm.trans hf) (by decide)
              · exact absurd (hs.symm.trans he) (by simp)
              · exact absurd (h3.symm.trans hf) (by decide)
              · exact absurd hf h2
          · have hc : ∀ engine, lua_computo_execute fmt host_len engine [a, b] =
                .error "execute() second argument (inputs) must be a table or nil" :=
                fun engine => by
              rw [lua_computo_execute_two, if_pos h1, hs]
              simp only [h2, Bool.false_eq_true, if_false, h3]
            exact ⟨Or.inl ⟨_, hc⟩, fun _ => ⟨_, fun e1 e2 => ⟨hc e1, hc e2⟩⟩⟩
    · have hc : ∀ engine, lua_computo_execute fmt host_len engine [a, b] =
          .error "execute() first argument (script) must be a table" := fun engine => by
        rw [lua_computo_execute_two, if_neg h1]
      exact ⟨Or.inl ⟨_, hc⟩, fun _ => ⟨_, fun e1 e2 => ⟨hc e1, hc e2⟩⟩⟩

/-- Two engines on `execute({}, {[true] = 1})`: the conversion of the inputs
fails and both calls raise the same error. -/
theorem engine_called_after_validation_witness :
    ∃ msg,
      lua_computo_execute to_string_sample first_border (fun script _ => .ok script)
        [.table 0 [], .table 0 [(.boolean true, .integer 1)]] = .error msg ∧
      lua_computo_execute to_string_sample first_border (fun _ _ => .error "engine")
        [.table 0 [], .table 0 [(.boolean true, .integer 1)]] = .error msg := by
  obtain ⟨msg, h⟩ := (engine_called_after_validation to_string_sample first_border
    [.table 0 [], .table 0 [(.boolean true, .integer 1)]]).2
    (Or.inr (Or.inr (Or.inr (Or.inr (Or.inr ⟨rfl, rfl, _, rfl⟩)))))
  exact ⟨msg, h _ _⟩

/-! ## C18: the empty table -/

/-- C18. The empty table converts to the empty Object, whatever length is
reported for it; no host value converts to the empty Array; and `execute` called
with a script that converts and the empty table as inputs calls the engine on
the one-element input list holding the empty Object. -/
theorem empty_table_conversion (fmt : LuaNumber → String)
    (host_len : List (LuaValue × LuaValue) → Int) :
    (∀ L : Int, lua_value_to_json fmt (.table L []) = .ok (.object [])) ∧
    (∀ v : LuaValue, lua_value_to_json fmt v ≠ .ok (.array [])) ∧
    (∀ (engine : Json → List Json → Except String Json) (arg1 : LuaValue) (script : Json)
      (L : Int), is_table arg1 = true → lua_value_to_json fmt arg1 = .ok script →
      lua_computo_execute fmt host_len engine [arg1, .table L []] =
        run_engine host_len engine script [.object []]) := by
  have hempty : ∀ L : Int, lua_value_to_json fmt (.table L []) = .ok (.object []) := by
    intro L
    have hv : verify_array L [] = false := by
      rw [verify_array_eq_false_iff]
      by_cases h0 : L ≤ 0
      · exact Or.inl h0
      · exact Or.inr ⟨1, le_refl _, by omega, rfl⟩
    rw [lua_value_to_json_object_path fmt L [] hv]
    rfl
  refine ⟨hempty, ?_, ?_⟩
  · intro v h
    cases v with
    | table len entries =>
      rw [lua_value_to_json_table] at h
      split at h
      · rename_i hv
        have h0 := ((verify_array_iff len entries).1 hv).1
        cases hp : push_back_all (fun i => lua_value_to_json fmt (lua_gettable entries i))
            (indices len) with
        | error e => simp [hp] at h
        | ok js =>
          simp only [hp, Except.ok.injEq, Json.array.injEq] at h
          subst h
          have hlen := (push_back_all_get _ len [] hp).1
          simp only [List.length_nil] at hlen
          omega
      · cases ho : object_loop fmt entries [] with
        | error e => simp [ho] at h
        | ok m => simp [ho] at h
    | _ => simp [lua_value_to_json] at h
  · intro engine arg1 script L h1 hs
    exact lua_computo_execute_two_table fmt host_len engine arg1 (.table L []) script
      (.object []) h1 hs rfl (hempty L)

/-- The call `execute({}, {})` with an engine that returns its input list. -/
theorem empty_table_conversion_witness :
    lua_computo_execute to_string_sample first_border (fun _ inputs => .ok (.array inputs))
        [.table 0 [], .table 0 []] = .ok (.table 1 [(.integer 1, .table 0 [])]) :=
  ((empty_table_conversion to_string_sample first_border).2.2
    (fun _ inputs => .ok (.array inputs)) (.table 0 []) (.object []) 0 rfl (by rfl)).trans
    (by rfl)

/-! ## C15: integers -/

/-- C15. A signed integer `n` is emitted as the host Integer `n`; an unsigned
integer `u` as `u` when `u < 2^63` and as `u - 2^64` when `2^63 ≤ u < 2^64`: in
both cases a host Integer in the signed 64-bit range that is `u` modulo `2^64`.
The emission of an unsigned value is always a value. -/
theorem integer_emission (host_len : List (LuaValue × LuaValue) → Int) :
    (∀ n : Int, json_to_lua_value host_len (.number_integer n) = .integer n) ∧
    (∀ u : Nat, u < 2 ^ 63 →
      json_to_lua_value host_len (.number_unsigned u) = .integer (u : Int)) ∧
    (∀ u : Nat, 2 ^ 63 ≤ u → u < 2 ^ 64 →
      json_to_lua_value host_len (.number_unsigned u) = .integer ((u : Int) - 2 ^ 64)) ∧
    (∀ u : Nat, u < 2 ^ 64 →
      ∃ n : Int, json_to_lua_value host_len (.number_unsigned u) = .integer n ∧
        -(2 ^ 63) ≤ n ∧ n < 2 ^ 63 ∧ n % 2 ^ 64 = (u : Int)) := by
  refine ⟨fun _ => rfl, ?_, ?_, ?_⟩
  · intro u hu
    have hmod : u % 2 ^ 64 = u := Nat.mod_eq_of_lt (by omega)
    simp only [json_to_lua_value, to_lua_Integer, hmod, hu, if_true]
  · intro u h1 h2
    have hmod : u % 2 ^ 64 = u := Nat.mod_eq_of_lt h2
    have hnot : ¬ u < 2 ^ 63 := by omega
    simp only [json_to_lua_value, to_lua_Integer, hmod, hnot, if_false]
  · intro u hu
    have hmod : u % 2 ^ 64 = u := Nat.mod_eq_of_lt hu
    by_cases h : u < 2 ^ 63
    · refine ⟨(u : Int), ?_, by omega, by omega, by omega⟩
      simp only [json_to_lua_value, to_lua_Integer, hmod, h, if_true]
    · refine ⟨(u : Int) - 2 ^ 64, ?_, by omega, by omega, by omega⟩
      simp only [json_to_lua_value, to_lua_Integer, hmod, h, if_false]

/-- The emission of the largest unsigned value, `2^64 - 1`, and of `7`. -/
theorem integer_emission_witness :
    json_to_lua_value first_border (.number_unsigned 18446744073709551615) = .integer (-1) ∧
      json_to_lua_value first_border (.number_unsigned 7) = .integer 7 :=
  ⟨((integer_emission first_border).2.2.1 18446744073709551615 (by decide) (by decide)).trans
      (by rfl),
    (integer_emission first_border).2.1 7 (by decide)⟩

/-! ## C14: the emission of an array -/

theorem is_nil_json_to_lua_value (host_len : List (LuaValue × LuaValue) → Int) (j : Json) :
    is_nil (json_to_lua_value host_len j) = true ↔ j = .null := by
  rw [is_nil_eq_true_iff]
  constructor
  · exact json_to_lua_value_eq_nil host_len j
  · intro h
    rw [h]
    rfl

theorem mem_keys_array_entries (host_len : List (LuaValue × LuaValue) → Int)
    (elems : List Json) :
    ∀ (start : Int) (key : LuaValue),
      key ∈ (array_entries host_len elems start).map Prod.fst ↔
        ∃ (k : Nat) (h : k < elems.length),
          key = LuaValue.integer (start + (k : Int)) ∧ elems.get ⟨k, h⟩ ≠ .null := by
  induction elems with
  | nil =>
    intro start key
    simp [array_entries]
  | cons x rest ih =>
    intro start key
    have hsplit : key ∈ (array_entries host_len (x :: rest) start).map Prod.fst ↔
        ((key = LuaValue.integer start ∧ x ≠ .null) ∨
          key ∈ (array_entries host_len rest (start + 1)).map Prod.fst) := by
      by_cases hnil : is_nil (json_to_lua_value host_len x) = true
      · have hx := (is_nil_json_to_lua_value host_len x).1 hnil
        simp only [array_entries, hnil, if_true, List.nil_append]
        simp [hx]
      · have hx : x ≠ .null := fun h => hnil ((is_nil_json_to_lua_value host_len x).2 h)
        simp [array_entries, hnil, hx]
    rw [hsplit, ih (start + 1) key]
    constructor
    · rintro (⟨hk, hx⟩ | ⟨k, hk, hkey, hx⟩)
      · exact ⟨0, by simp, by simpa using hk, by simpa using hx⟩
      · refine ⟨k + 1, by simpa using hk, ?_, by simpa using hx⟩
        rw [hkey]
        congr 1
        push_cast
        omega
    · rintro ⟨k, hk, hkey, hx⟩
      cases k with
      | zero => exact Or.inl ⟨by simpa using hkey, by simpa using hx⟩
      | succ k =>
        refine Or.inr ⟨k, by simpa using hk, ?_, by simpa using hx⟩
        rw [hkey]
        congr 1
        push_cast
        omega

/-- A border of the entries written for an array without `null` is the size of
the array. -/
theorem border_array_entries (host_len : List (LuaValue × LuaValue) → Int)
    (elems : List Json) (hfull : ∀ x ∈ elems, x ≠ .null) (L : Int)
    (hL : is_border (array_entries host_len elems 1) L) : L = (elems.length : Int) := by
  have hpresent : ∀ (k : Nat) (_ : k < elems.length),
      lua_gettable (array_entries host_len elems 1) (1 + (k : Int)) ≠ .nil := by
    intro k hk
    rw [lua_gettable_array_entries host_len elems 1 k hk]
    intro hnil
    exact hfull _ (List.get_mem elems k hk) (json_to_lua_value_eq_nil host_len _ hnil)
  obtain ⟨hb0, hb1, hb2⟩ := hL
  by_contra hne
  rcases lt_or_gt_of_ne hne with hlt | hgt
  · apply hpresent L.toNat (by omega)
    have hidx : 1 + ((L.toNat : Nat) : Int) = L + 1 := by omega
    rw [hidx]
    exact hb2
  · rcases hb1 with h0 | hnn
    · omega
    · exact hnn (lua_gettable_array_entries_above host_len elems 1 L (by omega))

/-- C14 (as amended). The table emitted for a JSON Array of size `n`: the lookup
under key `i + 1` gives the emission of element `i` (`nil` for `null`), every
other integer key is absent, and the keys of the table are exactly the `i + 1`
with element `i` not `null`.  When no element is `null` the keys are exactly
`1..n`, in order, and the length the host reports, a border, is `n`. -/
theorem array_emission (host_len : List (LuaValue × LuaValue) → Int) (elems : List Json) :
    ∃ t : List (LuaValue × LuaValue),
      json_to_lua_value host_len (.array elems) = .table (host_len t) t ∧
      (∀ (k : Nat) (h : k < elems.length),
        lua_gettable t ((k : Int) + 1) = json_to_lua_value host_len (elems.get ⟨k, h⟩)) ∧
      (∀ i : Int, i < 1 ∨ (elems.length : Int) < i → lua_gettable t i = .nil) ∧
      (∀ key : LuaValue, key ∈ t.map Prod.fst ↔
        ∃ (k : Nat) (h : k < elems.length),
          key = LuaValue.integer ((k : Int) + 1) ∧ elems.get ⟨k, h⟩ ≠ .null) ∧
      ((∀ x ∈ elems, x ≠ .null) →
        t.map Prod.fst = (indices elems.length).map LuaValue.integer ∧
        ((∀ t1, is_border t1 (host_len t1)) → host_len t = (elems.length : Int))) := by
  refine ⟨array_entries host_len elems 1, json_to_lua_value_array host_len elems, ?_, ?_, ?_, ?_⟩
  · intro k h
    rw [add_comm]
    exact lua_gettable_array_entries host_len elems 1 k h
  · rintro i (h | h)
    · exact lua_gettable_array_entries_below host_len elems 1 i h
    · exact lua_gettable_array_entries_above host_len elems 1 i (by omega)
  · intro key
    rw [mem_keys_array_entries host_len elems 1 key]
    constructor
    · rintro ⟨k, hk, hkey, hx⟩
      exact ⟨k, hk, by rw [hkey, add_comm], hx⟩
    · rintro ⟨k, hk, hkey, hx⟩
      exact ⟨k, hk, by rw [hkey, add_comm], hx⟩
  · intro hfull
    constructor
    · rw [keys_array_entries host_len elems 1
        (fun x hx => by
          rw [← Bool.not_eq_true, is_nil_json_to_lua_value]
          exact hfull x hx),
        indices_map_integer]
      simp
    · intro hborder
      exact border_array_entries host_len elems hfull _ (hborder _)

/-- The emission of `[1, null, "x"]`: keys 1 and 3 only; and of `[true, 2]`, on a
host reporting the least border: keys 1 and 2, length 2. -/
theorem array_emission_witness :
    json_to_lua_value first_border (.array [.number_integer 1, .null, .string "x"]) =
        .table 1 [(.integer 1, .integer 1), (.integer 3, .string "x")] ∧
      (∃ t, json_to_lua_value first_border (.array [.boolean true, .number_integer 2]) =
        .table 2 t ∧ t.map Prod.fst = [.integer 1, .integer 2]) := by
  refine ⟨by rfl, ?_⟩
  obtain ⟨t, h1, _, _, _, h5⟩ :=
    array_emission first_border [.boolean true, .number_integer 2]
  obtain ⟨hkeys, hlen⟩ := h5 (by simp)
  refine ⟨t, ?_, by rw [hkeys]; rfl⟩
  rw [h1, hlen first_border_is_border]
  rfl

/-- C14 fails as stated: the Array `[null]` has size 1, and the table emitted for
it has no key at all, so its only border, the length a host reports, is 0. -/
theorem array_emission_counterexample :
    json_to_lua_value first_border (.array [.null]) = .table 0 [] ∧
      (∀ n : Int, is_border [] n → n = 0) := by
  refine ⟨by rfl, ?_⟩
  rintro n ⟨_, h1, _⟩
  rcases h1 with h | h
  · exact h
  · exact absurd rfl h

/-! ## C19: the emission of an object -/

theorem nodup_keys_of_sorted (members : List (String × Json))
    (h : List.Pairwise (fun a b => string_less a.1 b.1 = true) members) :
    (members.map Prod.fst).Nodup := by
  rw [List.Nodup, List.pairwise_map]
  refine h.imp ?_
  intro a b hab heq
  rw [heq, string_less_irrefl] at hab
  cases hab

/-- With keys that are distinct as C strings, the loop over the members of an
object adds the entries `items_entries`, in the order of the members. -/
theorem items_loop_eq_entries (host_len : List (LuaValue × LuaValue) → Int)
    (members : List (String × Json)) :
    ∀ t : List (LuaValue × LuaValue),
      (members.map (fun kv => c_str kv.1)).Nodup →
      (∀ kv ∈ members, LuaValue.string (c_str kv.1) ∉ t.map Prod.fst) →
      items_loop host_len members t = t ++ items_entries host_len members := by
  induction members with
  | nil => intro t _ _; simp [items_loop, items_entries]
  | cons kv rest ih =>
    intro t hnodup hfresh
    obtain ⟨k, x⟩ := kv
    simp only [List.map_cons, List.nodup_cons] at hnodup
    have hk : ∀ e ∈ t, same_key e.1 (.string (c_str k)) = false := by
      intro e he
      rw [← Bool.not_eq_true, same_key_string]
      intro hc
      apply hfresh (k, x) (List.mem_cons_self _ _)
      rw [← hc]
      exact List.mem_map_of_mem _ he
    rw [items_loop, lua_settable_fresh t _ _ hk, ih _ hnodup.2, items_entries, List.append_assoc]
    intro kv hkv hmem
    rw [List.map_append, List.mem_append] at hmem
    rcases hmem with h1 | h2
    · exact hfresh kv (List.mem_cons_of_mem _ hkv) h1
    · by_cases hnil : is_nil (json_to_lua_value host_len x) = true
      · simp [hnil] at h2
      · simp only [hnil, Bool.false_eq_true, if_false, List.map_cons, List.map_nil,
          List.mem_singleton, LuaValue.string.injEq] at h2
        apply hnodup.1
        rw [List.mem_map]
        exact ⟨kv, hkv, h2⟩

theorem mem_items_entries (host_len : List (LuaValue × LuaValue) → Int)
    (members : List (String × Json)) (key v : LuaValue) :
    (key, v) ∈ items_entries host_len members ↔
      ∃ k x, (k, x) ∈ members ∧ x ≠ .null ∧ key = LuaValue.string (c_str k) ∧
        v = json_to_lua_value host_len x := by
  induction members with
  | nil => simp [items_entries]
  | cons kv rest ih =>
    obtain ⟨k, x⟩ := kv
    simp only [items_entries, List.mem_append, ih, List.mem_cons, Prod.mk.injEq]
    by_cases hnil : is_nil (json_to_lua_value host_len x) = true
    · have hx := (is_nil_json_to_lua_value host_len x).1 hnil
      simp only [hnil, if_true, List.not_mem_nil, false_or]
      constructor
      · rintro ⟨k1, x1, hmem, hrest⟩
        exact ⟨k1, x1, Or.inr hmem, hrest⟩
      · rintro ⟨k1, x1, hmem | hmem, hne, hrest⟩
        · exact absurd (hmem.2.trans hx) hne
        · exact ⟨k1, x1, hmem, hne, hrest⟩
    · have hx : x ≠ .null := fun h => hnil ((is_nil_json_to_lua_value host_len x).2 h)
      simp only [hnil, Bool.false_eq_true, if_false, List.mem_singleton, Prod.mk.injEq]
      constructor
      · rintro (⟨hk, hv⟩ | ⟨k1, x1, hmem, hrest⟩)
        · exact ⟨k, x, Or.inl ⟨rfl, rfl⟩, hx, hk, hv⟩
        · exact ⟨k1, x1, Or.inr hmem, hrest⟩
      · rintro ⟨k1, x1, hmem | hmem, hne, hk, hv⟩
        · obtain ⟨rfl, rfl⟩ := hmem
          exact Or.inl ⟨hk, hv⟩
        · exact Or.inr ⟨k1, x1, hmem, hne, hk, hv⟩

theorem items_entries_keys_sublist (host_len : List (LuaValue × LuaValue) → Int)
    (members : List (String × Json)) :
    ((items_entries host_len members).map Prod.fst).Sublist
      (members.map (fun kv => LuaValue.string (c_str kv.1))) := by
  induction members with
  | nil => simp [items_entries]
  | cons kv rest ih =>
    obtain ⟨k, x⟩ := kv
    by_cases hnil : is_nil (json_to_lua_value host_len x) = true
    · simp only [items_entries, hnil, if_true, List.nil_append, List.map_cons]
      exact ih.cons _
    · simp only [items_entries, hnil, Bool.false_eq_true, if_false, List.singleton_append,
        List.map_cons]
      exact ih.cons₂ _

/-- C19 (as amended). For a JSON Object whose keys hold no NUL byte, the entries
of the emitted table are exactly: for each member whose value is not `null`, the
key of the member, as a String, with the emission of its value.  A member whose
value is `null` leaves no entry, the keys of the table are distinct Strings, and
the length a host reports for it, a border, is 0. -/
theorem object_emission (host_len : List (LuaValue × LuaValue) → Int)
    (members : List (String × Json))
    (hsorted : List.Pairwise (fun a b => string_less a.1 b.1 = true) members)
    (hnul : ∀ kv ∈ members, c_str kv.1 = kv.1) :
    ∃ t : List (LuaValue × LuaValue),
      json_to_lua_value host_len (.object members) = .table (host_len t) t ∧
      (∀ key v : LuaValue, (key, v) ∈ t ↔
        ∃ k x, (k, x) ∈ members ∧ x ≠ .null ∧ key = LuaValue.string k ∧
          v = json_to_lua_value host_len x) ∧
      (∀ k : String, (k, Json.null) ∈ members → LuaValue.string k ∉ t.map Prod.fst) ∧
      (t.map Prod.fst).Nodup ∧
      ((∀ t1, is_border t1 (host_len t1)) → host_len t = 0) := by
  have hkeys : members.map (fun kv => c_str kv.1) = members.map Prod.fst :=
    List.map_congr_left (fun kv hkv => hnul kv hkv)
  have hnodup : (members.map Prod.fst).Nodup := nodup_keys_of_sorted members hsorted
  have hloop := items_loop_eq_entries host_len members [] (by rw [hkeys]; exact hnodup)
    (fun _ _ => by simp)
  simp only [List.nil_append] at hloop
  have hmem : ∀ key v : LuaValue, (key, v) ∈ items_entries host_len members ↔
      ∃ k x, (k, x) ∈ members ∧ x ≠ .null ∧ key = LuaValue.string k ∧
        v = json_to_lua_value host_len x := by
    intro key v
    rw [mem_items_entries]
    constructor
    · rintro ⟨k, x, hkx, hne, hk, hv⟩
      exact ⟨k, x, hkx, hne, by rw [hk, hnul (k, x) hkx], hv⟩
    · rintro ⟨k, x, hkx, hne, hk, hv⟩
      exact ⟨k, x, hkx, hne, by rw [hk, hnul (k, x) hkx], hv⟩
  have huniq : ∀ (k : String) (x y : Json), (k, x) ∈ members → (k, y) ∈ members → x = y := by
    intro k x y hx hy
    have := List.inj_on_of_nodup_map hnodup hx hy rfl
    exact (Prod.mk.inj this).2
  have hsub := items_entries_keys_sublist host_len members
  have hstring : ∀ key ∈ (items_entries host_len members).map Prod.fst,
      ∃ s, key = LuaValue.string s := by
    intro key hkey
    obtain ⟨kv, _, hkv⟩ := List.mem_map.1 (hsub.subset hkey)
    exact ⟨_, hkv.symm⟩
  refine ⟨items_entries host_len members, by simp only [json_to_lua_value, hloop], hmem, ?_, ?_, ?_⟩
  · intro k hk hc
    obtain ⟨e, he, hek⟩ := List.mem_map.1 hc
    obtain ⟨key, v⟩ := e
    simp only at hek
    subst hek
    obtain ⟨k1, x, hkx, hne, hkey, _⟩ := (hmem _ v).1 he
    have hk1 : k = k1 := LuaValue.string.inj hkey
    subst hk1
    exact hne (huniq k x .null hkx hk)
  · refine hsub.nodup ?_
    have h2 : members.map (fun kv => LuaValue.string (c_str kv.1)) =
        (members.map Prod.fst).map LuaValue.string := by
      rw [List.map_map]
      exact List.map_congr_left (fun kv hkv => by simp [hnul kv hkv])
    rw [h2]
    exact List.Nodup.map (fun a b h => LuaValue.string.inj h) hnodup
  · intro hborder
    obtain ⟨_, hb1, _⟩ := hborder (items_entries host_len members)
    rcases hb1 with h0 | hnn
    · exact h0
    · exfalso
      apply hnn
      apply lua_gettable_of_not_mem
      intro hc
      obtain ⟨s, hs⟩ := hstring _ hc
      cases hs

/-- The emission of `{"a": 1, "b": null, "c": [null]}`: the member `b` leaves no
entry. -/
theorem object_emission_witness :
    ∃ t, json_to_lua_value first_border
        (.object [("a", .number_integer 1), ("b", .null), ("c", .array [.null])]) =
        .table (first_border t) t ∧
      LuaValue.string "b" ∉ t.map Prod.fst ∧
      (LuaValue.string "a", LuaValue.integer 1) ∈ t := by
  obtain ⟨t, h1, h2, h3, _, _⟩ :=
    object_emission first_border [("a", .number_integer 1), ("b", .null), ("c", .array [.null])]
      (by
        simp only [List.pairwise_cons, List.mem_cons, List.mem_singleton, List.not_mem_nil,
          forall_eq_or_imp, forall_eq, false_implies, implies_true, List.Pairwise.nil, and_true]
        exact ⟨⟨by rfl, by rfl⟩, by rfl⟩)
      (by
        intro kv hkv
        simp only [List.mem_cons, List.mem_singleton, List.not_mem_nil, or_false] at hkv
        rcases hkv with rfl | rfl | rfl <;> decide)
  exact ⟨t, h1, h3 "b" (by simp),
    (h2 _ _).2 ⟨"a", .number_integer 1, by simp, by simp, rfl, rfl⟩⟩

/-- C19 fails as stated: in the Object `{"a\0b": 1, "a\0c": null}` both keys are
written as the C string `a`; the `null` of the second member removes the entry
of the first, and the table emitted is empty although the first member is not
`null`. -/
theorem object_emission_counterexample :
    string_less "a\x00b" "a\x00c" = true ∧
      json_to_lua_value first_border
        (.object [("a\x00b", .number_integer 1), ("a\x00c", .null)]) = .table 0 [] := by
  exact ⟨by rfl, by rfl⟩

/-! ## C16: the emitter is total on the closed set -/

mutual
theorem json_to_lua_value_any_closed (host_len : List (LuaValue × LuaValue) → Int) :
    ∀ j : Json, json_to_lua_value_any host_len (to_any j) = .ok (json_to_lua_value host_len j)
  | .null => rfl
  | .boolean _ => rfl
  | .number_integer _ => rfl
  | .number_unsigned _ => rfl
  | .number_float _ => rfl
  | .string _ => rfl
  | .array elems => by
    simp only [to_any, json_to_lua_value_any, json_to_lua_value,
      array_loop_any_closed host_len elems 1 []]
  | .object members => by
    simp only [to_any, json_to_lua_value_any, json_to_lua_value,
      items_loop_any_closed host_len members []]
theorem array_loop_any_closed (host_len : List (LuaValue × LuaValue) → Int) :
    ∀ (elems : List Json) (key : Int) (t : List (LuaValue × LuaValue)),
      array_loop_any host_len (elems_to_any elems) key t = .ok (array_loop host_len elems key t)
  | [], _, _ => rfl
  | x :: rest, key, t => by
    simp only [elems_to_any, array_loop_any, array_loop, json_to_lua_value_any_closed host_len x,
      array_loop_any_closed host_len rest]
theorem items_loop_any_closed (host_len : List (LuaValue × LuaValue) → Int) :
    ∀ (members : List (String × Json)) (t : List (LuaValue × LuaValue)),
      items_loop_any host_len (members_to_any members) t = .ok (items_loop host_len members t)
  | [], _ => rfl
  | (k, x) :: rest, t => by
    simp only [members_to_any, items_loop_any, items_loop, json_to_lua_value_any_closed host_len x,
      items_loop_any_closed host_len rest]
end

/-- C16. On every JSON value of the closed set (Null, Bool, Int64, UInt64,
Float64, String, Array, Object, at any nesting depth) the emitter returns a host
value, the one `json_to_lua_value` computes, and never throws: the `default`
branch, which throws for the `binary` and `discarded` alternatives of the
enumeration, is not reached from a value of the closed set. -/
theorem emitter_total (host_len : List (LuaValue × LuaValue) → Int) (j : Json) :
    json_to_lua_value_any host_len (to_any j) = .ok (json_to_lua_value host_len j) ∧
    (∀ msg, json_to_lua_value_any host_len (to_any j) ≠ .error msg) ∧
    (∀ bytes, json_to_lua_value_any host_len (.binary bytes) =
      .error "Unsupported JSON type for Lua conversion") ∧
    json_to_lua_value_any host_len .discarded =
      .error "Unsupported JSON type for Lua conversion" := by
  have h := json_to_lua_value_any_closed host_len j
  refine ⟨h, fun msg hc => ?_, fun _ => rfl, rfl⟩
  rw [h] at hc
  cases hc

/-- The emitter on `{"k": [1, {"n": null}]}`, and on the same value with a
`binary` element in place of the inner object, where it throws. -/
theorem emitter_total_witness :
    json_to_lua_value_any first_border (to_any
        (.object [("k", .array [.number_integer 1, .object [("n", .null)]])])) =
        .ok (.table 0 [(.string "k", .table 2 [(.integer 1, .integer 1),
          (.integer 2, .table 0 [])])]) ∧
      json_to_lua_value_any first_border
        (.object [("k", .array [.number_integer 1, .binary [0]])]) =
        .error "Unsupported JSON type for Lua conversion" :=
  ⟨((emitter_total first_border
      (.object [("k", .array [.number_integer 1, .object [("n", .null)]])])).1).trans (by rfl),
    by rfl⟩

/-! ## Reordered tables -/

mutual
theorem same_up_to_order_refl : ∀ v : LuaValue, SameUpToOrder v v
  | .nil => SameUpToOrder.nil
  | .boolean b => SameUpToOrder.boolean b
  | .integer n => SameUpToOrder.integer n
  | .number x => SameUpToOrder.number x
  | .string s => SameUpToOrder.string s
  | .other t => SameUpToOrder.other t
  | .table len entries =>
    SameUpToOrder.table len entries entries entries (List.Perm.refl _) (same_entries_refl entries)
theorem same_entries_refl : ∀ entries : List (LuaValue × LuaValue), SameEntries entries entries
  | [] => SameEntries.nil
  | (k, v) :: rest =>
    SameEntries.cons k v v rest rest (same_up_to_order_refl v) (same_entries_refl rest)
end

theorem same_entries_forall₂ :
    ∀ (a b : List (LuaValue × LuaValue)), SameEntries a b →
      List.Forall₂ (fun (e1 e2 : LuaValue × LuaValue) =>
        e1.1 = e2.1 ∧ SameUpToOrder e1.2 e2.2) a b
  | [], _, h => by
    cases h
    exact List.Forall₂.nil
  | (k, v) :: rest, _, h => by
    cases h with
    | cons _ _ v2 _ rest2 hv hrest =>
      exact List.Forall₂.cons ⟨rfl, hv⟩ (same_entries_forall₂ rest rest2 hrest)

theorem same_table_inv (v : LuaValue) (len : Int) (entries : List (LuaValue × LuaValue))
    (h : SameUpToOrder v (.table len entries)) :
    ∃ (entries1 reordered : List (LuaValue × LuaValue)),
      v = .table len entries1 ∧ reordered.Perm entries ∧ SameEntries entries1 reordered := by
  cases h with
  | table _ entries1 _ reordered hperm hsame => exact ⟨entries1, reordered, rfl, hperm, hsame⟩

theorem same_ne_nil (v w : LuaValue) (h : SameUpToOrder v w) (hw : w ≠ .nil) : v ≠ .nil := by
  intro hv
  subst hv
  cases h
  exact hw rfl

theorem forall₂_exists_right {α β : Type} (R : α → β → Prop) (a : List α) (b : List β)
    (h : List.Forall₂ R a b) : ∀ x ∈ a, ∃ y ∈ b, R x y := by
  induction h with
  | nil => intro x hx; simp at hx
  | cons hab _ ih =>
    intro x hx
    rcases List.mem_cons.1 hx with rfl | hx
    · exact ⟨_, List.mem_cons_self _ _, hab⟩
    · obtain ⟨y, hy, hxy⟩ := ih x hx
      exact ⟨y, List.mem_cons_of_mem _ hy, hxy⟩

theorem forall₂_map_eq {α β γ : Type} (f : α → γ) (g : β → γ) (a : List α) (b : List β)
    (h : List.Forall₂ (fun x y => f x = g y) a b) : a.map f = b.map g := by
  induction h with
  | nil => rfl
  | cons hab _ ih => simp [hab, ih]

theorem forall₂_unique {α β : Type} (R : α → β → Prop) (l : List α) (a b : List β)
    (huniq : ∀ x y z, R x y → R x z → y = z)
    (ha : List.Forall₂ R l a) : List.Forall₂ R l b → a = b := by
  induction ha generalizing b with
  | nil =>
    intro hb
    cases hb
    rfl
  | cons hxy _ ih =>
    intro hb
    cases hb with
    | cons hxz hrest => rw [huniq _ _ _ hxy hxz, ih _ hrest]

/-! ## The way back of an array -/

/-- A table emitted for a non-empty Array without `null`, in whatever order the
host lists its entries, converts back to the Array, when each emitted element
converts back to its element. -/
theorem array_survives (fmt : LuaNumber → String)
    (host_len : List (LuaValue × LuaValue) → Int)
    (hborder : ∀ t, is_border t (host_len t))
    (elems : List Json) (hne : elems ≠ [])
    (hfull : ∀ x ∈ elems, x ≠ .null)
    (hback : ∀ x ∈ elems, ∀ v, SameUpToOrder v (json_to_lua_value host_len x) →
      lua_value_to_json fmt v = .ok x)
    (v : LuaValue) (hv : SameUpToOrder v (json_to_lua_value host_len (.array elems))) :
    lua_value_to_json fmt v = .ok (.array elems) := by
  rw [json_to_lua_value_array,
    border_array_entries host_len elems hfull _ (hborder _)] at hv
  obtain ⟨entries1, reordered, rfl, hperm, hsame⟩ := same_table_inv v _ _ hv
  have hF := same_entries_forall₂ entries1 reordered hsame
  have hnonnil : ∀ x ∈ elems, is_nil (json_to_lua_value host_len x) = false := by
    intro x hx
    rw [← Bool.not_eq_true, is_nil_json_to_lua_value]
    exact hfull x hx
  have hkeys1 : entries1.map Prod.fst = reordered.map Prod.fst :=
    forall₂_map_eq Prod.fst Prod.fst entries1 reordered (hF.imp (fun _ _ h => h.1))
  have hkeyst : (array_entries host_len elems 1).map Prod.fst =
      (indices elems.length).map LuaValue.integer := by
    rw [keys_array_entries host_len elems 1 hnonnil, indices_map_integer]
    simp
  have hnodupt : ((array_entries host_len elems 1).map Prod.fst).Nodup := by
    rw [hkeyst]
    exact nodup_indices_keys _
  -- the value under each key `k + 1` is a reordering of the emission of element `k`
  have hvalue : ∀ (k : Nat) (hk : k < elems.length),
      SameUpToOrder (lua_gettable entries1 ((k : Int) + 1))
        (json_to_lua_value host_len (elems.get ⟨k, hk⟩)) := by
    intro k hk
    have hin : LuaValue.integer ((k : Int) + 1) ∈ entries1.map Prod.fst := by
      rw [hkeys1, (hperm.map Prod.fst).mem_iff, hkeyst]
      exact List.mem_map_of_mem _ ((mem_indices _ _).2 ⟨by omega, by omega⟩)
    obtain ⟨e2, he2, hk2, hs2⟩ := forall₂_exists_right _ entries1 reordered hF _
      (lua_gettable_mem entries1 _ hin)
    have he2t : (LuaValue.integer ((k : Int) + 1), e2.2) ∈ array_entries host_len elems 1 := by
      have := hperm.mem_iff.1 he2
      have h3 : e2 = (LuaValue.integer ((k : Int) + 1), e2.2) := by
        rw [show LuaValue.integer ((k : Int) + 1) = e2.1 from hk2]
      rw [← h3]
      exact this
    have hget := lua_gettable_of_mem _ _ _ hnodupt he2t
    have hemit := lua_gettable_array_entries host_len elems 1 k hk
    rw [add_comm] at hemit
    rw [hemit] at hget
    rw [hget]
    exact hs2
  have hlen0 : 0 < elems.length := List.length_pos.2 hne
  have hverify : verify_array (elems.length : Int) entries1 = true := by
    rw [verify_array_iff]
    refine ⟨by omega, fun i h1 h2 => ?_⟩
    have hk : (i - 1).toNat < elems.length := by omega
    have hi : (((i - 1).toNat : Nat) : Int) + 1 = i := by omega
    have := hvalue (i - 1).toNat hk
    rw [hi] at this
    refine same_ne_nil _ _ this ?_
    rw [← is_nil_eq_false_iff]
    exact hnonnil _ (List.get_mem elems _ hk)
  have hpush : push_back_all (fun i => lua_value_to_json fmt (lua_gettable entries1 i))
      (indices (elems.length : Int)) = .ok elems := by
    rw [push_back_all_ok_iff, List.forall₂_iff_get]
    refine ⟨by rw [length_indices]; simp, fun k h1 h2 => ?_⟩
    rw [get_indices]
    exact hback _ (List.get_mem elems k h2) _ (hvalue k h2)
  exact lua_value_to_json_array_path fmt _ entries1 elems hverify hpush

/-! ## The way back of an object -/

/-- A table emitted for an Object with sorted keys without NUL and no `null`
value, in whatever order the host lists its entries, converts back to the
Object, when each emitted member value converts back to its value. -/
theorem object_survives (fmt : LuaNumber → String)
    (host_len : List (LuaValue × LuaValue) → Int)
    (hborder : ∀ t, is_border t (host_len t))
    (members : List (String × Json))
    (hsorted : List.Pairwise (fun a b => string_less a.1 b.1 = true) members)
    (hnul : ∀ kv ∈ members, c_str kv.1 = kv.1)
    (hfull : ∀ kv ∈ members, kv.2 ≠ .null)
    (hback : ∀ kv ∈ members, ∀ v, SameUpToOrder v (json_to_lua_value host_len kv.2) →
      lua_value_to_json fmt v = .ok kv.2)
    (v : LuaValue) (hv : SameUpToOrder v (json_to_lua_value host_len (.object members))) :
    lua_value_to_json fmt v = .ok (.object members) := by
  have hnodup : (members.map Prod.fst).Nodup := nodup_keys_of_sorted members hsorted
  have hckeys : members.map (fun kv => c_str kv.1) = members.map Prod.fst :=
    List.map_congr_left (fun kv hkv => hnul kv hkv)
  have hitems := items_loop_eq host_len members []
    (fun kv hkv => by
      rw [← Bool.not_eq_true, is_nil_json_to_lua_value]
      exact hfull kv hkv)
    (by rw [hckeys]; exact hnodup) (fun _ _ => by simp)
  simp only [List.nil_append] at hitems
  have hL : host_len (members.map (fun kv =>
      (LuaValue.string (c_str kv.1), json_to_lua_value host_len kv.2))) = 0 := by
    obtain ⟨_, hb1, _⟩ := hborder (members.map (fun kv =>
      (LuaValue.string (c_str kv.1), json_to_lua_value host_len kv.2)))
    rcases hb1 with h0 | hnn
    · exact h0
    · exfalso
      apply hnn
      apply lua_gettable_of_not_mem
      simp
  simp only [json_to_lua_value, hitems, hL] at hv
  obtain ⟨entries1, reordered, rfl, hperm, hsame⟩ := same_table_inv v _ _ hv
  have hF := same_entries_forall₂ entries1 reordered hsame
  -- the members in the order of `reordered`
  have h1 : List.Forall₂ (fun (kv : String × Json) (e : LuaValue × LuaValue) =>
      e = (LuaValue.string (c_str kv.1), json_to_lua_value host_len kv.2)) members
      (members.map (fun kv =>
        (LuaValue.string (c_str kv.1), json_to_lua_value host_len kv.2))) := by
    rw [List.forall₂_map_right_iff, List.forall₂_same]
    intro _ _
    rfl
  have hcomp : Relation.Comp
      (List.Forall₂ (fun (kv : String × Json) (e : LuaValue × LuaValue) =>
        e = (LuaValue.string (c_str kv.1), json_to_lua_value host_len kv.2))) List.Perm
      members reordered := ⟨_, h1, hperm.symm⟩
  rw [List.forall₂_comp_perm_eq_perm_comp_forall₂] at hcomp
  obtain ⟨members1, hperm1, hG⟩ := hcomp
  -- position by position, each entry converts to the member at its position
  have hR : List.Forall₂ (fun (e : LuaValue × LuaValue) (kv : String × Json) =>
      table_key fmt e.1 = .ok kv.1 ∧ lua_value_to_json fmt e.2 = .ok kv.2)
      entries1 members1 := by
    rw [List.forall₂_iff_get] at hF hG ⊢
    refine ⟨by omega, fun k hk1 hk2 => ?_⟩
    have hkr : k < reordered.length := by omega
    obtain ⟨hkey, hval⟩ := hF.2 k hk1 hkr
    have he := hG.2 k hk2 hkr
    have hin : members1.get ⟨k, hk2⟩ ∈ members := hperm1.mem_iff.2 (List.get_mem members1 k hk2)
    rw [he] at hkey hval
    simp only at hkey hval
    constructor
    · rw [hkey]
      simp only [table_key, c_str_idem, hnul _ hin]
    · exact hback _ hin _ hval
  have hconv : ∀ e ∈ entries1, ∃ key j, table_key fmt e.1 = .ok key ∧
      lua_value_to_json fmt e.2 = .ok j := by
    intro e he
    obtain ⟨kv, _, hk, hj⟩ := forall₂_exists_right _ entries1 members1 hR e he
    exact ⟨kv.1, kv.2, hk, hj⟩
  have hnodup1 : (entries1.map (fun e => table_key fmt e.1)).Nodup := by
    have hmap := forall₂_map_eq (fun (e : LuaValue × LuaValue) => table_key fmt e.1)
      (fun (kv : String × Json) => (Except.ok kv.1 : Except String String)) entries1 members1
      (hR.imp (fun _ _ h => h.1))
    rw [hmap]
    have h2 : members1.map (fun kv => (Except.ok kv.1 : Except String String)) =
        (members1.map Prod.fst).map Except.ok := by simp
    rw [h2]
    refine List.Nodup.map (fun a b h => Except.ok.inj h) ?_
    exact ((hperm1.map Prod.fst).nodup_iff).1 hnodup
  obtain ⟨m, added, hm, hadded, hpm⟩ := object_loop_perm fmt entries1 [] hconv hnodup1
    (fun _ _ _ _ => by simp)
  simp only [List.nil_append] at hpm
  have hadd : added = members1 := by
    refine forall₂_unique _ entries1 added members1 ?_ hadded hR
    rintro x ⟨y1, y2⟩ ⟨z1, z2⟩ ⟨hy1, hy2⟩ ⟨hz1, hz2⟩
    simp only at hy1 hy2 hz1 hz2
    rw [hy1] at hz1
    rw [hy2] at hz2
    rw [Except.ok.inj hz1, Except.ok.inj hz2]
  rw [hadd] at hpm
  have hmsorted := object_loop_sorted fmt entries1 [] m hm List.Pairwise.nil
  have heq : m = members := by
    haveI : IsAntisymm (String × Json) (fun a b => string_less a.1 b.1 = true) :=
      ⟨fun a b hab hba => by
        have := string_less_trans _ _ _ hab hba
        rw [string_less_irrefl] at this
        cases this⟩
    exact List.eq_of_perm_of_sorted (hpm.trans hperm1.symm) hmsorted hsorted
  have hverify : verify_array 0 entries1 = false :=
    (verify_array_eq_false_iff 0 entries1).2 (Or.inl (le_refl _))
  rw [lua_value_to_json_object_path fmt 0 entries1 hverify, hm, heq]

/-! ## C17: the way back of a JSON value -/

mutual
theorem survives_value (fmt : LuaNumber → String)
    (host_len : List (LuaValue × LuaValue) → Int)
    (hborder : ∀ t, is_border t (host_len t)) :
    ∀ j : Json, host_clean j → sorted_objects j →
      ∀ v, SameUpToOrder v (json_to_lua_value host_len j) → lua_value_to_json fmt v = .ok j
  | .null, _, _, v, hv => by
    simp only [json_to_lua_value] at hv
    cases hv
    rfl
  | .boolean b, _, _, v, hv => by
    simp only [json_to_lua_value] at hv
    cases hv
    rfl
  | .number_integer n, _, _, v, hv => by
    simp only [json_to_lua_value] at hv
    cases hv
    rfl
  | .number_unsigned u, hc, _, _, _ => by
    simp [host_clean] at hc
  | .number_float x, _, _, v, hv => by
    simp only [json_to_lua_value] at hv
    cases hv
    rfl
  | .string s, hc, _, v, hv => by
    have hs : c_str s = s := hc
    simp only [json_to_lua_value, hs] at hv
    cases hv
    simp only [lua_value_to_json, hs]
  | .array elems, hc, hs, v, hv => by
    simp only [host_clean] at hc
    simp only [sorted_objects] at hs
    have ih := survives_elems fmt host_len hborder elems hc.2 hs
    exact array_survives fmt host_len hborder elems hc.1 (fun x hx => (ih x hx).1)
      (fun x hx => (ih x hx).2) v hv
  | .object members, hc, hs, v, hv => by
    simp only [host_clean] at hc
    simp only [sorted_objects] at hs
    have ih := survives_members fmt host_len hborder members hc hs.2
    exact object_survives fmt host_len hborder members hs.1 (fun kv hkv => (ih kv hkv).1)
      (fun kv hkv => (ih kv hkv).2.1) (fun kv hkv => (ih kv hkv).2.2) v hv
theorem survives_elems (fmt : LuaNumber → String)
    (host_len : List (LuaValue × LuaValue) → Int)
    (hborder : ∀ t, is_border t (host_len t)) :
    ∀ elems : List Json, host_clean_elems elems → sorted_objects_elems elems →
      ∀ x ∈ elems, x ≠ .null ∧
        ∀ v, SameUpToOrder v (json_to_lua_value host_len x) → lua_value_to_json fmt v = .ok x
  | [], _, _ => by simp
  | x :: rest, hc, hs => by
    simp only [host_clean_elems] at hc
    simp only [sorted_objects_elems] at hs
    intro y hy
    rcases List.mem_cons.1 hy with rfl | hy
    · exact ⟨hc.1, survives_value fmt host_len hborder y hc.2.1 hs.1⟩
    · exact survives_elems fmt host_len hborder rest hc.2.2 hs.2 y hy
theorem survives_members (fmt : LuaNumber → String)
    (host_len : List (LuaValue × LuaValue) → Int)
    (hborder : ∀ t, is_border t (host_len t)) :
    ∀ members : List (String × Json), host_clean_members members →
      sorted_objects_members members →
      ∀ kv ∈ members, c_str kv.1 = kv.1 ∧ kv.2 ≠ .null ∧
        ∀ v, SameUpToOrder v (json_to_lua_value host_len kv.2) →
          lua_value_to_json fmt v = .ok kv.2
  | [], _, _ => by simp
  | (k, x) :: rest, hc, hs => by
    simp only [host_clean_members] at hc
    simp only [sorted_objects_members] at hs
    intro kv hkv
    rcases List.mem_cons.1 hkv with rfl | hkv
    · exact ⟨hc.1, hc.2.1, survives_value fmt host_len hborder x hc.2.2.1 hs.1⟩
    · exact survives_members fmt host_len hborder rest hc.2.2.2 hs.2 kv hkv
end

/-- C17. On a host that reports a border as the length of a table: a JSON value
with no `null` inside an Array or an Object, no empty Array, no unsigned integer
and no String or key with a NUL byte (its Objects being those of the object map,
sorted by key) is emitted as a host value that converts back to the same JSON
value, and so does that host value with the entries of its tables, at any depth,
listed in any other order. -/
theorem json_round_trip (fmt : LuaNumber → String)
    (host_len : List (LuaValue × LuaValue) → Int)
    (hborder : ∀ t, is_border t (host_len t))
    (j : Json) (hclean : host_clean j) (hsorted : sorted_objects j) :
    lua_value_to_json fmt (json_to_lua_value host_len j) = .ok j ∧
    (∀ v, SameUpToOrder v (json_to_lua_value host_len j) → lua_value_to_json fmt v = .ok j) :=
  ⟨survives_value fmt host_len hborder j hclean hsorted _ (same_up_to_order_refl _),
    survives_value fmt host_len hborder j hclean hsorted⟩

/-- The way back of `{"a": [1, {"b": "x"}], "k": 1.5}`: from the table as it is
emitted, and from the same table with its entries, and those of the inner
sequence, listed in the opposite order. -/
theorem json_round_trip_witness :
    lua_value_to_json to_string_sample (json_to_lua_value first_border
        (.object [("a", .array [.number_integer 1, .object [("b", .string "x")]]),
          ("k", .number_float ⟨0x3FF8000000000000⟩)])) =
        .ok (.object [("a", .array [.number_integer 1, .object [("b", .string "x")]]),
          ("k", .number_float ⟨0x3FF8000000000000⟩)]) ∧
      lua_value_to_json to_string_sample
        (.table 0 [(.string "k", .number ⟨0x3FF8000000000000⟩),
          (.string "a", .table 2 [(.integer 2, .table 0 [(.string "b", .string "x")]),
            (.integer 1, .integer 1)])]) =
        .ok (.object [("a", .array [.number_integer 1, .object [("b", .string "x")]]),
          ("k", .number_float ⟨0x3FF8000000000000⟩)]) := by
  have hx : c_str "x" = "x" := by decide
  have ha : c_str "a" = "a" := by decide
  have hb : c_str "b" = "b" := by decide
  have hk : c_str "k" = "k" := by decide
  have hak : string_less "a" "k" = true := by rfl
  obtain ⟨h1, h2⟩ := json_round_trip to_string_sample first_border first_border_is_border
    (.object [("a", .array [.number_integer 1, .object [("b", .string "x")]]),
      ("k", .number_float ⟨0x3FF8000000000000⟩)])
    (by simp [host_clean, host_clean_members, host_clean_elems, hx, ha, hb, hk])
    (by simp [sorted_objects, sorted_objects_members, sorted_objects_elems, hak])
  refine ⟨h1, h2 _ ?_⟩
  show SameUpToOrder _
    (.table 0 [(.string "a", .table 2 [(.integer 1, .integer 1),
      (.integer 2, .table 0 [(.string "b", .string "x")])]),
      (.string "k", .number ⟨0x3FF8000000000000⟩)])
  refine SameUpToOrder.table 0 _ _ _ (List.Perm.swap _ _ []) ?_
  refine SameEntries.cons _ _ _ _ _ (same_up_to_order_refl _) ?_
  refine SameEntries.cons _ _ _ _ _ ?_ SameEntries.nil
  exact SameUpToOrder.table 2 _ _ _ (List.Perm.swap _ _ []) (same_entries_refl _)

/-! ## C1: the array decision -/

theorem int_len_of_small (reported : Int) (h : -(2 ^ 31) ≤ reported ∧ reported < 2 ^ 31) :
    int_len reported = reported := by
  unfold int_len
  have hmod : (reported + 2 ^ 31) % 2 ^ 32 = reported + 2 ^ 31 :=
    Int.emod_eq_of_lt (by omega) (by omega)
  rw [hmod]
  omega

/-- C1 (as amended). Let `L` be the length the code holds in `int len`: the
reported length narrowed to 32 bits, which is the reported length itself when it
is below `2^31`.  The conversion of a table yields an Array only if `L > 0` and
every key `1..L` holds a non-nil value.  When that holds the result is never an
Object: it is the Array `js` exactly when `js` has `L` elements and element `i`
is the conversion of `t[i]`; such an Array is the result whenever every `t[i]`
converts, as every supported value does; the conversion fails when some `t[i]`
does not convert; and the result only depends on `L` and on the values under the
keys `1..L`, no other key of the table contributes. -/
theorem array_decision (fmt : LuaNumber → String) (reported : Int)
    (entries : List (LuaValue × LuaValue)) :
    ((-(2 ^ 31) ≤ reported ∧ reported < 2 ^ 31) → int_len reported = reported) ∧
    (∀ js : List Json,
      lua_value_to_json fmt (.table (int_len reported) entries) = .ok (.array js) →
      0 < int_len reported ∧
        ∀ i, 1 ≤ i → i ≤ int_len reported → lua_gettable entries i ≠ .nil) ∧
    ((0 < int_len reported ∧
        ∀ i, 1 ≤ i → i ≤ int_len reported → lua_gettable entries i ≠ .nil) →
      (∀ js : List Json,
        lua_value_to_json fmt (.table (int_len reported) entries) = .ok (.array js) ↔
          ((js.length : Int) = int_len reported ∧
            ∀ (k : Nat) (h : k < js.length),
              lua_value_to_json fmt (lua_gettable entries ((k : Int) + 1)) =
                .ok (js.get ⟨k, h⟩))) ∧
      ((∀ i, 1 ≤ i → i ≤ int_len reported →
          ∃ j, lua_value_to_json fmt (lua_gettable entries i) = .ok j) →
        ∃ js, lua_value_to_json fmt (.table (int_len reported) entries) = .ok (.array js)) ∧
      ((∀ i, 1 ≤ i → i ≤ int_len reported → supported (lua_gettable entries i) = true) →
        ∃ js, lua_value_to_json fmt (.table (int_len reported) entries) = .ok (.array js)) ∧
      ((∃ i, 1 ≤ i ∧ i ≤ int_len reported ∧
          ∃ e, lua_value_to_json fmt (lua_gettable entries i) = .error e) →
        ∃ e, lua_value_to_json fmt (.table (int_len reported) entries) = .error e) ∧
      (∀ members,
        lua_value_to_json fmt (.table (int_len reported) entries) ≠ .ok (.object members)) ∧
      (∀ others : List (LuaValue × LuaValue),
        (∀ i, 1 ≤ i → i ≤ int_len reported →
          lua_gettable others i = lua_gettable entries i) →
        lua_value_to_json fmt (.table (int_len reported) others) =
          lua_value_to_json fmt (.table (int_len reported) entries))) := by
  refine ⟨int_len_of_small reported, ?_⟩
  generalize int_len reported = L
  refine ⟨fun js h => ?_, fun hc => ?_⟩
  · rw [lua_value_to_json_table] at h
    by_cases hv : verify_array L entries = true
    · exact (verify_array_iff L entries).1 hv
    · rw [if_neg hv] at h
      cases ho : object_loop fmt entries [] with
      | error e => simp [ho] at h
      | ok m => simp [ho] at h
  · have hv : verify_array L entries = true := (verify_array_iff L entries).2 hc
    have hexists : (∀ i, 1 ≤ i → i ≤ L →
        ∃ j, lua_value_to_json fmt (lua_gettable entries i) = .ok j) →
        ∃ js, lua_value_to_json fmt (.table L entries) = .ok (.array js) := by
      intro hconv
      obtain ⟨js, hp⟩ := push_back_all_exists
        (fun i => lua_value_to_json fmt (lua_gettable entries i)) (indices L)
        (fun i hi => hconv i ((mem_indices L i).1 hi).1 ((mem_indices L i).1 hi).2)
      exact ⟨js, lua_value_to_json_array_path fmt L entries js hv hp⟩
    refine ⟨fun js => ?_, hexists, fun hsup => ?_, ?_, fun members => ?_, fun others hsame => ?_⟩
    · rw [lua_value_to_json_table, if_pos hv]
      constructor
      · intro h
        cases hp : push_back_all (fun i => lua_value_to_json fmt (lua_gettable entries i))
            (indices L) with
        | error e => simp [hp] at h
        | ok js1 =>
          simp only [hp, Except.ok.injEq, Json.array.injEq] at h
          subst h
          obtain ⟨hlen, hget⟩ := push_back_all_get _ L js1 hp
          exact ⟨by omega, hget⟩
      · rintro ⟨hlen, hget⟩
        have hp : push_back_all (fun i => lua_value_to_json fmt (lua_gettable entries i))
            (indices L) = .ok js := by
          rw [push_back_all_ok_iff, List.forall₂_iff_get]
          refine ⟨by rw [length_indices]; omega, fun k h1 h2 => ?_⟩
          rw [get_indices]
          exact hget k h2
        rw [hp]
    · exact hexists (fun i h1 h2 => lua_value_to_json_of_supported fmt _ (hsup i h1 h2))
    · rintro ⟨i, h1, h2, e, he⟩
      obtain ⟨msg, hmsg⟩ := push_back_all_error_of_mem
        (fun i => lua_value_to_json fmt (lua_gettable entries i)) (indices L)
        ⟨i, (mem_indices L i).2 ⟨h1, h2⟩, e, he⟩
      exact ⟨msg, by rw [lua_value_to_json_table, if_pos hv, hmsg]⟩
    · rw [lua_value_to_json_table, if_pos hv]
      cases hp : push_back_all (fun i => lua_value_to_json fmt (lua_gettable entries i))
          (indices L) with
      | error e => simp
      | ok js1 => simp
    · have hc2 : 0 < L ∧ ∀ i, 1 ≤ i → i ≤ L → lua_gettable others i ≠ .nil :=
        ⟨hc.1, fun i h1 h2 => by rw [hsame i h1 h2]; exact hc.2 i h1 h2⟩
      rw [lua_value_to_json_table, lua_value_to_json_table, if_pos hv,
        if_pos ((verify_array_iff L others).2 hc2)]
      have hcongr := push_back_all_congr
        (fun i => lua_value_to_json fmt (lua_gettable others i))
        (fun i => lua_value_to_json fmt (lua_gettable entries i)) (indices L)
        (fun i hi => by
          have := (mem_indices L i).1 hi
          simp only [hsame i this.1 this.2])
      rw [hcongr]

/-- The array decision at the table `{[2] = "b", [1] = true, x = print}` with
reported length 2: the result is the Array `[true, "b"]`, and the function under
`x` plays no part. -/
theorem array_decision_witness :
    lua_value_to_json to_string_sample
        (.table 2 [(.integer 2, .string "b"), (.integer 1, .boolean true),
          (.string "x", .other .function)]) =
      .ok (.array [.boolean true, .string "b"]) := by
  have hL : int_len 2 = 2 := by rfl
  have h := (array_decision to_string_sample 2
    [(.integer 2, .string "b"), (.integer 1, .boolean true),
      (.string "x", .other .function)]).2.2
  rw [hL] at h
  have hcond : (0 : Int) < 2 ∧ ∀ i : Int, 1 ≤ i → i ≤ 2 →
      lua_gettable [(.integer 2, .string "b"), (.integer 1, .boolean true),
        (.string "x", .other .function)] i ≠ .nil := by
    refine ⟨by decide, fun i h1 h2 => ?_⟩
    have hi : i = 1 ∨ i = 2 := by omega
    rcases hi with rfl | rfl <;> simp [lua_gettable, is_integer_key]
  refine ((h hcond).1 [.boolean true, .string "b"]).2 ⟨by rfl, fun k hk => ?_⟩
  have hk2 : k = 0 ∨ k = 1 := by
    simp only [List.length_cons, List.length_nil] at hk
    omega
  rcases hk2 with rfl | rfl <;> rfl

/-- C1 fails as stated, on two grounds.  The table `{print}` has reported length
1 and a non-nil value under key 1, yet its conversion is an error, not an Array.
And `2^32 + 1` is a border of the table `{[1] = true, [2^32 + 1] = true}`, whose
key 2 is absent: when the host reports it, the code holds the length 1 and the
table converts to the Array `[true]`. -/
theorem array_decision_counterexample :
    (lua_gettable [(.integer 1, .other .function)] 1 ≠ .nil ∧
      lua_value_to_json to_string_sample (.table (int_len 1) [(.integer 1, .other .function)]) =
        .error "Unsupported Lua type for JSON conversion") ∧
    (is_border [(.integer 1, .boolean true), (.integer 4294967297, .boolean true)] 4294967297 ∧
      lua_gettable [(.integer 1, .boolean true), (.integer 4294967297, .boolean true)] 2 =
        .nil ∧
      lua_value_to_json to_string_sample (.table (int_len 4294967297)
        [(.integer 1, .boolean true), (.integer 4294967297, .boolean true)]) =
        .ok (.array [.boolean true])) := by
  refine ⟨⟨by simp [lua_gettable, is_integer_key], by rfl⟩, ⟨?_, by rfl, by rfl⟩⟩
  refine ⟨by decide, Or.inr ?_, by rfl⟩
  simp [lua_gettable, is_integer_key]

end ComputoLua
